import Mathlib

/-!
# ram_console: a persistent RAM console protected by Reed-Solomon parity

Shallow embedding of `drivers/staging/android/ram_console.c`.

* The mapped region is a `ram_console_buffer`: the three `uint32_t` header
  fields and the flexible array `data[]`, a byte memory addressed by its
  offset from `buffer->data`.  The data zone is `data[0 .. capacity)` and the
  parity zone starts at `ram_console_par_buffer = data + capacity`.
* The driver's file-scope variables are the remaining fields of `State`.
* `size_t`, `unsigned int`, `int` and `uint32_t` are 32 bits wide (the ARM
  target of this tree); additions that can wrap are written `% WORD` and
  subtractions `wsub`.
* The Reed-Solomon library (`linux/rslib.h`) is not part of the sources; the
  two entry points the driver calls are the fields of `rs_control`.
* `State.log` is a ghost field: each memory access of the write path and each
  decoder call of the recovery path appends one `Access`.
-/

namespace RamConsole

/-! ## Constants -/

/-- The signature `RAM_CONSOLE_SIG`, the bytes "DBGC". -/
def RAM_CONSOLE_SIG : Nat := 0x43474244

/-- The size `ECC_BLOCK_SIZE` of a data block. -/
def ECC_BLOCK_SIZE : Nat := 128

/-- The size `ECC_SIZE` of a parity block. -/
def ECC_SIZE : Nat := 16

/-- The value of `sizeof(struct ram_console_buffer)`: three `uint32_t`. -/
def HDR_SIZE : Nat := 12

/-- Modulus of 32-bit unsigned arithmetic. -/
def WORD : Nat := 4294967296

/-- The difference `a - b` in 32-bit unsigned arithmetic, for `a` and `b` below
`WORD`: it wraps around when `b` exceeds `a`. -/
def wsub (a b : Nat) : Nat := if b ≤ a then a - b else a + WORD - b

/-- The value of `sizeof(strbuf)` in `ram_console_save_old`. -/
def STRBUF_SIZE : Nat := 80

/-- Modelled from the spec: `DIV_ROUND_UP` is a macro of `linux/kernel.h`, which
is not among the sources.  The spec reads it as `ceil(n / d)`, the number of
blocks of `d` bytes that cover `n` bytes. -/
def DIV_ROUND_UP (n d : Nat) : Nat := (n + d - 1) / d

/-! ## Memory -/

/-- A byte, `uint8_t` or `char`. -/
abbrev u8 := Fin 256

/-- Byte memory behind `buffer->data`, addressed by offset. -/
abbrev Mem := Nat → u8

/-- The bytes `m[off .. off + len)`. -/
def rd (m : Mem) (off len : Nat) : List u8 :=
  (List.range len).map fun i => m (off + i)

/-- The effect of `memcpy(data + dst, s + soff, n)`. -/
def memcpy (m : Mem) (dst : Nat) (s : List u8) (soff n : Nat) : Mem :=
  fun a => if dst ≤ a ∧ a < dst + n then s.getD (soff + (a - dst)) 0 else m a

/-- The mapped region seen through `struct ram_console_buffer`. -/
structure ram_console_buffer where
  sig : Nat
  start : Nat
  size : Nat
  data : Mem

/-- One memory access or codec call, recorded in `State.log`. -/
inductive Access where
  /-- Read of `s[off .. off + len)`, the source of a `memcpy`. -/
  | chunk_read (off len : Nat)
  /-- Write of `data[off .. off + len)`, the destination of a `memcpy`. -/
  | data_write (off len : Nat)
  /-- Read of `data[off .. off + len)` by the encoder. -/
  | encode_read (off len : Nat)
  /-- Read of the 12 header bytes by the encoder. -/
  | header_read
  /-- Write of `ECC_SIZE` bytes at `ram_console_par_buffer + off`. -/
  | par_write (off : Nat)
  /-- Decoder call on `data[off .. off + len)` with the parity at
  `ram_console_par_buffer + par`, and the value it returned. -/
  | decode (off len par : Nat) (numerr : Int)
  /-- Decoder call on the header with the parity at
  `ram_console_par_buffer + par`, and the value it returned. -/
  | header_decode (par : Nat) (numerr : Int)
  deriving DecidableEq, Repr

/-- The region together with the driver's file-scope variables. -/
structure State where
  buffer : ram_console_buffer
  ram_console_buffer_size : Nat
  ram_console_old_log : Option (List u8)
  ram_console_old_log_size : Nat
  ram_console_corrected_bytes : Int
  ram_console_bad_blocks : Int
  log : List Access

/-- Offset of `ram_console_par_buffer` from `buffer->data`. -/
def State.par_buffer (st : State) : Nat := st.ram_console_buffer_size

/-! ## Codec glue -/

/-- The Reed-Solomon library as the driver uses it.  `encode_rs8 data` is the
content of the parity words after `encode_rs8(rs, data, len, par, 0)` on a
zeroed `par`; `decode_rs8 data par` is the return value of
`decode_rs8(rs, data, par, len, NULL, 0, NULL, 0, NULL)` and the content of
`data` afterwards. -/
structure rs_control where
  encode_rs8 : List u8 → List Nat
  decode_rs8 : List u8 → List Nat → Int × List u8

/-- The function `ram_console_encode_rs8`: the `ECC_SIZE` parity words narrowed
to bytes. -/
def ram_console_encode_rs8 (rs : rs_control) (data : List u8) : List u8 :=
  let par := rs.encode_rs8 data
  (List.range ECC_SIZE).map fun i => Fin.ofNat (par.getD i 0)

/-- The function `ram_console_decode_rs8`: the `ECC_SIZE` parity bytes widened
to words, then the library decoder. -/
def ram_console_decode_rs8 (rs : rs_control) (data : List u8) (ecc : List u8) :
    Int × List u8 :=
  let par := (List.range ECC_SIZE).map fun i => (ecc.getD i 0).val
  rs.decode_rs8 data par

/-- Little-endian bytes of a `uint32_t`. -/
def le32 (x : Nat) : List u8 :=
  [Fin.ofNat x, Fin.ofNat (x / 256), Fin.ofNat (x / 65536), Fin.ofNat (x / 16777216)]

/-- The `uint32_t` stored little-endian at `b[i .. i + 4)`. -/
def of_le32 (b : List u8) (i : Nat) : Nat :=
  (b.getD i 0).val + 256 * (b.getD (i + 1) 0).val + 65536 * (b.getD (i + 2) 0).val
    + 16777216 * (b.getD (i + 3) 0).val

/-- The header as the `sizeof(*buffer)` bytes the codec sees. -/
def header_bytes (b : ram_console_buffer) : List u8 :=
  le32 b.sig ++ le32 b.start ++ le32 b.size

/-- The header fields read back from the bytes the decoder left. -/
def set_header_bytes (b : ram_console_buffer) (h : List u8) : ram_console_buffer :=
  { b with sig := of_le32 h 0, start := of_le32 h 4, size := of_le32 h 8 }

/-! ## The write path -/

/-- The `do ... while` loop of `ram_console_update`.  `stop` is
`buffer->start + count`; `block` and `par` are offsets from `buffer->data` and
`ram_console_par_buffer`; `size` is the local `int size`. -/
def ram_console_update_loop (rs : rs_control) (stop : Nat) :
    Nat → Nat → Nat → Nat → State → Option State
  | 0, _, _, _, _ => none
  | fuel + 1, block, size, par, st =>
    let buffer_end := st.ram_console_buffer_size
    let size := if block + ECC_BLOCK_SIZE > buffer_end
      then wsub buffer_end block else size
    let ecc := ram_console_encode_rs8 rs (rd st.buffer.data block size)
    let st1 : State := { st with
      buffer := { st.buffer with
        data := memcpy st.buffer.data (st.par_buffer + par) ecc 0 ECC_SIZE }
      log := st.log ++ [Access.encode_read block size, Access.par_write par] }
    if block + ECC_BLOCK_SIZE < stop then
      ram_console_update_loop rs stop fuel (block + ECC_BLOCK_SIZE) size (par + ECC_SIZE) st1
    else some st1

/-- The function `ram_console_update(s + soff, count)`: copy the bytes to
`data + start`, then re-encode from the block holding `start`. -/
def ram_console_update (rs : rs_control) (st : State) (s : List u8) (soff count : Nat) :
    Option State :=
  let st1 : State := { st with
    buffer := { st.buffer with
      data := memcpy st.buffer.data st.buffer.start s soff count }
    log := st.log ++ [Access.chunk_read soff count,
      Access.data_write st.buffer.start count] }
  ram_console_update_loop rs (st.buffer.start + count) (count / ECC_BLOCK_SIZE + 2)
    (st.buffer.start - st.buffer.start % ECC_BLOCK_SIZE) ECC_BLOCK_SIZE
    (st.buffer.start / ECC_BLOCK_SIZE * ECC_SIZE) st1

/-- The function `ram_console_update_header`. -/
def ram_console_update_header (rs : rs_control) (st : State) : State :=
  let par := DIV_ROUND_UP st.ram_console_buffer_size ECC_BLOCK_SIZE * ECC_SIZE
  let ecc := ram_console_encode_rs8 rs (header_bytes st.buffer)
  { st with
    buffer := { st.buffer with
      data := memcpy st.buffer.data (st.par_buffer + par) ecc 0 ECC_SIZE }
    log := st.log ++ [Access.header_read, Access.par_write par] }

/-- The function `ram_console_write(console, s, count)` with `count` the length
of `s`. -/
def ram_console_write (rs : rs_control) (st : State) (s : List u8) : Option State :=
  let count := s.length
  let cap := st.ram_console_buffer_size
  let soff := if count > cap then count - cap else 0
  let count := if count > cap then cap else count
  let rem := wsub cap st.buffer.start
  let wrapped : Option (State × Nat × Nat) :=
    if rem < count then
      (ram_console_update rs st s soff rem).map fun st1 =>
        ({ st1 with buffer := { st1.buffer with start := 0, size := cap % WORD } },
          soff + rem, count - rem)
    else some (st, soff, count)
  wrapped.bind fun (st1, soff, count) =>
    (ram_console_update rs st1 s soff count).map fun st2 =>
      let st3 : State := { st2 with
        buffer := { st2.buffer with start := (st2.buffer.start + count) % WORD } }
      let st4 : State :=
        if st3.buffer.size < cap then
          { st3 with buffer := { st3.buffer with size := (st3.buffer.size + count) % WORD } }
        else st3
      ram_console_update_header rs st4

/-- A sequence of calls of `ram_console_write`. -/
def ram_console_writes (rs : rs_control) (st : State) : List (List u8) → Option State
  | [] => some st
  | s :: rest => (ram_console_write rs st s).bind fun st1 => ram_console_writes rs st1 rest

/-! ## The recovery path -/

/-- The bytes of a string literal. -/
def str_bytes (s : String) : List u8 := s.toList.map fun c => Fin.ofNat c.toNat

/-- Decimal digits of `n`, most significant first, in front of `acc`. -/
def dec_digits : Nat → Nat → List u8 → List u8
  | 0, _, acc => acc
  | fuel + 1, n, acc =>
    if n / 10 = 0 then Fin.ofNat (48 + n % 10) :: acc
    else dec_digits fuel (n / 10) (Fin.ofNat (48 + n % 10) :: acc)

/-- The conversion `%d` of an `int`. -/
def fmt_d (i : Int) : List u8 :=
  if i < 0 then 45 :: dec_digits 10 i.natAbs [] else dec_digits 10 i.natAbs []

/-- The text the two `snprintf` calls of `ram_console_save_old` format, before
it is cut to the buffer. -/
def footer_text (corrected_bytes bad_blocks : Int) : List u8 :=
  if corrected_bytes ≠ 0 ∨ bad_blocks ≠ 0 then
    str_bytes "\n" ++ fmt_d corrected_bytes ++ str_bytes " Corrected bytes, "
      ++ fmt_d bad_blocks ++ str_bytes " unrecoverable blocks\n"
  else str_bytes "\nNo errors detected\n"

/-- The value of `strbuf_len` after the clamp to `sizeof(strbuf) - 1`. -/
def footer_len (corrected_bytes bad_blocks : Int) : Nat :=
  let n := (footer_text corrected_bytes bad_blocks).length
  if n ≥ STRBUF_SIZE then STRBUF_SIZE - 1 else n

/-- The bytes `strbuf[0 .. strbuf_len)` that reach the snapshot. -/
def footer (corrected_bytes bad_blocks : Int) : List u8 :=
  (footer_text corrected_bytes bad_blocks).take (footer_len corrected_bytes bad_blocks)

/-- The body of the `while` loop of `ram_console_save_old`: decode the block at
`block` in place against the parity at `par` and count the outcome. -/
def ram_console_save_old_block (rs : rs_control) (st : State) (block par : Nat) : State :=
  let size := if block + ECC_BLOCK_SIZE > st.ram_console_buffer_size
    then wsub st.ram_console_buffer_size block else ECC_BLOCK_SIZE
  let r := ram_console_decode_rs8 rs (rd st.buffer.data block size)
    (rd st.buffer.data (st.par_buffer + par) ECC_SIZE)
  let st1 : State := { st with
    buffer := { st.buffer with data := memcpy st.buffer.data block r.2 0 size }
    log := st.log ++ [Access.decode block size par r.1] }
  if r.1 > 0 then
    { st1 with ram_console_corrected_bytes := st1.ram_console_corrected_bytes + r.1 }
  else if r.1 < 0 then
    { st1 with ram_console_bad_blocks := st1.ram_console_bad_blocks + 1 }
  else st1

/-- The `while` loop of `ram_console_save_old`: the blocks that start below
`buffer->size`, in ascending order. -/
def ram_console_save_old_loop (rs : rs_control) : Nat → Nat → Nat → State → Option State
  | 0, _, _, _ => none
  | fuel + 1, block, par, st =>
    if block < st.buffer.size then
      ram_console_save_old_loop rs fuel (block + ECC_BLOCK_SIZE) (par + ECC_SIZE)
        (ram_console_save_old_block rs st block par)
    else some st

/-- The function `ram_console_save_old(buffer, dest)`.  `dest` says whether the
caller passed storage; `kmalloc_ok` whether the allocation succeeds when it
did not. -/
def ram_console_save_old (rs : rs_control) (kmalloc_ok : Bool) (st : State) (dest : Bool) :
    Option State :=
  let old_log_size := st.buffer.size
  (ram_console_save_old_loop rs (st.buffer.size / ECC_BLOCK_SIZE + 2) 0 0 st).map fun st1 =>
    let strbuf_len := footer_len st1.ram_console_corrected_bytes st1.ram_console_bad_blocks
    let old_log_size := (old_log_size + strbuf_len) % WORD
    if !dest && !kmalloc_ok then st1
    else
      let b := st1.buffer
      { st1 with
        ram_console_old_log := some
          (rd b.data b.start (wsub b.size b.start) ++ rd b.data 0 b.start
            ++ footer st1.ram_console_corrected_bytes st1.ram_console_bad_blocks)
        ram_console_old_log_size := old_log_size }

/-- The ways `ram_console_init` ends without registering the console, and the
embedding's own fuel bound. -/
inductive init_error where
  | invalid_size
  | init_rs_failed
  | out_of_fuel
  deriving DecidableEq, Repr

/-- The layout step of `ram_console_init`: the value left in
`ram_console_buffer_size`, or `none` when one of the two size checks fails. -/
def ram_console_layout (buffer_size : Nat) : Option Nat :=
  let sz := wsub buffer_size HDR_SIZE
  if sz > buffer_size then none
  else
    let sz := wsub sz ((DIV_ROUND_UP sz ECC_BLOCK_SIZE + 1) * ECC_SIZE % WORD)
    if sz > buffer_size then none else some sz

/-- The header decode of `ram_console_init`: the counters are cleared, the
header is decoded in place against its parity slot and the outcome counted. -/
def ram_console_init_header (rs : rs_control) (buffer : ram_console_buffer) (cap : Nat) :
    State :=
  let par := DIV_ROUND_UP cap ECC_BLOCK_SIZE * ECC_SIZE
  let r := ram_console_decode_rs8 rs (header_bytes buffer) (rd buffer.data (cap + par) ECC_SIZE)
  let st0 : State :=
    { buffer := set_header_bytes buffer r.2
      ram_console_buffer_size := cap
      ram_console_old_log := none
      ram_console_old_log_size := 0
      ram_console_corrected_bytes := 0
      ram_console_bad_blocks := 0
      log := [Access.header_decode par r.1] }
  if r.1 > 0 then { st0 with ram_console_corrected_bytes := 0 + r.1 }
  else if r.1 < 0 then { st0 with ram_console_bad_blocks := 0 + 1 }
  else st0

/-- The header check of `ram_console_init`: `ram_console_save_old` runs when the
signature matches and neither `size > ram_console_buffer_size` nor
`start > size`. -/
def ram_console_init_recover (rs : rs_control) (kmalloc_ok : Bool) (st : State)
    (old_buf : Bool) : Option State :=
  if st.buffer.sig = RAM_CONSOLE_SIG then
    if st.buffer.size > st.ram_console_buffer_size ∨ st.buffer.start > st.buffer.size then
      some st
    else ram_console_save_old rs kmalloc_ok st old_buf
  else some st

/-- The function `ram_console_init(buffer, buffer_size, old_buf)`.  `init_rs` is
the result of the library's `init_rs`, `none` for `NULL`. -/
def ram_console_init (init_rs : Option rs_control) (kmalloc_ok : Bool)
    (buffer : ram_console_buffer) (buffer_size : Nat) (old_buf : Bool) :
    Except init_error State :=
  match ram_console_layout buffer_size with
  | none => .error .invalid_size
  | some cap =>
    match init_rs with
    | none => .error .init_rs_failed
    | some rs =>
      match ram_console_init_recover rs kmalloc_ok
          (ram_console_init_header rs buffer cap) old_buf with
      | none => .error .out_of_fuel
      | some st2 =>
        .ok { st2 with buffer := { st2.buffer with sig := RAM_CONSOLE_SIG, start := 0, size := 0 } }

/-! ## Reading the old log -/

/-- What one call of `ram_console_read_old` leaves: the value returned, the
bytes copied to the user buffer and the file offset. -/
structure read_result where
  ret : Int
  bytes : List u8
  offset : Int

/-- The conversion of a `size_t` to `ssize_t`. -/
def to_ssize (n : Nat) : Int := if n < 2147483648 then (n : Int) else (n : Int) - 4294967296

/-- The function `ram_console_read_old(file, buf, len, offset)`.  `copy_ok` says
whether `copy_to_user` succeeds; `offset` is the `loff_t` behind the pointer. -/
def ram_console_read_old (st : State) (copy_ok : Bool) (len : Nat) (offset : Int) :
    read_result :=
  let pos := offset
  if pos ≥ (st.ram_console_old_log_size : Int) then { ret := 0, bytes := [], offset := offset }
  else
    let count := min len (((st.ram_console_old_log_size : Int) - pos) % 4294967296).toNat
    if !copy_ok then { ret := -14, bytes := [], offset := offset }
    else
      { ret := to_ssize count
        bytes := ((st.ram_console_old_log.getD []).drop pos.toNat).take count
        offset := offset + to_ssize count }

/-- A reader that calls `ram_console_read_old` with a buffer of `len` bytes
from `offset` on until it returns 0, and collects what it was given. -/
def read_old_all (st : State) (len : Nat) : Nat → Int → List u8 → Option (List u8)
  | 0, _, _ => none
  | fuel + 1, offset, acc =>
    let r := ram_console_read_old st true len offset
    if r.ret = 0 then some acc
    else read_old_all st len fuel r.offset (acc ++ r.bytes)

/-! ## Stand-ins for running the driver on concrete regions -/

/-- A detect-only codec: the first parity word is the byte sum modulo 256 and
the other 15 are zero, the decoder reports a clean block when the sum matches and an uncorrectable one
otherwise, and leaves the data as it is. -/
def rs_checksum : rs_control where
  encode_rs8 d := (d.map Fin.val).sum % 256 :: List.replicate 15 0
  decode_rs8 d par := if par.getD 0 0 = (d.map Fin.val).sum % 256 then (0, d) else (-74, d)

/-- A correcting codec for blocks of at most `ECC_SIZE` bytes: the parity words
are a copy of the block, the decoder puts the copy back and returns the number
of bytes this changed. -/
def rs_copy : rs_control where
  encode_rs8 d := (List.range ECC_SIZE).map fun i => (d.getD i 0).val
  decode_rs8 d par :=
    let fixed : List u8 := (List.range d.length).map fun i =>
      if i < ECC_SIZE then Fin.ofNat (par.getD i 0) else d.getD i 0
    ((((d.zip fixed).filter fun p => p.1 ≠ p.2).length : Nat), fixed)

/-- A block of 16 bytes, the letters "A" to "P". -/
def sample_block : List u8 :=
  [65, 66, 67, 68, 69, 70, 71, 72, 73, 74, 75, 76, 77, 78, 79, 80]

/-- The block `sample_block` with 8 of its bytes, every other one, set to zero. -/
def sample_corrupted : List u8 :=
  [0, 66, 0, 68, 0, 70, 0, 72, 0, 74, 0, 76, 0, 78, 0, 80]

/-- A region of zero bytes, as never written. -/
def blank_buffer : ram_console_buffer :=
  { sig := 0, start := 0, size := 0, data := fun _ => 0 }

/-- The state `ram_console_init` leaves on the blank region of 332 bytes: the
capacity is 256 and nothing was recovered. -/
def blank_state : State :=
  { buffer := { sig := RAM_CONSOLE_SIG, start := 0, size := 0, data := fun _ => 0 }
    ram_console_buffer_size := 256
    ram_console_old_log := none
    ram_console_old_log_size := 0
    ram_console_corrected_bytes := 0
    ram_console_bad_blocks := 0
    log := [Access.header_decode 32 0] }

/-! ## Vocabulary of the properties -/

/-- Length of data block `i`: `ECC_BLOCK_SIZE`, or what is left of the data
zone for the last block. -/
def block_len (cap i : Nat) : Nat := min ECC_BLOCK_SIZE (cap - ECC_BLOCK_SIZE * i)

/-- Content of data block `i` of a data zone of `cap` bytes. -/
def data_block (cap : Nat) (m : Mem) (i : Nat) : List u8 :=
  rd m (ECC_BLOCK_SIZE * i) (block_len cap i)

/-- Content of parity slot `i`, the bytes at `ram_console_par_buffer + 16 * i`,
where `ram_console_par_buffer` is `data + cap`. -/
def par_slot (cap : Nat) (m : Mem) (i : Nat) : List u8 :=
  rd m (cap + ECC_SIZE * i) ECC_SIZE

/-- Parity slot `i` holds the parity of data block `i` as it stands. -/
def block_parity_ok (rs : rs_control) (cap : Nat) (m : Mem) (i : Nat) : Prop :=
  par_slot cap m i = ram_console_encode_rs8 rs (data_block cap m i)

/-- The header's parity slot holds the parity of the header as it stands. -/
def header_parity_ok (rs : rs_control) (st : State) : Prop :=
  par_slot st.ram_console_buffer_size st.buffer.data
      (DIV_ROUND_UP st.ram_console_buffer_size ECC_BLOCK_SIZE)
    = ram_console_encode_rs8 rs (header_bytes st.buffer)

/-- The live logical content of the data zone. -/
def live_content (st : State) : List u8 :=
  if st.buffer.size = st.ram_console_buffer_size then
    rd st.buffer.data st.buffer.start (st.ram_console_buffer_size - st.buffer.start)
      ++ rd st.buffer.data 0 st.buffer.start
  else rd st.buffer.data 0 st.buffer.size

/-- The last `n` elements of a list. -/
def last_n (n : Nat) (l : List u8) : List u8 := l.drop (l.length - n)

/-- An access stays inside its zone: the chunk of `chunk_len` bytes, the data
zone `[0, cap)`, or the parity zone of `DIV_ROUND_UP cap 128 + 1` slots. -/
def access_ok (cap chunk_len : Nat) : Access → Prop
  | .chunk_read off len => off + len ≤ chunk_len
  | .data_write off len => off + len ≤ cap
  | .encode_read off len => off + len ≤ cap
  | .header_read => True
  | .par_write off => off + ECC_SIZE ≤ ECC_SIZE * (DIV_ROUND_UP cap ECC_BLOCK_SIZE + 1)
  | .decode off len par _ =>
    off + len ≤ cap ∧ par + ECC_SIZE ≤ ECC_SIZE * (DIV_ROUND_UP cap ECC_BLOCK_SIZE + 1)
  | .header_decode par _ => par + ECC_SIZE ≤ ECC_SIZE * (DIV_ROUND_UP cap ECC_BLOCK_SIZE + 1)

/-- Slot `i` is one the loop of `ram_console_update` encodes when it starts at
slot `k` and runs up to byte `stop`: the first slot always, a later one while
its block starts below `stop`. -/
def touched (k stop i : Nat) : Prop := k ≤ i ∧ (i = k ∨ ECC_BLOCK_SIZE * i < stop)

instance (k stop i : Nat) : Decidable (touched k stop i) := by
  unfold touched
  infer_instance

/-- The bytes of the data zone after `ram_console_write` stored the chunk `s` at
cursor `start`: the last `min s.length cap` bytes of `s`, laid from `start` to
the end of the zone and then from offset 0. -/
def write_data (cap start : Nat) (s : List u8) (m : Mem) : Mem := fun a =>
  if start ≤ a ∧ a < start + min s.length cap then
    s.getD (s.length - min s.length cap + (a - start)) 0
  else if a + cap < start + min s.length cap then
    s.getD (s.length - min s.length cap + (a + cap - start)) 0
  else m a

/-- Data offset `a` receives a byte when a chunk of `n` bytes is written at
cursor `start`. -/
def written (cap start n a : Nat) : Prop :=
  a < cap ∧ ((start ≤ a ∧ a < start + min n cap) ∨ a + cap < start + min n cap)

/-- Slot `i` is encoded by one of the calls of `ram_console_update` that
`ram_console_write` makes for a chunk of `n` bytes at cursor `start`. -/
def reencoded (cap start n i : Nat) : Prop :=
  if cap - start < min n cap then
    touched (start / ECC_BLOCK_SIZE) cap i ∨ touched 0 (min n cap - (cap - start)) i
  else touched (start / ECC_BLOCK_SIZE) (start + min n cap) i

instance (cap start n i : Nat) : Decidable (reencoded cap start n i) := by
  unfold reencoded
  infer_instance

/-- The cursor `start` after a chunk of `n` bytes. -/
def next_start (cap start n : Nat) : Nat :=
  if cap - start < min n cap then min n cap - (cap - start) else start + min n cap

/-- The field `size` after a chunk of `n` bytes. -/
def next_size (cap start size n : Nat) : Nat :=
  if cap - start < min n cap then cap
  else if size < cap then (size + min n cap) % WORD else size

/-- The cursor of a session that started empty: `start` is inside the zone and
`size` is `start` (not yet wrapped) or the capacity. -/
def cursor_inv (st : State) : Prop :=
  st.buffer.start ≤ st.ram_console_buffer_size
    ∧ (st.buffer.size = st.buffer.start ∨ st.buffer.size = st.ram_console_buffer_size)

/-- The codec reports 0 errors and changes nothing when a block of at most
`ECC_BLOCK_SIZE` bytes is decoded against the parity encoded from exactly
those bytes. -/
def rs_clean (rs : rs_control) : Prop :=
  ∀ d : List u8, d.length ≤ ECC_BLOCK_SIZE →
    ram_console_decode_rs8 rs d (ram_console_encode_rs8 rs d) = (0, d)

/-- Number of positions at which two blocks differ. -/
def diff_count (d d1 : List u8) : Nat :=
  ((d.zip d1).filter fun p => p.1 ≠ p.2).length

/-- Modelled from the spec: the Reed-Solomon library (`lib/reed_solomon`) is not
among the sources.  Its parity for the block `d`, for 8-bit symbols and 16
roots, is `ECC_SIZE` words, each an 8-bit symbol. -/
def lib_symbols (rs : rs_control) (d : List u8) : Prop :=
  (rs.encode_rs8 d).length = ECC_SIZE ∧ ∀ w ∈ rs.encode_rs8 d, w < 256

/-- Modelled from the spec: the Reed-Solomon library (`lib/reed_solomon`) is not
among the sources.  The codec contract of the spec for the block `d` and its
corrupted copy `d1`: decoding `d1` against the parity words encoded from `d`
restores `d` and returns the number of changed symbols. -/
def lib_corrects (rs : rs_control) (d d1 : List u8) : Prop :=
  rs.decode_rs8 d1 (rs.encode_rs8 d) = ((diff_count d d1 : Int), d)

/-- Two states differ at most in the region's memory and the log. -/
def same_frame (st st1 : State) : Prop :=
  st1.ram_console_buffer_size = st.ram_console_buffer_size
  ∧ st1.ram_console_old_log = st.ram_console_old_log
  ∧ st1.ram_console_old_log_size = st.ram_console_old_log_size
  ∧ st1.ram_console_corrected_bytes = st.ram_console_corrected_bytes
  ∧ st1.ram_console_bad_blocks = st.ram_console_bad_blocks
  ∧ st1.buffer.sig = st.buffer.sig

/-! ## Further vocabulary and concrete regions -/

/-- Data block `i` holds one of the bytes written when a chunk of `n` bytes is
appended at cursor `start`. -/
def block_written (cap start n i : Nat) : Prop :=
  ∃ a, written cap start n a ∧ ECC_BLOCK_SIZE * i ≤ a ∧ a < ECC_BLOCK_SIZE * i + ECC_BLOCK_SIZE

/-- A state of capacity 256 whose cursor stands at the end of the data zone, as
after exactly 256 bytes were appended. -/
def full_state : State :=
  { blank_state with buffer := { blank_state.buffer with start := 256, size := 256 } }

/-- A state that holds the snapshot of the scenario, "AAAA" followed by the
footer of a clean recovery. -/
def logged_state : State :=
  { blank_state with
    ram_console_old_log := some (str_bytes "AAAA\nNo errors detected\n")
    ram_console_old_log_size := 24 }

/-- What the decoder returns for data block `i` of the region, and the bytes it
leaves there. -/
def block_decode (rs : rs_control) (cap : Nat) (m : Mem) (i : Nat) : Int × List u8 :=
  ram_console_decode_rs8 rs (data_block cap m i) (par_slot cap m i)

/-- What a decode result adds to `ram_console_corrected_bytes`. -/
def corrected_of (numerr : Int) : Int := if numerr > 0 then numerr else 0

/-- What a decode result adds to `ram_console_bad_blocks`. -/
def bad_of (numerr : Int) : Int := if numerr < 0 then 1 else 0

/-- The region's memory after the data blocks `k .. n - 1` were decoded in
place: each of their bytes is what the decoder left, every other byte is
untouched. -/
def decoded_data (rs : rs_control) (cap : Nat) (m : Mem) (k n : Nat) : Mem := fun a =>
  if ECC_BLOCK_SIZE * k ≤ a ∧ a < ECC_BLOCK_SIZE * n ∧ a < cap then
    (block_decode rs cap m (a / ECC_BLOCK_SIZE)).2.getD (a % ECC_BLOCK_SIZE) 0
  else m a

/-- The decoder calls on the data blocks `k .. n - 1` in ascending order, as
they appear in the log. -/
def decode_calls (rs : rs_control) (cap : Nat) (m : Mem) (k n : Nat) : List Access :=
  (List.range' k (n - k)).map fun i =>
    Access.decode (ECC_BLOCK_SIZE * i) (block_len cap i) (ECC_SIZE * i) (block_decode rs cap m i).1

/-- The sum of the positive decode results of the data blocks `k .. n - 1`. -/
def corrected_sum (rs : rs_control) (cap : Nat) (m : Mem) (k n : Nat) : Int :=
  ((List.range' k (n - k)).map fun i => corrected_of (block_decode rs cap m i).1).sum

/-- The number of negative decode results of the data blocks `k .. n - 1`. -/
def bad_sum (rs : rs_control) (cap : Nat) (m : Mem) (k n : Nat) : Int :=
  ((List.range' k (n - k)).map fun i => bad_of (block_decode rs cap m i).1).sum

/-- The header as the header decode of `ram_console_init` leaves it. -/
def decoded_header (rs : rs_control) (buffer : ram_console_buffer) (cap : Nat) :
    ram_console_buffer :=
  (ram_console_init_header rs buffer cap).buffer

/-- The value the decoder returns for the header. -/
def header_result (rs : rs_control) (buffer : ram_console_buffer) (cap : Nat) : Int :=
  (ram_console_decode_rs8 rs (header_bytes buffer)
    (par_slot cap buffer.data (DIV_ROUND_UP cap ECC_BLOCK_SIZE))).1

/-- The header check of `ram_console_init` passes: the signature matches and
neither `size > ram_console_buffer_size` nor `start > size`. -/
def header_valid (cap : Nat) (b : ram_console_buffer) : Prop :=
  b.sig = RAM_CONSOLE_SIG ∧ b.size ≤ cap ∧ b.start ≤ b.size

instance (cap : Nat) (b : ram_console_buffer) : Decidable (header_valid cap b) := by
  unfold header_valid
  infer_instance

/-- The number a string of decimal digits denotes. -/
def dec_value (l : List u8) : Nat := l.foldl (fun v d => 10 * v + (d.val - 48)) 0

/-- The byte is one of the characters `0` .. `9`. -/
def is_digit (d : u8) : Prop := 48 ≤ d.val ∧ d.val ≤ 57

/-- A full region whose cursor stands at offset 100: capacity 256, every data
byte equal to its offset, no parity written. -/
def wrapped_state : State :=
  { blank_state with
    buffer := { sig := RAM_CONSOLE_SIG, start := 100, size := 256,
                data := fun a => if a < 256 then Fin.ofNat a else 0 } }

/-- A region of 332 bytes as a session that appended "AAAA" leaves it: the
header says `start = 4` and `size = 4`, and the parity slots of block 0 and of
the header hold what `rs_checksum` encodes. -/
def short_buffer : ram_console_buffer :=
  { sig := RAM_CONSOLE_SIG, start := 4, size := 4
    data := fun a => if a < 4 then 65 else if a = 256 then 4 else if a = 288 then 24 else 0 }

/-- The region `short_buffer` with the first data byte changed from "A" to "B"
and the parity left as it was: block 0 no longer matches its parity slot. -/
def damaged_buffer : ram_console_buffer :=
  { short_buffer with
    data := fun a => if a = 0 then 66 else short_buffer.data a }

/-- A region of 332 bytes whose header says `start = 1` and `size = 2`, with
"AB" at the head of the data zone and matching parity for block 0 and for the
header. -/
def rotated_buffer : ram_console_buffer :=
  { sig := RAM_CONSOLE_SIG, start := 1, size := 2
    data := fun a => if a = 0 then 65 else if a = 1 then 66 else if a = 256 then 131
      else if a = 288 then 19 else 0 }

/-- A region of 332 bytes whose signed header says `start = 5` and `size = 3`,
with matching header parity. -/
def crossed_buffer : ram_console_buffer :=
  { sig := RAM_CONSOLE_SIG, start := 5, size := 3
    data := fun a => if a = 288 then 24 else 0 }

/-- The region of 332 bytes that `ram_console_init` leaves when it has run on
a never-written region: a signed, empty header and no parity. -/
def unprotected_buffer : ram_console_buffer :=
  { sig := RAM_CONSOLE_SIG, start := 0, size := 0, data := fun _ => 0 }

/-- Every data block that starts below `size` has its parity slot equal to the
parity of its content. -/
def parity_inv (rs : rs_control) (st : State) : Prop :=
  ∀ i, ECC_BLOCK_SIZE * i < st.buffer.size →
    block_parity_ok rs st.ram_console_buffer_size st.buffer.data i

/-! ## Memory lemmas -/

theorem rd_length (m : Mem) (off len : Nat) : (rd m off len).length = len := by
  simp [rd]

theorem rd_congr (m m1 : Mem) (off len : Nat)
    (h : ∀ a, off ≤ a → a < off + len → m a = m1 a) : rd m off len = rd m1 off len := by
  unfold rd
  apply List.map_congr_left
  intro i hi
  have := List.mem_range.mp hi
  exact h _ (by omega) (by omega)

theorem rd_append (m : Mem) (off a b : Nat) :
    rd m off (a + b) = rd m off a ++ rd m (off + a) b := by
  unfold rd
  rw [List.range_add, List.map_append, List.map_map]
  congr 1
  apply List.map_congr_left
  intro i _
  simp [Nat.add_assoc]

theorem rd_memcpy_self (m : Mem) (dst : Nat) (s : List u8) :
    rd (memcpy m dst s 0 s.length) dst s.length = s := by
  apply List.ext_getElem
  · simp [rd]
  · intro i h1 h2
    simp [rd] at h1 ⊢
    simp [memcpy, h1, List.getD_eq_getElem?_getD, List.getElem?_eq_getElem h1]

theorem rd_getD (m : Mem) (off len i : Nat) (h : i < len) :
    (rd m off len).getD i 0 = m (off + i) := by
  simp [rd, List.getD_eq_getElem?_getD, List.getElem?_map, List.getElem?_range h]

theorem memcpy_outside (m : Mem) (dst : Nat) (s : List u8) (soff n a : Nat)
    (h : a < dst ∨ dst + n ≤ a) : memcpy m dst s soff n a = m a := by
  unfold memcpy
  rw [if_neg]
  omega

theorem encode_length (rs : rs_control) (d : List u8) :
    (ram_console_encode_rs8 rs d).length = ECC_SIZE := by
  simp [ram_console_encode_rs8]

/-! ## The loop of `ram_console_update` -/

theorem par_slot_memcpy (cap : Nat) (m : Mem) (j i : Nat) (ecc : List u8)
    (hecc : ecc.length = ECC_SIZE) :
    par_slot cap (memcpy m (cap + ECC_SIZE * j) ecc 0 ECC_SIZE) i
      = if i = j then ecc else par_slot cap m i := by
  unfold par_slot
  split_ifs with h
  · subst h
    have := rd_memcpy_self m (cap + ECC_SIZE * i) ecc
    rw [hecc] at this
    exact this
  · apply rd_congr
    intro a h1 h2
    apply memcpy_outside
    simp only [ECC_SIZE] at *
    omega

theorem data_block_congr (cap : Nat) (m m1 : Mem) (i : Nat)
    (h : ∀ a, a < cap → m1 a = m a) : data_block cap m1 i = data_block cap m i := by
  unfold data_block block_len
  apply rd_congr
  intro a h1 h2
  apply h
  simp only [ECC_BLOCK_SIZE] at *
  omega

theorem update_loop_spec (rs : rs_control) (stop : Nat) :
    ∀ (fuel k size : Nat) (st : State),
      st.ram_console_buffer_size < WORD →
      ECC_BLOCK_SIZE * k ≤ st.ram_console_buffer_size →
      (size = ECC_BLOCK_SIZE
        ∨ st.ram_console_buffer_size < ECC_BLOCK_SIZE * k + ECC_BLOCK_SIZE) →
      stop ≤ st.ram_console_buffer_size →
      stop ≤ ECC_BLOCK_SIZE * k + ECC_BLOCK_SIZE * fuel → 0 < fuel →
      ∃ st1, ram_console_update_loop rs stop fuel (ECC_BLOCK_SIZE * k) size (ECC_SIZE * k) st
          = some st1
        ∧ same_frame st st1
        ∧ st1.buffer.start = st.buffer.start ∧ st1.buffer.size = st.buffer.size
        ∧ (∀ a, a < st.ram_console_buffer_size → st1.buffer.data a = st.buffer.data a)
        ∧ (∀ i, par_slot st.ram_console_buffer_size st1.buffer.data i =
            if touched k stop i
            then ram_console_encode_rs8 rs (data_block st.ram_console_buffer_size st.buffer.data i)
            else par_slot st.ram_console_buffer_size st.buffer.data i)
        ∧ ∃ new, st1.log = st.log ++ new
          ∧ (∀ x ∈ new, ∃ i, touched k stop i
              ∧ (x = Access.encode_read (ECC_BLOCK_SIZE * i)
                    (block_len st.ram_console_buffer_size i)
                  ∨ x = Access.par_write (ECC_SIZE * i)))
          ∧ ∀ i, touched k stop i → Access.par_write (ECC_SIZE * i) ∈ new := by
  intro fuel
  induction fuel with
  | zero => intro k size st _ _ _ _ _ h; omega
  | succ f ih =>
    intro k size st hW hk hsize hstop hfuel _
    have hsz : (if ECC_BLOCK_SIZE * k + ECC_BLOCK_SIZE > st.ram_console_buffer_size
        then wsub st.ram_console_buffer_size (ECC_BLOCK_SIZE * k) else size)
        = block_len st.ram_console_buffer_size k := by
      unfold block_len wsub
      simp only [ECC_BLOCK_SIZE, WORD] at *
      split_ifs <;> omega
    rw [ram_console_update_loop]
    simp only [hsz, State.par_buffer]
    have hdb : rd st.buffer.data (ECC_BLOCK_SIZE * k) (block_len st.ram_console_buffer_size k)
        = data_block st.ram_console_buffer_size st.buffer.data k := rfl
    rw [hdb]
    have hslot := fun i => par_slot_memcpy st.ram_console_buffer_size st.buffer.data k i
      (ram_console_encode_rs8 rs (data_block st.ram_console_buffer_size st.buffer.data k))
      (encode_length rs _)
    have hout : ∀ a, a < st.ram_console_buffer_size →
        memcpy st.buffer.data (st.ram_console_buffer_size + ECC_SIZE * k)
          (ram_console_encode_rs8 rs (data_block st.ram_console_buffer_size st.buffer.data k))
          0 ECC_SIZE a = st.buffer.data a := by
      intro a ha
      apply memcpy_outside
      left
      omega
    by_cases hc : ECC_BLOCK_SIZE * k + ECC_BLOCK_SIZE < stop
    · rw [if_pos hc]
      have e1 : ECC_BLOCK_SIZE * k + ECC_BLOCK_SIZE = ECC_BLOCK_SIZE * (k + 1) := by ring
      have e2 : ECC_SIZE * k + ECC_SIZE = ECC_SIZE * (k + 1) := by ring
      rw [e1, e2]
      have hbl : block_len st.ram_console_buffer_size k = ECC_BLOCK_SIZE := by
        unfold block_len
        simp only [ECC_BLOCK_SIZE] at *
        omega
      obtain ⟨st1, hrun, hfr, hs1, hs2, hdata, hpar, new, hlog, hnew, hall⟩ :=
        ih (k + 1) (block_len st.ram_console_buffer_size k)
          { st with
            buffer := { st.buffer with
              data := memcpy st.buffer.data (st.ram_console_buffer_size + ECC_SIZE * k)
                (ram_console_encode_rs8 rs
                  (data_block st.ram_console_buffer_size st.buffer.data k)) 0 ECC_SIZE }
            log := st.log ++ [Access.encode_read (ECC_BLOCK_SIZE * k)
              (block_len st.ram_console_buffer_size k), Access.par_write (ECC_SIZE * k)] }
          (by simpa using hW) (by simp only [ECC_BLOCK_SIZE] at *; omega)
          (Or.inl hbl) (by simpa using hstop)
          (by simp only [ECC_BLOCK_SIZE] at *; omega)
          (by simp only [ECC_BLOCK_SIZE] at *; omega)
      refine ⟨st1, hrun, ?_, hs1, hs2, ?_, ?_, ?_⟩
      · simpa [same_frame] using hfr
      · intro a ha
        rw [hdata a ha]
        exact hout a ha
      · intro i
        rw [hpar i, hslot, data_block_congr _ _ _ i hout]
        unfold touched
        simp only [ECC_BLOCK_SIZE] at *
        by_cases hik : i = k
        · subst hik
          simp
        · by_cases hlt : k + 1 ≤ i ∧ (i = k + 1 ∨ 128 * i < stop)
          · rw [if_pos hlt, if_pos]
            omega
          · rw [if_neg hlt, if_neg hik, if_neg]
            omega
      · refine ⟨[Access.encode_read (ECC_BLOCK_SIZE * k)
            (block_len st.ram_console_buffer_size k), Access.par_write (ECC_SIZE * k)] ++ new,
          by simpa using hlog, ?_, ?_⟩
        · intro x hx
          rcases List.mem_append.mp hx with hx | hx
          · refine ⟨k, ⟨le_refl _, Or.inl rfl⟩, ?_⟩
            simpa using hx
          · obtain ⟨i, hi, hxi⟩ := hnew x hx
            refine ⟨i, ?_, hxi⟩
            unfold touched at *
            simp only [ECC_BLOCK_SIZE] at *
            omega
        · intro i hi
          by_cases hik : i = k
          · subst hik
            simp
          · apply List.mem_append_right
            apply hall
            unfold touched at *
            simp only [ECC_BLOCK_SIZE] at *
            omega
    · rw [if_neg hc]
      refine ⟨_, rfl, ?_, rfl, rfl, ?_, ?_, ?_⟩
      · simp [same_frame]
      · intro a ha
        exact hout a ha
      · intro i
        simp only
        rw [hslot]
        unfold touched
        simp only [ECC_BLOCK_SIZE] at *
        by_cases hik : i = k
        · subst hik
          simp
        · rw [if_neg hik, if_neg]
          omega
      · refine ⟨_, rfl, ?_, ?_⟩
        · intro x hx
          refine ⟨k, ⟨le_refl _, Or.inl rfl⟩, ?_⟩
          simpa using hx
        · intro i hi
          have : i = k := by
            unfold touched at hi
            simp only [ECC_BLOCK_SIZE] at *
            omega
          subst this
          simp

/-! ## One call of `ram_console_update` -/

theorem update_spec (rs : rs_control) (st : State) (s : List u8) (soff count : Nat)
    (hW : st.ram_console_buffer_size < WORD)
    (hfit : st.buffer.start + count ≤ st.ram_console_buffer_size) :
    ∃ st1, ram_console_update rs st s soff count = some st1
      ∧ same_frame st st1
      ∧ st1.buffer.start = st.buffer.start ∧ st1.buffer.size = st.buffer.size
      ∧ (∀ a, a < st.ram_console_buffer_size →
          st1.buffer.data a = memcpy st.buffer.data st.buffer.start s soff count a)
      ∧ (∀ i, par_slot st.ram_console_buffer_size st1.buffer.data i =
          if touched (st.buffer.start / ECC_BLOCK_SIZE) (st.buffer.start + count) i
          then ram_console_encode_rs8 rs (data_block st.ram_console_buffer_size st1.buffer.data i)
          else par_slot st.ram_console_buffer_size st.buffer.data i)
      ∧ ∃ new, st1.log = st.log ++ new
        ∧ (∀ x ∈ new, x = Access.chunk_read soff count
            ∨ x = Access.data_write st.buffer.start count
            ∨ ∃ i, touched (st.buffer.start / ECC_BLOCK_SIZE) (st.buffer.start + count) i
              ∧ (x = Access.encode_read (ECC_BLOCK_SIZE * i)
                    (block_len st.ram_console_buffer_size i)
                  ∨ x = Access.par_write (ECC_SIZE * i)))
        ∧ ∀ i, touched (st.buffer.start / ECC_BLOCK_SIZE) (st.buffer.start + count) i →
            Access.par_write (ECC_SIZE * i) ∈ new := by
  unfold ram_console_update
  have e1 : st.buffer.start - st.buffer.start % ECC_BLOCK_SIZE
      = ECC_BLOCK_SIZE * (st.buffer.start / ECC_BLOCK_SIZE) := by
    simp only [ECC_BLOCK_SIZE]
    omega
  have e2 : st.buffer.start / ECC_BLOCK_SIZE * ECC_SIZE
      = ECC_SIZE * (st.buffer.start / ECC_BLOCK_SIZE) := Nat.mul_comm _ _
  simp only [e1, e2]
  obtain ⟨st1, hrun, hfr, hs1, hs2, hdata, hpar, new, hlog, hnew, hall⟩ :=
    update_loop_spec rs (st.buffer.start + count) (count / ECC_BLOCK_SIZE + 2)
      (st.buffer.start / ECC_BLOCK_SIZE) ECC_BLOCK_SIZE
      { st with
        buffer := { st.buffer with
          data := memcpy st.buffer.data st.buffer.start s soff count }
        log := st.log ++ [Access.chunk_read soff count,
          Access.data_write st.buffer.start count] }
      hW (by simp only [ECC_BLOCK_SIZE] at *; omega) (Or.inl rfl) hfit
      (by simp only [ECC_BLOCK_SIZE] at *; omega) (Nat.succ_pos _)
  have hparm : ∀ i, par_slot st.ram_console_buffer_size
      (memcpy st.buffer.data st.buffer.start s soff count) i
      = par_slot st.ram_console_buffer_size st.buffer.data i := by
    intro i
    unfold par_slot
    apply rd_congr
    intro a h1 h2
    apply memcpy_outside
    right
    omega
  refine ⟨st1, hrun, ?_, hs1, hs2, hdata, ?_, ?_⟩
  · simpa [same_frame] using hfr
  · intro i
    rw [hpar i, hparm i, data_block_congr _ _ _ i hdata]
  · refine ⟨[Access.chunk_read soff count, Access.data_write st.buffer.start count] ++ new,
      by simpa using hlog, ?_, ?_⟩
    · intro x hx
      rcases List.mem_append.mp hx with hx | hx
      · simp only [List.mem_cons, List.mem_singleton, List.not_mem_nil, or_false] at hx
        tauto
      · exact Or.inr (Or.inr (hnew x hx))
    · intro i hi
      exact List.mem_append_right _ (hall i hi)

/-! ## One call of `ram_console_write` -/

theorem data_block_congr_range (cap : Nat) (m m1 : Mem) (i : Nat)
    (h : ∀ a, ECC_BLOCK_SIZE * i ≤ a → a < ECC_BLOCK_SIZE * i + ECC_BLOCK_SIZE → a < cap →
      m1 a = m a) :
    data_block cap m1 i = data_block cap m i := by
  unfold data_block block_len
  apply rd_congr
  intro a h1 h2
  apply h <;> simp only [ECC_BLOCK_SIZE] at * <;> omega

theorem par_slot_congr (cap : Nat) (m m1 : Mem) (i : Nat)
    (h : ∀ a, cap + ECC_SIZE * i ≤ a → a < cap + ECC_SIZE * i + ECC_SIZE → m1 a = m a) :
    par_slot cap m1 i = par_slot cap m i := by
  unfold par_slot
  apply rd_congr
  intro a h1 h2
  exact h a h1 h2

theorem update_header_spec (rs : rs_control) (st : State) :
    same_frame st (ram_console_update_header rs st)
      ∧ (ram_console_update_header rs st).buffer.start = st.buffer.start
      ∧ (ram_console_update_header rs st).buffer.size = st.buffer.size
      ∧ (∀ a, a < st.ram_console_buffer_size →
          (ram_console_update_header rs st).buffer.data a = st.buffer.data a)
      ∧ (∀ i, par_slot st.ram_console_buffer_size
            (ram_console_update_header rs st).buffer.data i
          = if i = DIV_ROUND_UP st.ram_console_buffer_size ECC_BLOCK_SIZE
            then ram_console_encode_rs8 rs (header_bytes st.buffer)
            else par_slot st.ram_console_buffer_size st.buffer.data i)
      ∧ (ram_console_update_header rs st).log = st.log ++ [Access.header_read,
          Access.par_write (ECC_SIZE * DIV_ROUND_UP st.ram_console_buffer_size ECC_BLOCK_SIZE)] := by
  unfold ram_console_update_header
  simp only [State.par_buffer, Nat.mul_comm _ ECC_SIZE]
  refine ⟨by simp [same_frame], trivial, trivial, ?_, ?_, trivial⟩
  · intro a ha
    apply memcpy_outside
    left
    omega
  · intro i
    exact par_slot_memcpy _ _ _ i _ (encode_length rs _)

theorem same_frame_trans (a b c : State) (h1 : same_frame a b) (h2 : same_frame b c) :
    same_frame a c := by
  unfold same_frame at h1 h2 ⊢
  obtain ⟨hcap, hlog, hlen, hcor, hbad, hsig⟩ := h1
  rw [← hcap, ← hlog, ← hlen, ← hcor, ← hbad, ← hsig]
  exact h2

theorem header_bytes_congr (b b1 : ram_console_buffer) (h1 : b1.sig = b.sig)
    (h2 : b1.start = b.start) (h3 : b1.size = b.size) : header_bytes b1 = header_bytes b := by
  unfold header_bytes
  rw [h1, h2, h3]

theorem touched_le (k stop cap i : Nat) (hk : ECC_BLOCK_SIZE * k ≤ cap) (hstop : stop ≤ cap)
    (h : touched k stop i) :
    ECC_BLOCK_SIZE * i ≤ cap ∧ i ≤ DIV_ROUND_UP cap ECC_BLOCK_SIZE := by
  unfold touched at h
  unfold DIV_ROUND_UP
  simp only [ECC_BLOCK_SIZE] at *
  omega

theorem access_ok_of_touched (k stop cap n i : Nat) (x : Access)
    (hk : ECC_BLOCK_SIZE * k ≤ cap) (hstop : stop ≤ cap) (h : touched k stop i)
    (hx : x = Access.encode_read (ECC_BLOCK_SIZE * i) (block_len cap i)
      ∨ x = Access.par_write (ECC_SIZE * i)) :
    access_ok cap n x := by
  obtain ⟨h1, h2⟩ := touched_le k stop cap i hk hstop h
  rcases hx with hx | hx
  · subst hx
    unfold access_ok block_len
    simp only [ECC_BLOCK_SIZE] at *
    omega
  · subst hx
    unfold access_ok
    simp only [ECC_SIZE] at *
    omega

theorem write_spec (rs : rs_control) (st : State) (s : List u8)
    (hW : st.ram_console_buffer_size < WORD)
    (hst : st.buffer.start ≤ st.ram_console_buffer_size) :
    ∃ st1, ram_console_write rs st s = some st1
      ∧ same_frame st st1
      ∧ st1.buffer.start = next_start st.ram_console_buffer_size st.buffer.start s.length
      ∧ st1.buffer.size
          = next_size st.ram_console_buffer_size st.buffer.start st.buffer.size s.length
      ∧ (∀ a, a < st.ram_console_buffer_size →
          st1.buffer.data a
            = write_data st.ram_console_buffer_size st.buffer.start s st.buffer.data a)
      ∧ (∀ i, par_slot st.ram_console_buffer_size st1.buffer.data i =
          if i = DIV_ROUND_UP st.ram_console_buffer_size ECC_BLOCK_SIZE
          then ram_console_encode_rs8 rs (header_bytes st1.buffer)
          else if reencoded st.ram_console_buffer_size st.buffer.start s.length i
          then ram_console_encode_rs8 rs (data_block st.ram_console_buffer_size st1.buffer.data i)
          else par_slot st.ram_console_buffer_size st.buffer.data i)
      ∧ ∃ new, st1.log = st.log ++ new
        ∧ (∀ x ∈ new, access_ok st.ram_console_buffer_size s.length x)
        ∧ ∀ i, Access.par_write (ECC_SIZE * i) ∈ new ↔
            (i = DIV_ROUND_UP st.ram_console_buffer_size ECC_BLOCK_SIZE
              ∨ reencoded st.ram_console_buffer_size st.buffer.start s.length i) := by
  unfold ram_console_write
  have hk : (if s.length > st.ram_console_buffer_size then st.ram_console_buffer_size
      else s.length) = min s.length st.ram_console_buffer_size := by
    split_ifs <;> omega
  have hoff : (if s.length > st.ram_console_buffer_size
      then s.length - st.ram_console_buffer_size else 0)
      = s.length - min s.length st.ram_console_buffer_size := by
    split_ifs <;> omega
  have hrem : wsub st.ram_console_buffer_size st.buffer.start
      = st.ram_console_buffer_size - st.buffer.start := by
    unfold wsub
    rw [if_pos hst]
  simp only [hk, hoff, hrem]
  have hblk : ECC_BLOCK_SIZE * (st.buffer.start / ECC_BLOCK_SIZE) ≤ st.ram_console_buffer_size := by
    simp only [ECC_BLOCK_SIZE]
    omega
  have e16 : ∀ i j : Nat, Access.par_write (ECC_SIZE * i) = Access.par_write (ECC_SIZE * j)
      ↔ i = j := by
    intro i j
    simp [ECC_SIZE]
  by_cases hc : st.ram_console_buffer_size - st.buffer.start < min s.length st.ram_console_buffer_size
  · rw [if_pos hc]
    obtain ⟨st1, hrun1, hfr1, hs1, hz1, hd1, hp1, new1, hl1, hn1, ha1⟩ :=
      update_spec rs st s (s.length - min s.length st.ram_console_buffer_size)
        (st.ram_console_buffer_size - st.buffer.start) hW (by omega)
    rw [hrun1]
    simp only [Option.map_some', Option.some_bind, Nat.mod_eq_of_lt hW]
    obtain ⟨hcap1, -⟩ := id hfr1
    obtain ⟨st1c, hst1c⟩ : ∃ st1c : State, st1c =
        { st1 with buffer := { st1.buffer with
            start := 0, size := st.ram_console_buffer_size } } := ⟨_, rfl⟩
    simp only [] at hst1c
    rw [← hst1c]
    have hccap : st1c.ram_console_buffer_size = st.ram_console_buffer_size := by
      rw [hst1c]; exact hcap1
    have hcstart : st1c.buffer.start = 0 := by rw [hst1c]
    have hcdata : st1c.buffer.data = st1.buffer.data := by rw [hst1c]
    have hclog : st1c.log = st1.log := by rw [hst1c]
    have hcfr : same_frame st st1c := by
      rw [hst1c]; simpa [same_frame] using hfr1
    obtain ⟨st2, hrun2, hfr2, hs2, hz2, hd2, hp2, new2, hl2, hn2, ha2⟩ :=
      update_spec rs st1c s
        (s.length - min s.length st.ram_console_buffer_size
          + (st.ram_console_buffer_size - st.buffer.start))
        (min s.length st.ram_console_buffer_size
          - (st.ram_console_buffer_size - st.buffer.start))
        (by rw [hccap]; exact hW) (by rw [hccap, hcstart]; omega)
    rw [hrun2]
    simp only [Option.map_some']
    rw [hccap, hcstart, hcdata] at hd2 hp2
    rw [hcstart] at hs2 hn2 ha2
    rw [hccap] at hn2
    have hz2c : st2.buffer.size = st.ram_console_buffer_size := by
      rw [hz2, hst1c]
    rw [if_neg (by rw [hz2c]; exact Nat.lt_irrefl _)]
    have hmod : (st2.buffer.start + (min s.length st.ram_console_buffer_size
          - (st.ram_console_buffer_size - st.buffer.start))) % WORD
        = min s.length st.ram_console_buffer_size
          - (st.ram_console_buffer_size - st.buffer.start) := by
      rw [hs2]
      simp only [WORD] at *
      omega
    rw [hmod]
    obtain ⟨st4, hst4⟩ : ∃ st4 : State, st4 =
        { st2 with buffer := { st2.buffer with
            start := min s.length st.ram_console_buffer_size
              - (st.ram_console_buffer_size - st.buffer.start) } } := ⟨_, rfl⟩
    simp only [] at hst4
    rw [← hst4]
    have h2cap : st2.ram_console_buffer_size = st.ram_console_buffer_size :=
      hfr2.1.trans hccap
    have h4cap : st4.ram_console_buffer_size = st.ram_console_buffer_size := by
      rw [hst4]; exact h2cap
    have h4data : st4.buffer.data = st2.buffer.data := by rw [hst4]
    have h4log : st4.log = st2.log := by rw [hst4]
    have h4fr : same_frame st st4 := by
      have := same_frame_trans _ _ _ hcfr hfr2
      rw [hst4]; simpa [same_frame] using this
    have h4start : st4.buffer.start
        = next_start st.ram_console_buffer_size st.buffer.start s.length := by
      rw [hst4]; unfold next_start; rw [if_pos hc]
    have h4size : st4.buffer.size
        = next_size st.ram_console_buffer_size st.buffer.start st.buffer.size s.length := by
      rw [hst4]; unfold next_size; rw [if_pos hc]; exact hz2c
    obtain ⟨hfr5, hs5, hz5, hd5, hp5, hl5⟩ := update_header_spec rs st4
    have hre : ∀ i, reencoded st.ram_console_buffer_size st.buffer.start s.length i
        ↔ (touched (st.buffer.start / ECC_BLOCK_SIZE) st.ram_console_buffer_size i
          ∨ touched 0 (min s.length st.ram_console_buffer_size
            - (st.ram_console_buffer_size - st.buffer.start)) i) := by
      intro i; unfold reencoded; rw [if_pos hc]
    have hstop1 : st.buffer.start + (st.ram_console_buffer_size - st.buffer.start)
        = st.ram_console_buffer_size := by omega
    rw [hstop1] at hp1 hn1 ha1
    rw [Nat.zero_add] at hp2 hn2 ha2
    rw [Nat.zero_div] at hp2 hn2 ha2
    rw [h4cap] at hd5 hp5 hl5
    refine ⟨_, rfl, same_frame_trans _ _ _ h4fr hfr5, by rw [hs5, h4start],
      by rw [hz5, h4size], ?_, ?_, ?_⟩
    · intro a ha
      rw [hd5 a ha, h4data, hd2 a ha]
      unfold write_data memcpy
      by_cases h2 : 0 ≤ a ∧ a < 0 + (min s.length st.ram_console_buffer_size
          - (st.ram_console_buffer_size - st.buffer.start))
      · rw [if_pos h2, if_neg (by omega), if_pos (by omega)]
        congr 1
        omega
      · rw [if_neg h2, hd1 a ha]
        unfold memcpy
        by_cases h1 : st.buffer.start ≤ a
        · rw [if_pos (by omega), if_pos (by omega)]
        · rw [if_neg (by omega), if_neg (by omega), if_neg (by omega)]
    · intro i
      rw [hp5 i, header_bytes_congr _ _ hfr5.2.2.2.2.2 hs5 hz5]
      by_cases hi : i = DIV_ROUND_UP st.ram_console_buffer_size ECC_BLOCK_SIZE
      · rw [if_pos hi, if_pos hi]
      · rw [if_neg hi, if_neg hi, h4data, hp2 i, data_block_congr _ _ _ i hd5, h4data]
        by_cases ht2 : touched 0 (min s.length st.ram_console_buffer_size
            - (st.ram_console_buffer_size - st.buffer.start)) i
        · rw [if_pos ht2, if_pos ((hre i).mpr (Or.inr ht2))]
        · rw [if_neg ht2, hp1 i]
          by_cases ht1 : touched (st.buffer.start / ECC_BLOCK_SIZE) st.ram_console_buffer_size i
          · rw [if_pos ht1, if_pos ((hre i).mpr (Or.inl ht1))]
            congr 1
            symm
            apply data_block_congr_range
            intro a h1 h2 h3
            rw [hd2 a h3]
            apply memcpy_outside
            right
            unfold touched at ht2
            simp only [ECC_BLOCK_SIZE] at *
            omega
          · rw [if_neg ht1, if_neg]
            rw [hre i]
            tauto
    · refine ⟨new1 ++ (new2 ++ [Access.header_read, Access.par_write
          (ECC_SIZE * DIV_ROUND_UP st.ram_console_buffer_size ECC_BLOCK_SIZE)]), ?_, ?_, ?_⟩
      · rw [hl5, h4log, hl2, hclog, hl1]
        simp only [List.append_assoc]
      · intro x hx
        rcases List.mem_append.mp hx with hx | hx
        · rcases hn1 x hx with h | h | ⟨i, hi, h⟩
          · subst h
            unfold access_ok
            omega
          · subst h
            unfold access_ok
            omega
          · exact access_ok_of_touched _ _ _ _ i x hblk (le_refl _) hi h
        rcases List.mem_append.mp hx with hx | hx
        · rcases hn2 x hx with h | h | ⟨i, hi, h⟩
          · subst h
            unfold access_ok
            omega
          · subst h
            unfold access_ok
            omega
          · exact access_ok_of_touched _ _ _ _ i x (Nat.zero_le _) (by omega) hi h
        · simp only [List.mem_cons, List.mem_singleton, List.not_mem_nil, or_false] at hx
          rcases hx with h | h
          · subst h
            trivial
          · subst h
            unfold access_ok
            simp only [ECC_SIZE]
            omega
      · intro i
        rw [hre i]
        constructor
        · intro hx
          rcases List.mem_append.mp hx with hx | hx
          · rcases hn1 _ hx with h | h | ⟨j, hj, h⟩
            · cases h
            · cases h
            · rcases h with h | h
              · cases h
              · rw [(e16 i j).mp h]
                exact Or.inr (Or.inl hj)
          rcases List.mem_append.mp hx with hx | hx
          · rcases hn2 _ hx with h | h | ⟨j, hj, h⟩
            · cases h
            · cases h
            · rcases h with h | h
              · cases h
              · rw [(e16 i j).mp h]
                exact Or.inr (Or.inr hj)
          · simp only [List.mem_cons, List.mem_singleton, List.not_mem_nil, or_false] at hx
            rcases hx with h | h
            · cases h
            · exact Or.inl ((e16 _ _).mp h)
        · intro h
          rcases h with h | h | h
          · subst h
            simp
          · exact List.mem_append_left _ (ha1 i h)
          · exact List.mem_append_right _ (List.mem_append_left _ (ha2 i h))
  · rw [if_neg hc]
    simp only [Option.some_bind]
    obtain ⟨st1, hrun1, hfr1, hs1, hz1, hd1, hp1, new1, hl1, hn1, ha1⟩ :=
      update_spec rs st s (s.length - min s.length st.ram_console_buffer_size)
        (min s.length st.ram_console_buffer_size) hW (by omega)
    rw [hrun1]
    simp only [Option.map_some']
    obtain ⟨hcap1, -⟩ := id hfr1
    have hmod : (st1.buffer.start + min s.length st.ram_console_buffer_size) % WORD
        = st.buffer.start + min s.length st.ram_console_buffer_size := by
      rw [hs1]
      simp only [WORD] at *
      omega
    rw [hmod]
    -- the state handed to ram_console_update_header
    obtain ⟨st4, hst4⟩ : ∃ st4 : State, st4 =
        (if st1.buffer.size < st.ram_console_buffer_size then
          { st1 with buffer := { st1.buffer with
              start := st.buffer.start + min s.length st.ram_console_buffer_size
              size := (st1.buffer.size + min s.length st.ram_console_buffer_size) % WORD } }
        else { st1 with buffer := { st1.buffer with
              start := st.buffer.start + min s.length st.ram_console_buffer_size } }) :=
      ⟨_, rfl⟩
    simp only [] at hst4
    rw [← hst4]
    have h4cap : st4.ram_console_buffer_size = st.ram_console_buffer_size := by
      rw [hst4]; split_ifs <;> exact hcap1
    have h4data : st4.buffer.data = st1.buffer.data := by
      rw [hst4]; split_ifs <;> rfl
    have h4log : st4.log = st1.log := by
      rw [hst4]; split_ifs <;> rfl
    have h4fr : same_frame st st4 := by
      rw [hst4]; split_ifs <;> simpa [same_frame] using hfr1
    have h4start : st4.buffer.start
        = next_start st.ram_console_buffer_size st.buffer.start s.length := by
      rw [hst4]; unfold next_start; rw [if_neg hc]; split_ifs <;> rfl
    have h4size : st4.buffer.size
        = next_size st.ram_console_buffer_size st.buffer.start st.buffer.size s.length := by
      rw [hst4, hz1]; unfold next_size; rw [if_neg hc]; split_ifs <;> rfl
    obtain ⟨hfr5, hs5, hz5, hd5, hp5, hl5⟩ := update_header_spec rs st4
    have hre : ∀ i, reencoded st.ram_console_buffer_size st.buffer.start s.length i
        ↔ touched (st.buffer.start / ECC_BLOCK_SIZE)
          (st.buffer.start + min s.length st.ram_console_buffer_size) i := by
      intro i; unfold reencoded; rw [if_neg hc]
    rw [h4cap] at hd5 hp5 hl5
    refine ⟨_, rfl, same_frame_trans _ _ _ h4fr hfr5, by rw [hs5, h4start],
      by rw [hz5, h4size], ?_, ?_, ?_⟩
    · intro a ha
      rw [hd5 a ha, h4data, hd1 a ha]
      unfold write_data memcpy
      by_cases h1 : st.buffer.start ≤ a ∧ a < st.buffer.start + min s.length st.ram_console_buffer_size
      · rw [if_pos h1, if_pos h1]
      · rw [if_neg h1, if_neg h1, if_neg]
        omega
    · intro i
      rw [hp5 i, header_bytes_congr _ _ hfr5.2.2.2.2.2 hs5 hz5]
      by_cases hi : i = DIV_ROUND_UP st.ram_console_buffer_size ECC_BLOCK_SIZE
      · rw [if_pos hi, if_pos hi]
      · rw [if_neg hi, if_neg hi, h4data, hp1 i, data_block_congr _ _ _ i hd5, h4data]
        simp only [hre i]
    · refine ⟨new1 ++ [Access.header_read, Access.par_write
          (ECC_SIZE * DIV_ROUND_UP st.ram_console_buffer_size ECC_BLOCK_SIZE)], ?_, ?_, ?_⟩
      · rw [hl5, h4log, hl1, List.append_assoc]
      · intro x hx
        rcases List.mem_append.mp hx with hx | hx
        · rcases hn1 x hx with h | h | ⟨i, hi, h⟩
          · subst h
            unfold access_ok
            omega
          · subst h
            unfold access_ok
            omega
          · exact access_ok_of_touched _ _ _ _ i x hblk (by omega) hi h
        · simp only [List.mem_cons, List.mem_singleton, List.not_mem_nil, or_false] at hx
          rcases hx with h | h
          · subst h
            trivial
          · subst h
            unfold access_ok
            simp only [ECC_SIZE]
            omega
      · intro i
        rw [hre i]
        constructor
        · intro hx
          rcases List.mem_append.mp hx with hx | hx
          · rcases hn1 _ hx with h | h | ⟨j, hj, h⟩
            · cases h
            · cases h
            · rcases h with h | h
              · cases h
              · rw [(e16 i j).mp h]
                exact Or.inr hj
          · simp only [List.mem_cons, List.mem_singleton, List.not_mem_nil, or_false] at hx
            rcases hx with h | h
            · cases h
            · exact Or.inl ((e16 _ _).mp h)
        · intro h
          rcases h with h | h
          · subst h
            simp
          · exact List.mem_append_left _ (ha1 i h)

/-! ## The recovery path -/

theorem save_old_block_spec (rs : rs_control) (st : State) (k : Nat)
    (hk : ECC_BLOCK_SIZE * k ≤ st.ram_console_buffer_size) :
    (ram_console_save_old_block rs st (ECC_BLOCK_SIZE * k) (ECC_SIZE * k)).ram_console_buffer_size
        = st.ram_console_buffer_size
      ∧ (ram_console_save_old_block rs st (ECC_BLOCK_SIZE * k) (ECC_SIZE * k)).ram_console_old_log
        = st.ram_console_old_log
      ∧ (ram_console_save_old_block rs st (ECC_BLOCK_SIZE * k)
          (ECC_SIZE * k)).ram_console_old_log_size = st.ram_console_old_log_size
      ∧ (ram_console_save_old_block rs st (ECC_BLOCK_SIZE * k) (ECC_SIZE * k)).buffer.sig
        = st.buffer.sig
      ∧ (ram_console_save_old_block rs st (ECC_BLOCK_SIZE * k) (ECC_SIZE * k)).buffer.start
        = st.buffer.start
      ∧ (ram_console_save_old_block rs st (ECC_BLOCK_SIZE * k) (ECC_SIZE * k)).buffer.size
        = st.buffer.size
      ∧ (ram_console_save_old_block rs st (ECC_BLOCK_SIZE * k) (ECC_SIZE * k)).buffer.data
        = memcpy st.buffer.data (ECC_BLOCK_SIZE * k)
            (ram_console_decode_rs8 rs (data_block st.ram_console_buffer_size st.buffer.data k)
              (par_slot st.ram_console_buffer_size st.buffer.data k)).2 0
            (block_len st.ram_console_buffer_size k)
      ∧ (ram_console_save_old_block rs st (ECC_BLOCK_SIZE * k) (ECC_SIZE * k)).log
        = st.log ++ [Access.decode (ECC_BLOCK_SIZE * k)
            (block_len st.ram_console_buffer_size k) (ECC_SIZE * k)
            (ram_console_decode_rs8 rs (data_block st.ram_console_buffer_size st.buffer.data k)
              (par_slot st.ram_console_buffer_size st.buffer.data k)).1] := by
  have hlen : (if ECC_BLOCK_SIZE * k + ECC_BLOCK_SIZE > st.ram_console_buffer_size
      then wsub st.ram_console_buffer_size (ECC_BLOCK_SIZE * k)
      else ECC_BLOCK_SIZE) = block_len st.ram_console_buffer_size k := by
    unfold block_len wsub
    simp only [ECC_BLOCK_SIZE, WORD] at *
    split_ifs <;> omega
  unfold ram_console_save_old_block
  simp only [hlen, State.par_buffer]
  unfold data_block par_slot
  split_ifs <;> exact ⟨rfl, rfl, rfl, rfl, rfl, rfl, rfl, rfl⟩

theorem save_old_loop_spec (rs : rs_control) :
    ∀ (fuel k : Nat) (st : State),
      st.ram_console_buffer_size < WORD →
      st.buffer.size ≤ st.ram_console_buffer_size →
      0 < fuel → st.buffer.size ≤ ECC_BLOCK_SIZE * k + ECC_BLOCK_SIZE * (fuel - 1) →
      ∃ st1, ram_console_save_old_loop rs fuel (ECC_BLOCK_SIZE * k) (ECC_SIZE * k) st = some st1
        ∧ st1.ram_console_buffer_size = st.ram_console_buffer_size
        ∧ st1.ram_console_old_log = st.ram_console_old_log
        ∧ st1.ram_console_old_log_size = st.ram_console_old_log_size
        ∧ st1.buffer.sig = st.buffer.sig
        ∧ st1.buffer.start = st.buffer.start ∧ st1.buffer.size = st.buffer.size
        ∧ (∀ a, st.ram_console_buffer_size ≤ a → st1.buffer.data a = st.buffer.data a)
        ∧ (∀ a, a < ECC_BLOCK_SIZE * k → st1.buffer.data a = st.buffer.data a) := by
  intro fuel
  induction fuel with
  | zero => intro k st _ _ h; omega
  | succ f ih =>
    intro k st hW hsz _ hfuel
    rw [ram_console_save_old_loop]
    by_cases hc : ECC_BLOCK_SIZE * k < st.buffer.size
    · rw [if_pos hc]
      have e1 : ECC_BLOCK_SIZE * k + ECC_BLOCK_SIZE = ECC_BLOCK_SIZE * (k + 1) := by ring
      have e2 : ECC_SIZE * k + ECC_SIZE = ECC_SIZE * (k + 1) := by ring
      rw [e1, e2]
      obtain ⟨h2cap, h2log, h2ls, h2sig, h2start, h2size, h2data, -⟩ :=
        save_old_block_spec rs st k (by omega)
      obtain ⟨st1, hrun, c1, c2, c3, c4, c5, c6, c7, c8⟩ :=
        ih (k + 1) (ram_console_save_old_block rs st (ECC_BLOCK_SIZE * k) (ECC_SIZE * k))
          (by rw [h2cap]; exact hW) (by rw [h2cap, h2size]; exact hsz)
          (by simp only [ECC_BLOCK_SIZE] at *; omega)
          (by rw [h2size]; simp only [ECC_BLOCK_SIZE] at *; omega)
      refine ⟨st1, hrun, c1.trans h2cap, c2.trans h2log, c3.trans h2ls, c4.trans h2sig,
        c5.trans h2start, c6.trans h2size, ?_, ?_⟩
      · intro a ha
        rw [c7 a (by rw [h2cap]; exact ha), h2data]
        apply memcpy_outside
        right
        unfold block_len
        simp only [ECC_BLOCK_SIZE] at *
        omega
      · intro a ha
        rw [c8 a (by simp only [ECC_BLOCK_SIZE] at *; omega), h2data]
        apply memcpy_outside
        left
        exact ha
    · rw [if_neg hc]
      exact ⟨st, rfl, rfl, rfl, rfl, rfl, rfl, rfl, fun _ _ => rfl, fun _ _ => rfl⟩

theorem layout_lt (buffer_size cap : Nat) (hbs : buffer_size < WORD)
    (h : ram_console_layout buffer_size = some cap) : cap < WORD := by
  unfold ram_console_layout wsub at h
  simp only [WORD, HDR_SIZE] at *
  split_ifs at h <;> simp only [Option.some.injEq] at h <;> omega

theorem save_old_spec (rs : rs_control) (kmalloc_ok : Bool) (st : State) (dest : Bool)
    (hW : st.ram_console_buffer_size < WORD)
    (hsz : st.buffer.size ≤ st.ram_console_buffer_size) :
    ∃ st1 st2, ram_console_save_old_loop rs (st.buffer.size / ECC_BLOCK_SIZE + 2) 0 0 st = some st1
      ∧ ram_console_save_old rs kmalloc_ok st dest = some st2
      ∧ st1.ram_console_buffer_size = st.ram_console_buffer_size
      ∧ st1.buffer.sig = st.buffer.sig
      ∧ st1.buffer.start = st.buffer.start ∧ st1.buffer.size = st.buffer.size
      ∧ (∀ a, st.ram_console_buffer_size ≤ a → st1.buffer.data a = st.buffer.data a)
      ∧ st2.ram_console_buffer_size = st1.ram_console_buffer_size
      ∧ st2.buffer = st1.buffer
      ∧ st2.ram_console_corrected_bytes = st1.ram_console_corrected_bytes
      ∧ st2.ram_console_bad_blocks = st1.ram_console_bad_blocks
      ∧ st2.log = st1.log
      ∧ (dest = true ∨ kmalloc_ok = true →
          st2.ram_console_old_log = some
            (rd st1.buffer.data st1.buffer.start
                (wsub st1.buffer.size st1.buffer.start)
              ++ rd st1.buffer.data 0 st1.buffer.start
              ++ footer st1.ram_console_corrected_bytes st1.ram_console_bad_blocks)
          ∧ st2.ram_console_old_log_size
            = (st.buffer.size
              + footer_len st1.ram_console_corrected_bytes st1.ram_console_bad_blocks) % WORD)
      ∧ (dest = false ∧ kmalloc_ok = false →
          st2.ram_console_old_log = st.ram_console_old_log
          ∧ st2.ram_console_old_log_size = st.ram_console_old_log_size) := by
  obtain ⟨st1, hrun, c1, c2, c3, c4, c5, c6, c7, -⟩ :=
    save_old_loop_spec rs (st.buffer.size / ECC_BLOCK_SIZE + 2) 0 st hW hsz (Nat.succ_pos _)
      (by simp only [ECC_BLOCK_SIZE]; omega)
  rw [Nat.mul_zero, Nat.mul_zero] at hrun
  unfold ram_console_save_old
  rw [hrun]
  simp only [Option.map_some']
  cases dest <;> cases kmalloc_ok <;>
    exact ⟨st1, _, rfl, rfl, c1, c4, c5, c6, c7, rfl, rfl, rfl, rfl, rfl,
      by simp [c2, c3], by simp [c2, c3]⟩

theorem init_header_spec (rs : rs_control) (buffer : ram_console_buffer) (cap : Nat) :
    (ram_console_init_header rs buffer cap).ram_console_buffer_size = cap
      ∧ (ram_console_init_header rs buffer cap).buffer.data = buffer.data
      ∧ (ram_console_init_header rs buffer cap).buffer
        = set_header_bytes buffer
          (ram_console_decode_rs8 rs (header_bytes buffer)
            (par_slot cap buffer.data (DIV_ROUND_UP cap ECC_BLOCK_SIZE))).2
      ∧ (ram_console_init_header rs buffer cap).ram_console_old_log = none
      ∧ (ram_console_init_header rs buffer cap).ram_console_old_log_size = 0
      ∧ (ram_console_init_header rs buffer cap).log
        = [Access.header_decode (DIV_ROUND_UP cap ECC_BLOCK_SIZE * ECC_SIZE)
            (ram_console_decode_rs8 rs (header_bytes buffer)
              (par_slot cap buffer.data (DIV_ROUND_UP cap ECC_BLOCK_SIZE))).1] := by
  unfold ram_console_init_header par_slot
  simp only [Nat.mul_comm ECC_SIZE]
  split_ifs <;> exact ⟨rfl, rfl, rfl, rfl, rfl, rfl⟩

theorem init_recover_cap (rs : rs_control) (kmalloc_ok : Bool) (st : State) (old_buf : Bool)
    (hW : st.ram_console_buffer_size < WORD) :
    ∃ st2, ram_console_init_recover rs kmalloc_ok st old_buf = some st2
      ∧ st2.ram_console_buffer_size = st.ram_console_buffer_size := by
  unfold ram_console_init_recover
  split_ifs with h1 h2
  · exact ⟨st, rfl, rfl⟩
  · obtain ⟨st1, st2, -, hrun, c1, -, -, -, -, c2, -⟩ :=
      save_old_spec rs kmalloc_ok st old_buf hW (by omega)
    exact ⟨st2, hrun, c2.trans c1⟩
  · exact ⟨st, rfl, rfl⟩

theorem init_ok_spec (init_rs : Option rs_control) (kmalloc_ok : Bool)
    (buffer : ram_console_buffer) (buffer_size : Nat) (old_buf : Bool) (st : State)
    (hbs : buffer_size < WORD)
    (h : ram_console_init init_rs kmalloc_ok buffer buffer_size old_buf = .ok st) :
    ram_console_layout buffer_size = some st.ram_console_buffer_size
      ∧ st.ram_console_buffer_size < WORD
      ∧ st.buffer.sig = RAM_CONSOLE_SIG ∧ st.buffer.start = 0 ∧ st.buffer.size = 0 := by
  unfold ram_console_init at h
  cases hl : ram_console_layout buffer_size with
  | none =>
    rw [hl] at h
    simp only at h
    cases h
  | some cap =>
    rw [hl] at h
    simp only at h
    have hW := layout_lt _ _ hbs hl
    cases init_rs with
    | none =>
      simp only at h
      cases h
    | some rs =>
      simp only at h
      obtain ⟨st2, hrun, hcap⟩ := init_recover_cap rs kmalloc_ok
        (ram_console_init_header rs buffer cap) old_buf
        (by rw [(init_header_spec rs buffer cap).1]; exact hW)
      rw [(init_header_spec rs buffer cap).1] at hcap
      rw [hrun] at h
      simp only [Except.ok.injEq] at h
      subst h
      exact ⟨by rw [← hcap], by rw [← hcap] at hW; exact hW, rfl, rfl, rfl⟩

/-! ## The cursor after appends (C3, C20) -/

theorem write_cursor_inv (rs : rs_control) (st st1 : State) (s : List u8)
    (hW : st.ram_console_buffer_size < WORD) (hinv : cursor_inv st)
    (h : ram_console_write rs st s = some st1) :
    cursor_inv st1 ∧ st1.ram_console_buffer_size = st.ram_console_buffer_size
      ∧ st1.buffer.sig = st.buffer.sig
      ∧ (st.buffer.size < st.ram_console_buffer_size →
          ¬ st.ram_console_buffer_size - st.buffer.start
              < min s.length st.ram_console_buffer_size →
          st1.buffer.size = st.buffer.size + min s.length st.ram_console_buffer_size) := by
  obtain ⟨h1, h2⟩ := hinv
  obtain ⟨st2, hrun, hfr, hs, hz, -⟩ := write_spec rs st s hW h1
  rw [h] at hrun
  cases hrun
  unfold cursor_inv
  rw [hfr.1, hs, hz]
  unfold next_start next_size
  simp only [WORD] at *
  refine ⟨?_, trivial, hfr.2.2.2.2.2, ?_⟩
  · split_ifs <;> omega
  · intro h3 h4
    rw [if_neg h4, if_pos h3]
    omega

theorem writes_cursor_inv (rs : rs_control) (chunks : List (List u8)) :
    ∀ st : State, st.ram_console_buffer_size < WORD → cursor_inv st →
      ∃ st1, ram_console_writes rs st chunks = some st1 ∧ cursor_inv st1
        ∧ st1.ram_console_buffer_size = st.ram_console_buffer_size
        ∧ st1.buffer.sig = st.buffer.sig := by
  induction chunks with
  | nil => intro st _ hinv; exact ⟨st, rfl, hinv, rfl, rfl⟩
  | cons s rest ih =>
    intro st hW hinv
    obtain ⟨st1, hrun, -⟩ := write_spec rs st s hW hinv.1
    obtain ⟨hinv1, hcap1, hsig1, -⟩ := write_cursor_inv rs st st1 s hW hinv hrun
    obtain ⟨st2, hrun2, hinv2, hcap2, hsig2⟩ := ih st1 (by rw [hcap1]; exact hW) hinv1
    refine ⟨st2, ?_, hinv2, hcap2.trans hcap1, hsig2.trans hsig1⟩
    rw [ram_console_writes, hrun]
    exact hrun2

theorem init_cursor_inv (rs : rs_control) (kmalloc_ok : Bool)
    (buffer : ram_console_buffer) (buffer_size : Nat) (old_buf : Bool) (st0 : State)
    (hbs : buffer_size < WORD)
    (hinit : ram_console_init (some rs) kmalloc_ok buffer buffer_size old_buf = .ok st0) :
    st0.ram_console_buffer_size < WORD ∧ cursor_inv st0 := by
  obtain ⟨-, hW, -, h0, h1⟩ := init_ok_spec _ _ _ _ _ _ hbs hinit
  refine ⟨hW, ?_, ?_⟩
  · rw [h0]; exact Nat.zero_le _
  · left; rw [h0, h1]

theorem blank_init :
    ram_console_init (some rs_checksum) true blank_buffer 332 false = .ok blank_state := rfl

/-- C3. Cursor bounds: after a successful `ram_console_init` and any sequence
of `ram_console_write` calls, one more call with any chunk (empty, or longer
than the capacity) completes and leaves `start ≤ capacity` and
`size ≤ capacity`; and when the call reaches `buffer->size += count`, the sum
itself is the new `size`, so the unsaturated addition stays within the capacity. -/
theorem cursor_bounds (rs : rs_control) (kmalloc_ok : Bool)
    (buffer : ram_console_buffer) (buffer_size : Nat) (old_buf : Bool) (st0 : State)
    (chunks : List (List u8)) (s : List u8)
    (hbs : buffer_size < WORD)
    (hinit : ram_console_init (some rs) kmalloc_ok buffer buffer_size old_buf = .ok st0) :
    ∃ st st1, ram_console_writes rs st0 chunks = some st
      ∧ ram_console_write rs st s = some st1
      ∧ st1.ram_console_buffer_size = st0.ram_console_buffer_size
      ∧ st1.buffer.start ≤ st0.ram_console_buffer_size
      ∧ st1.buffer.size ≤ st0.ram_console_buffer_size
      ∧ (st.buffer.size < st0.ram_console_buffer_size →
          ¬ st0.ram_console_buffer_size - st.buffer.start
              < min s.length st0.ram_console_buffer_size →
          st1.buffer.size = st.buffer.size + min s.length st0.ram_console_buffer_size) := by
  obtain ⟨hW, hinv0⟩ := init_cursor_inv rs kmalloc_ok buffer buffer_size old_buf st0 hbs hinit
  obtain ⟨st, hrun, hinv, hcap, -⟩ := writes_cursor_inv rs chunks st0 hW hinv0
  obtain ⟨st1, hrun1, -⟩ := write_spec rs st s (by rw [hcap]; exact hW) hinv.1
  obtain ⟨⟨i1, i2⟩, hcap1, -, hadd⟩ :=
    write_cursor_inv rs st st1 s (by rw [hcap]; exact hW) hinv hrun1
  rw [hcap] at hcap1 hadd
  rw [hcap1] at i1 i2
  refine ⟨st, st1, hrun, hrun1, hcap1, i1, ?_, hadd⟩
  rcases i2 with h | h <;> omega

theorem cursor_bounds_witness :
    332 < WORD
      ∧ ram_console_init (some rs_checksum) true blank_buffer 332 false = .ok blank_state
      ∧ ∃ st st1, ram_console_writes rs_checksum blank_state [[65, 65, 65, 65]] = some st
        ∧ ram_console_write rs_checksum st (List.replicate 300 66) = some st1
        ∧ st1.ram_console_buffer_size = blank_state.ram_console_buffer_size
        ∧ st1.buffer.start ≤ blank_state.ram_console_buffer_size
        ∧ st1.buffer.size ≤ blank_state.ram_console_buffer_size
        ∧ (st.buffer.size < blank_state.ram_console_buffer_size →
            ¬ blank_state.ram_console_buffer_size - st.buffer.start
                < min (List.replicate 300 (66 : u8)).length blank_state.ram_console_buffer_size →
            st1.buffer.size
              = st.buffer.size
                + min (List.replicate 300 (66 : u8)).length blank_state.ram_console_buffer_size) :=
  ⟨by decide, blank_init,
    cursor_bounds rs_checksum true blank_buffer 332 false blank_state [[65, 65, 65, 65]]
      (List.replicate 300 66) (by decide) blank_init⟩

/-- C20. Every cursor an append leaves is one the next boot accepts: after a
successful `ram_console_init` and any sequence of `ram_console_write` calls,
`size = start` or `size = capacity`, hence `start ≤ size ≤ capacity`, the
header still carries the signature, and the header check of the next
`ram_console_init` takes the branch that calls `ram_console_save_old`. -/
theorem cursor_accepted (rs : rs_control) (kmalloc_ok : Bool)
    (buffer : ram_console_buffer) (buffer_size : Nat) (old_buf : Bool) (st0 : State)
    (chunks : List (List u8))
    (hbs : buffer_size < WORD)
    (hinit : ram_console_init (some rs) kmalloc_ok buffer buffer_size old_buf = .ok st0) :
    ∃ st, ram_console_writes rs st0 chunks = some st
      ∧ (st.buffer.size = st.buffer.start ∨ st.buffer.size = st.ram_console_buffer_size)
      ∧ st.buffer.start ≤ st.buffer.size
      ∧ st.buffer.size ≤ st.ram_console_buffer_size
      ∧ st.buffer.sig = RAM_CONSOLE_SIG
      ∧ ∀ (k o : Bool), ram_console_init_recover rs k st o = ram_console_save_old rs k st o := by
  obtain ⟨-, -, hsig0, -, -⟩ := init_ok_spec _ _ _ _ _ _ hbs hinit
  obtain ⟨hW, hinv0⟩ := init_cursor_inv rs kmalloc_ok buffer buffer_size old_buf st0 hbs hinit
  obtain ⟨st, hrun, ⟨i1, i2⟩, hcap, hsig⟩ := writes_cursor_inv rs chunks st0 hW hinv0
  have h1 : st.buffer.start ≤ st.buffer.size := by rcases i2 with h | h <;> omega
  have h2 : st.buffer.size ≤ st.ram_console_buffer_size := by rcases i2 with h | h <;> omega
  refine ⟨st, hrun, i2, h1, h2, hsig.trans hsig0, ?_⟩
  intro k o
  unfold ram_console_init_recover
  rw [if_pos (hsig.trans hsig0), if_neg (by omega)]

theorem cursor_accepted_witness :
    332 < WORD
      ∧ ram_console_init (some rs_checksum) true blank_buffer 332 false = .ok blank_state
      ∧ ∃ st, ram_console_writes rs_checksum blank_state [[65, 65, 65, 65]] = some st
        ∧ (st.buffer.size = st.buffer.start ∨ st.buffer.size = st.ram_console_buffer_size)
        ∧ st.buffer.start ≤ st.buffer.size
        ∧ st.buffer.size ≤ st.ram_console_buffer_size
        ∧ st.buffer.sig = RAM_CONSOLE_SIG
        ∧ ∀ (k o : Bool),
          ram_console_init_recover rs_checksum k st o = ram_console_save_old rs_checksum k st o :=
  ⟨by decide, blank_init,
    cursor_accepted rs_checksum true blank_buffer 332 false blank_state [[65, 65, 65, 65]]
      (by decide) blank_init⟩

/-! ## The live content after appends (C1) -/

theorem list_ext_getD (l1 l2 : List u8) (hlen : l1.length = l2.length)
    (h : ∀ i, i < l1.length → l1.getD i 0 = l2.getD i 0) : l1 = l2 := by
  apply List.ext_getElem hlen
  intro i h1 h2
  have := h i h1
  rw [List.getD_eq_getElem _ _ h1, List.getD_eq_getElem _ _ h2] at this
  exact this

theorem rd_getD_if (m : Mem) (off len i : Nat) :
    (rd m off len).getD i 0 = if i < len then m (off + i) else 0 := by
  split_ifs with h
  · exact rd_getD m off len i h
  · rw [List.getD_eq_default]
    rw [rd_length]
    omega

theorem getD_append_if (l1 l2 : List u8) (i : Nat) :
    (l1 ++ l2).getD i 0 = if i < l1.length then l1.getD i 0 else l2.getD (i - l1.length) 0 := by
  split_ifs with h
  · exact List.getD_append _ _ _ _ h
  · exact List.getD_append_right _ _ _ _ (by omega)

theorem getD_drop_add (l : List u8) (n i : Nat) :
    (l.drop n).getD i 0 = l.getD (n + i) 0 := by
  simp [List.getD_eq_getElem?_getD, List.getElem?_drop]

theorem live_content_length (st : State) (hinv : cursor_inv st) :
    (live_content st).length = st.buffer.size := by
  obtain ⟨h1, h2⟩ := hinv
  unfold live_content
  split_ifs with h
  · rw [List.length_append, rd_length, rd_length]
    omega
  · rw [rd_length]

theorem write_content (rs : rs_control) (st st1 : State) (s : List u8)
    (hW : st.ram_console_buffer_size < WORD) (hinv : cursor_inv st)
    (h : ram_console_write rs st s = some st1) :
    live_content st1 = last_n st.ram_console_buffer_size (live_content st ++ s) := by
  have hinv1 := (write_cursor_inv rs st st1 s hW hinv h).1
  have hlen0 := live_content_length st hinv
  have hlen1 := live_content_length st1 hinv1
  obtain ⟨i1, i2⟩ := hinv
  obtain ⟨st2, hrun, hfr, hs, hz, hd, -⟩ := write_spec rs st s hW i1
  rw [h] at hrun
  cases hrun
  have hcap := hfr.1
  apply list_ext_getD
  · rw [hlen1, last_n, List.length_drop, List.length_append, hlen0, hz]
    unfold next_size
    simp only [WORD] at *
    split_ifs <;> omega
  · intro i hi
    rw [hlen1] at hi
    rw [last_n, getD_drop_add, getD_append_if, List.length_append, hlen0]
    have hL : ∀ j, (live_content st).getD j 0
        = if st.buffer.size = st.ram_console_buffer_size then
            (if j < st.ram_console_buffer_size - st.buffer.start
              then st.buffer.data (st.buffer.start + j)
              else if j - (st.ram_console_buffer_size - st.buffer.start) < st.buffer.start
                then st.buffer.data (0 + (j - (st.ram_console_buffer_size - st.buffer.start)))
                else 0)
          else (if j < st.buffer.size then st.buffer.data (0 + j) else 0) := by
      intro j
      unfold live_content
      split_ifs <;> simp only [getD_append_if, rd_getD_if, rd_length, *] <;> simp_all
    rw [hL]
    have hR : (live_content st1).getD i 0
        = if st1.buffer.size = st.ram_console_buffer_size then
            (if i < st.ram_console_buffer_size - st1.buffer.start
              then write_data st.ram_console_buffer_size st.buffer.start s st.buffer.data
                (st1.buffer.start + i)
              else write_data st.ram_console_buffer_size st.buffer.start s st.buffer.data
                (i - (st.ram_console_buffer_size - st1.buffer.start)))
          else write_data st.ram_console_buffer_size st.buffer.start s st.buffer.data i := by
      unfold live_content
      rw [hcap]
      by_cases hc : st1.buffer.size = st.ram_console_buffer_size
      · rw [if_pos hc, if_pos hc, getD_append_if, rd_length, rd_getD_if, rd_getD_if]
        rw [hc] at hi
        obtain ⟨j1, -⟩ := hinv1
        rw [hcap] at j1
        by_cases hlt : i < st.ram_console_buffer_size - st1.buffer.start
        · rw [if_pos hlt, if_pos hlt, if_pos hlt]
          exact hd _ (by omega)
        · rw [if_neg hlt, if_neg hlt, if_pos (by omega), Nat.zero_add]
          exact hd _ (by omega)
      · rw [if_neg hc, if_neg hc, rd_getD_if, if_pos hi, Nat.zero_add]
        obtain ⟨j1, j2⟩ := hinv1
        rw [hcap] at j1 j2
        exact hd _ (by omega)
    rw [hR, hs, hz]
    rw [hz] at hi
    clear hR hL hlen0 hlen1 hinv1 hd hfr h hs hz
    unfold next_size at hi
    unfold write_data next_start next_size
    simp only [WORD, Nat.zero_add] at *
    by_cases hA : st.ram_console_buffer_size - st.buffer.start
        < min s.length st.ram_console_buffer_size
    · simp only [hA, ↓reduceIte] at hi ⊢
      by_cases hB : st.buffer.size = st.ram_console_buffer_size
      · simp only [hB, ↓reduceIte] at hi ⊢
        split_ifs <;> first
          | (exfalso; omega)
          | (congr 1; omega)
      · simp only [hB, ↓reduceIte] at hi ⊢
        split_ifs <;> first
          | (exfalso; omega)
          | (congr 1; omega)
    · simp only [hA, ↓reduceIte] at hi ⊢
      by_cases hB : st.buffer.size = st.ram_console_buffer_size
      · simp only [hB, ↓reduceIte, Nat.lt_irrefl] at hi ⊢
        split_ifs <;> first
          | (exfalso; omega)
          | (congr 1; omega)
      · have hB2 : st.buffer.size < st.ram_console_buffer_size := by omega
        have hm : (st.buffer.size + min s.length st.ram_console_buffer_size) % 4294967296
            = st.buffer.size + min s.length st.ram_console_buffer_size :=
          Nat.mod_eq_of_lt (by omega)
        simp only [hB, hB2, hm, ↓reduceIte] at hi ⊢
        split_ifs <;> first
          | (exfalso; omega)
          | (congr 1; omega)

theorem last_n_append (n : Nat) (a s : List u8) :
    last_n n (last_n n a ++ s) = last_n n (a ++ s) := by
  unfold last_n
  rw [← List.drop_append_of_le_length (Nat.sub_le _ _), List.drop_drop]
  congr 1
  simp only [List.length_append, List.length_drop]
  omega

theorem writes_content (rs : rs_control) (chunks : List (List u8)) :
    ∀ st : State, st.ram_console_buffer_size < WORD → cursor_inv st →
      ∃ st1, ram_console_writes rs st chunks = some st1
        ∧ st1.ram_console_buffer_size = st.ram_console_buffer_size
        ∧ live_content st1
          = last_n st.ram_console_buffer_size (live_content st ++ chunks.flatten) := by
  induction chunks with
  | nil =>
    intro st _ hinv
    refine ⟨st, rfl, rfl, ?_⟩
    have hlen := live_content_length st hinv
    obtain ⟨h1, h2⟩ := hinv
    unfold last_n
    rw [List.flatten_nil, List.append_nil, hlen]
    have : st.buffer.size - st.ram_console_buffer_size = 0 := by omega
    rw [this, List.drop_zero]
  | cons s rest ih =>
    intro st hW hinv
    obtain ⟨st1, hrun, -⟩ := write_spec rs st s hW hinv.1
    obtain ⟨hinv1, hcap1, -⟩ := write_cursor_inv rs st st1 s hW hinv hrun
    obtain ⟨st2, hrun2, hcap2, hcont⟩ := ih st1 (by rw [hcap1]; exact hW) hinv1
    refine ⟨st2, ?_, hcap2.trans hcap1, ?_⟩
    · rw [ram_console_writes, hrun]
      exact hrun2
    · rw [hcont, hcap1, write_content rs st st1 s hW hinv hrun, last_n_append,
        List.flatten_cons, List.append_assoc]

/-- C1. The live logical content: after a successful `ram_console_init` and any
finite sequence of chunks passed to `ram_console_write`, the live logical
content (`data[start..capacity) ++ data[0..start)` when `size = capacity`,
`data[0..size)` otherwise) is the last `min(capacity, total)` bytes of the
concatenation of the chunks, `total` being the number of bytes written; for a
single chunk longer than the capacity these are its last `capacity` bytes. -/
theorem live_content_is_tail (rs : rs_control) (kmalloc_ok : Bool)
    (buffer : ram_console_buffer) (buffer_size : Nat) (old_buf : Bool) (st0 : State)
    (chunks : List (List u8))
    (hbs : buffer_size < WORD)
    (hinit : ram_console_init (some rs) kmalloc_ok buffer buffer_size old_buf = .ok st0) :
    ∃ st, ram_console_writes rs st0 chunks = some st
      ∧ live_content st
        = last_n (min st0.ram_console_buffer_size chunks.flatten.length) chunks.flatten := by
  obtain ⟨-, -, -, h0, h1⟩ := init_ok_spec _ _ _ _ _ _ hbs hinit
  obtain ⟨hW, hinv0⟩ := init_cursor_inv rs kmalloc_ok buffer buffer_size old_buf st0 hbs hinit
  obtain ⟨st, hrun, -, hcont⟩ := writes_content rs chunks st0 hW hinv0
  refine ⟨st, hrun, ?_⟩
  have hempty : live_content st0 = [] := by
    unfold live_content
    rw [h0, h1]
    split_ifs with h
    · rw [← h]; rfl
    · rfl
  rw [hcont, hempty, List.nil_append]
  unfold last_n
  congr 1
  omega

theorem live_content_is_tail_witness :
    332 < WORD
      ∧ ram_console_init (some rs_checksum) true blank_buffer 332 false = .ok blank_state
      ∧ ∃ st, ram_console_writes rs_checksum blank_state
            [[65, 65, 65, 65], List.replicate 300 66] = some st
        ∧ live_content st
          = last_n (min blank_state.ram_console_buffer_size
              (List.flatten [[65, 65, 65, 65], List.replicate 300 (66 : u8)]).length)
            (List.flatten [[65, 65, 65, 65], List.replicate 300 66]) :=
  ⟨by decide, blank_init,
    live_content_is_tail rs_checksum true blank_buffer 332 false blank_state
      [[65, 65, 65, 65], List.replicate 300 66] (by decide) blank_init⟩

/-! ## Appends stay in bounds (C10) -/

/-- C10. Append cannot fail: after a successful `ram_console_init` and any
sequence of `ram_console_write` calls, one more call with any chunk completes,
and every access it makes is in bounds: `memcpy` reads only bytes of the chunk
and writes only data offsets in `[0, capacity)`, the encoder reads only ranges
inside `[0, capacity)`, and parity is written only inside the parity zone of
`DIV_ROUND_UP(capacity, 128) + 1` slots. -/
theorem write_in_bounds (rs : rs_control) (kmalloc_ok : Bool)
    (buffer : ram_console_buffer) (buffer_size : Nat) (old_buf : Bool) (st0 : State)
    (chunks : List (List u8)) (s : List u8)
    (hbs : buffer_size < WORD)
    (hinit : ram_console_init (some rs) kmalloc_ok buffer buffer_size old_buf = .ok st0) :
    ∃ st st1 new, ram_console_writes rs st0 chunks = some st
      ∧ st.buffer.start ≤ st0.ram_console_buffer_size
      ∧ ram_console_write rs st s = some st1
      ∧ st1.log = st.log ++ new
      ∧ ∀ x ∈ new, access_ok st0.ram_console_buffer_size s.length x := by
  obtain ⟨hW, hinv0⟩ := init_cursor_inv rs kmalloc_ok buffer buffer_size old_buf st0 hbs hinit
  obtain ⟨st, hrun, hinv, hcap, -⟩ := writes_cursor_inv rs chunks st0 hW hinv0
  obtain ⟨st1, hrun1, -, -, -, -, -, new, hlog, hok, -⟩ :=
    write_spec rs st s (by rw [hcap]; exact hW) hinv.1
  rw [hcap] at hok
  exact ⟨st, st1, new, hrun, by rw [← hcap]; exact hinv.1, hrun1, hlog, hok⟩

theorem write_in_bounds_witness :
    332 < WORD
      ∧ ram_console_init (some rs_checksum) true blank_buffer 332 false = .ok blank_state
      ∧ ∃ st st1 new, ram_console_writes rs_checksum blank_state [List.replicate 256 65] = some st
        ∧ st.buffer.start ≤ blank_state.ram_console_buffer_size
        ∧ ram_console_write rs_checksum st [66, 66] = some st1
        ∧ st1.log = st.log ++ new
        ∧ ∀ x ∈ new, access_ok blank_state.ram_console_buffer_size
            ([66, 66] : List u8).length x :=
  ⟨by decide, blank_init,
    write_in_bounds rs_checksum true blank_buffer 332 false blank_state
      [List.replicate 256 65] [66, 66] (by decide) blank_init⟩

/-! ## Data parity after an append (C8) -/

theorem reencoded_of_block_written (cap start n i : Nat) (hst : start ≤ cap)
    (h : block_written cap start n i) : reencoded cap start n i := by
  obtain ⟨a, ⟨h1, h2⟩, h3, h4⟩ := h
  unfold reencoded touched
  simp only [ECC_BLOCK_SIZE] at *
  split_ifs <;> omega

theorem write_data_of_not_written (cap start : Nat) (s : List u8) (m : Mem) (a : Nat)
    (ha : a < cap) (h : ¬ written cap start s.length a) :
    write_data cap start s m a = m a := by
  unfold written at h
  unfold write_data
  rw [if_neg (by omega), if_neg (by omega)]

theorem write_blocks (rs : rs_control) (st st1 : State) (s : List u8)
    (hW : st.ram_console_buffer_size < WORD)
    (hst : st.buffer.start ≤ st.ram_console_buffer_size)
    (h : ram_console_write rs st s = some st1) (i : Nat)
    (hi : i < DIV_ROUND_UP st.ram_console_buffer_size ECC_BLOCK_SIZE) :
    (block_written st.ram_console_buffer_size st.buffer.start s.length i →
        block_parity_ok rs st.ram_console_buffer_size st1.buffer.data i)
      ∧ (¬ block_written st.ram_console_buffer_size st.buffer.start s.length i →
        data_block st.ram_console_buffer_size st1.buffer.data i
            = data_block st.ram_console_buffer_size st.buffer.data i
          ∧ (par_slot st.ram_console_buffer_size st1.buffer.data i
              = par_slot st.ram_console_buffer_size st.buffer.data i
            ∨ block_parity_ok rs st.ram_console_buffer_size st1.buffer.data i)) := by
  obtain ⟨st2, hrun, -, -, -, hd, hp, -⟩ := write_spec rs st s hW hst
  rw [h] at hrun
  cases hrun
  have hpi := hp i
  rw [if_neg (by omega)] at hpi
  constructor
  · intro hw
    rw [if_pos (reencoded_of_block_written _ _ _ i hst hw)] at hpi
    exact hpi
  · intro hw
    constructor
    · apply data_block_congr_range
      intro a h1 h2 h3
      rw [hd a h3]
      apply write_data_of_not_written _ _ _ _ _ h3
      intro hwa
      exact hw ⟨a, hwa, h1, h2⟩
    · by_cases hr : reencoded st.ram_console_buffer_size st.buffer.start s.length i
      · rw [if_pos hr] at hpi
        exact Or.inr hpi
      · rw [if_neg hr] at hpi
        exact Or.inl hpi

/-- C8, amended. Data parity is never stale after an append: for every state
with `start ≤ capacity` and every chunk, when `ram_console_write` returns,
every data block that holds one of the bytes just written has its parity slot
equal to the parity of its current content; every other data block has its
data unchanged and its parity slot either unchanged or recomputed from that
content (the `do ... while` loop re-encodes the block at the write cursor even
when no byte lands in it); so a block whose parity was right before the call
has it right after. -/
theorem data_parity_fresh (rs : rs_control) (st st1 : State) (s : List u8) (i : Nat)
    (hW : st.ram_console_buffer_size < WORD)
    (hst : st.buffer.start ≤ st.ram_console_buffer_size)
    (h : ram_console_write rs st s = some st1)
    (hi : i < DIV_ROUND_UP st.ram_console_buffer_size ECC_BLOCK_SIZE) :
    (block_written st.ram_console_buffer_size st.buffer.start s.length i →
        block_parity_ok rs st.ram_console_buffer_size st1.buffer.data i)
      ∧ (¬ block_written st.ram_console_buffer_size st.buffer.start s.length i →
        data_block st.ram_console_buffer_size st1.buffer.data i
            = data_block st.ram_console_buffer_size st.buffer.data i
          ∧ (par_slot st.ram_console_buffer_size st1.buffer.data i
              = par_slot st.ram_console_buffer_size st.buffer.data i
            ∨ block_parity_ok rs st.ram_console_buffer_size st1.buffer.data i))
      ∧ (block_parity_ok rs st.ram_console_buffer_size st.buffer.data i →
        block_parity_ok rs st.ram_console_buffer_size st1.buffer.data i) := by
  obtain ⟨h1, h2⟩ := write_blocks rs st st1 s hW hst h i hi
  refine ⟨h1, h2, ?_⟩
  intro hok
  by_cases hw : block_written st.ram_console_buffer_size st.buffer.start s.length i
  · exact h1 hw
  · obtain ⟨hd, hp | hp⟩ := h2 hw
    · unfold block_parity_ok at *
      rw [hp, hd]
      exact hok
    · exact hp

theorem blank_write :
    ∃ st1, ram_console_write rs_checksum blank_state [65, 65, 65, 65] = some st1 := by
  obtain ⟨st1, h, -⟩ := write_spec rs_checksum blank_state [65, 65, 65, 65]
    (by decide) (by decide)
  exact ⟨st1, h⟩

theorem data_parity_fresh_witness :
    blank_state.ram_console_buffer_size < WORD
      ∧ blank_state.buffer.start ≤ blank_state.ram_console_buffer_size
      ∧ 0 < DIV_ROUND_UP blank_state.ram_console_buffer_size ECC_BLOCK_SIZE
      ∧ ∃ st1, ram_console_write rs_checksum blank_state [65, 65, 65, 65] = some st1
        ∧ (block_written 256 0 4 0 → block_parity_ok rs_checksum 256 st1.buffer.data 0)
        ∧ (block_parity_ok rs_checksum 256 blank_state.buffer.data 0 →
          block_parity_ok rs_checksum 256 st1.buffer.data 0) := by
  obtain ⟨st1, h⟩ := blank_write
  have := data_parity_fresh rs_checksum blank_state st1 [65, 65, 65, 65] 0
    (by decide) (by decide) h (by decide)
  exact ⟨by decide, by decide, by decide, st1, h, this.1, this.2.2⟩

/-- C8 as stated fails: for every codec there is a state and a chunk for which
a data block that received no byte has its parity slot changed.  In the state
left by `ram_console_init` on a region of 332 bytes (capacity 256, cursor 0)
whose data zone is zero and whose parity slot 0 differs from the parity of
block 0, appending the empty chunk makes `ram_console_update` encode block 0
once (the `do ... while` body runs before the test), so slot 0 changes although
no byte was written. -/
theorem data_parity_unchanged_counterexample :
    ¬ ∃ rs : rs_control, ∀ (st st1 : State) (s : List u8) (i : Nat),
      st.ram_console_buffer_size < WORD →
      st.buffer.start ≤ st.ram_console_buffer_size →
      ram_console_write rs st s = some st1 →
      i < DIV_ROUND_UP st.ram_console_buffer_size ECC_BLOCK_SIZE →
      (block_written st.ram_console_buffer_size st.buffer.start s.length i →
          block_parity_ok rs st.ram_console_buffer_size st1.buffer.data i)
        ∧ (¬ block_written st.ram_console_buffer_size st.buffer.start s.length i →
          data_block st.ram_console_buffer_size st1.buffer.data i
              = data_block st.ram_console_buffer_size st.buffer.data i
            ∧ par_slot st.ram_console_buffer_size st1.buffer.data i
              = par_slot st.ram_console_buffer_size st.buffer.data i) := by
  rintro ⟨rs, hP⟩
  obtain ⟨e, he⟩ : ∃ e, e = ram_console_encode_rs8 rs (data_block 256 (fun _ => 0) 0) := ⟨_, rfl⟩
  have helen : (e.map (· + 1)).length = ECC_SIZE := by
    rw [List.length_map, he, encode_length]
  obtain ⟨st, hst⟩ : ∃ st : State, st = { blank_state with
      buffer := { blank_state.buffer with
        data := memcpy (fun _ => 0) (256 + ECC_SIZE * 0) (e.map (· + 1)) 0 ECC_SIZE } } :=
    ⟨_, rfl⟩
  have hcap : st.ram_console_buffer_size = 256 := by rw [hst]; rfl
  have hstart : st.buffer.start = 0 := by rw [hst]; rfl
  have hdata : st.buffer.data
      = memcpy (fun _ => 0) (256 + ECC_SIZE * 0) (e.map (· + 1)) 0 ECC_SIZE := by rw [hst]
  have hW : st.ram_console_buffer_size < WORD := by rw [hcap]; decide
  have hs0 : st.buffer.start ≤ st.ram_console_buffer_size := by rw [hstart]; exact Nat.zero_le _
  obtain ⟨st1, hrun, -, -, -, hd, hp, -⟩ := write_spec rs st [] hW hs0
  have hi : 0 < DIV_ROUND_UP st.ram_console_buffer_size ECC_BLOCK_SIZE := by
    rw [hcap]; decide
  have hnw : ¬ block_written st.ram_console_buffer_size st.buffer.start
      ([] : List u8).length 0 := by
    rintro ⟨a, ⟨h1, h2⟩, -, -⟩
    rw [hstart] at h2
    simp only [List.length_nil] at h2
    omega
  obtain ⟨hdb, hps⟩ := (hP st st1 [] 0 hW hs0 hrun hi).2 hnw
  have hp0 := hp 0
  rw [if_neg (by omega), if_pos] at hp0
  · rw [hps, hdb, hcap, hdata, par_slot_memcpy 256 _ 0 0 _ helen, if_pos rfl] at hp0
    have hblk : data_block 256 (memcpy (fun _ => 0) (256 + ECC_SIZE * 0) (e.map (· + 1)) 0
        ECC_SIZE) 0 = data_block 256 (fun _ => 0) 0 := by
      apply data_block_congr
      intro a ha
      apply memcpy_outside
      left
      omega
    rw [hblk, ← he] at hp0
    have hlen : e.length = ECC_SIZE := by rw [he, encode_length]
    have h0 : (e.map (· + 1)).getD 0 0 = e.getD 0 0 := by rw [hp0]
    have hpos : 0 < e.length := by rw [hlen]; decide
    rw [List.getD_eq_getElem _ _ (by rw [List.length_map]; exact hpos),
      List.getD_eq_getElem _ _ hpos, List.getElem_map] at h0
    have h1 := congrArg Fin.val h0
    rw [Fin.val_add] at h1
    have hx := (e[0]).isLt
    have h256 : ((1 : u8) : Nat) = 1 := rfl
    rw [h256] at h1
    omega
  · unfold reencoded touched
    rw [hcap, hstart]
    simp

/-! ## The header's parity slot (C9, C18) -/

theorem write_header_parity (rs : rs_control) (st st1 : State) (s : List u8)
    (hW : st.ram_console_buffer_size < WORD)
    (hst : st.buffer.start ≤ st.ram_console_buffer_size)
    (h : ram_console_write rs st s = some st1) : header_parity_ok rs st1 := by
  obtain ⟨st2, hrun, hfr, -, -, -, hp, -⟩ := write_spec rs st s hW hst
  rw [h] at hrun
  cases hrun
  unfold header_parity_ok
  rw [hfr.1]
  have := hp (DIV_ROUND_UP st.ram_console_buffer_size ECC_BLOCK_SIZE)
  rw [if_pos rfl] at this
  exact this

/-- C9, the code at the failing input: `ram_console_init` on a never written
region of 332 bytes ends with the header `(0x43474244, 0, 0)` while the
header's parity slot still holds the zero bytes found there, which are not the
parity of that header. -/
theorem header_parity_stale_after_init :
    ram_console_init (some rs_checksum) true blank_buffer 332 false = .ok blank_state
      ∧ par_slot 256 blank_state.buffer.data (DIV_ROUND_UP 256 ECC_BLOCK_SIZE)
        = List.replicate 16 0
      ∧ ram_console_encode_rs8 rs_checksum (header_bytes blank_state.buffer)
        = 16 :: List.replicate 15 0
      ∧ ¬ header_parity_ok rs_checksum blank_state := by
  refine ⟨blank_init, by decide, by decide, ?_⟩
  unfold header_parity_ok
  decide

theorem update_par_slots_aux (rs : rs_control) (st : State) (s : List u8) (soff count : Nat)
    (hW : st.ram_console_buffer_size < WORD)
    (hfit : st.buffer.start + count ≤ st.ram_console_buffer_size) :
    ∃ st1 new, ram_console_update rs st s soff count = some st1
      ∧ st1.log = st.log ++ new
      ∧ ∀ i, Access.par_write (ECC_SIZE * i) ∈ new
          ↔ touched (st.buffer.start / ECC_BLOCK_SIZE) (st.buffer.start + count) i := by
  obtain ⟨st1, hrun, -, -, -, -, -, new, hlog, hnew, hall⟩ :=
    update_spec rs st s soff count hW hfit
  refine ⟨st1, new, hrun, hlog, ?_⟩
  intro i
  constructor
  · intro hx
    rcases hnew _ hx with h | h | ⟨j, hj, h | h⟩
    · cases h
    · cases h
    · cases h
    · have : i = j := by
        simp only [Access.par_write.injEq, ECC_SIZE] at h
        omega
      rw [this]
      exact hj
  · exact hall i

/-- C18, amended. The header's parity block: for every capacity, every `start`
and `count` with `start + count ≤ capacity`, except `start = capacity` with the
capacity a multiple of 128, the re-encoding done by `ram_console_update` writes
only parity slots below `DIV_ROUND_UP(capacity, 128)`; in the excepted case
(where `count = 0`) it writes the header's slot `DIV_ROUND_UP(capacity, 128)`
and no other.  `ram_console_update_header` writes that slot and no other. -/
theorem update_par_slots (rs : rs_control) (st : State) (s : List u8) (soff count : Nat)
    (hW : st.ram_console_buffer_size < WORD)
    (hfit : st.buffer.start + count ≤ st.ram_console_buffer_size) :
    ∃ st1 new, ram_console_update rs st s soff count = some st1
      ∧ st1.log = st.log ++ new
      ∧ (¬ (st.buffer.start = st.ram_console_buffer_size
            ∧ st.ram_console_buffer_size % ECC_BLOCK_SIZE = 0) →
          ∀ i, Access.par_write (ECC_SIZE * i) ∈ new →
            i < DIV_ROUND_UP st.ram_console_buffer_size ECC_BLOCK_SIZE)
      ∧ (st.buffer.start = st.ram_console_buffer_size
            ∧ st.ram_console_buffer_size % ECC_BLOCK_SIZE = 0 →
          ∀ i, Access.par_write (ECC_SIZE * i) ∈ new ↔
            i = DIV_ROUND_UP st.ram_console_buffer_size ECC_BLOCK_SIZE)
      ∧ (ram_console_update_header rs st).log
        = st.log ++ [Access.header_read,
            Access.par_write
              (ECC_SIZE * DIV_ROUND_UP st.ram_console_buffer_size ECC_BLOCK_SIZE)] := by
  obtain ⟨st1, new, hrun, hlog, hiff⟩ := update_par_slots_aux rs st s soff count hW hfit
  refine ⟨st1, new, hrun, hlog, ?_, ?_, (update_header_spec rs st).2.2.2.2.2⟩
  · intro hne i hi
    have := (hiff i).mp hi
    unfold touched at this
    unfold DIV_ROUND_UP
    simp only [ECC_BLOCK_SIZE] at *
    omega
  · intro he i
    rw [hiff i]
    unfold touched DIV_ROUND_UP
    simp only [ECC_BLOCK_SIZE] at *
    omega

theorem update_par_slots_witness :
    blank_state.ram_console_buffer_size < WORD
      ∧ blank_state.buffer.start + 4 ≤ blank_state.ram_console_buffer_size
      ∧ ∃ st1 new, ram_console_update rs_checksum blank_state [65, 65, 65, 65] 0 4 = some st1
        ∧ st1.log = blank_state.log ++ new
        ∧ (¬ (blank_state.buffer.start = blank_state.ram_console_buffer_size
              ∧ blank_state.ram_console_buffer_size % ECC_BLOCK_SIZE = 0) →
            ∀ i, Access.par_write (ECC_SIZE * i) ∈ new →
              i < DIV_ROUND_UP blank_state.ram_console_buffer_size ECC_BLOCK_SIZE) := by
  obtain ⟨st1, new, h1, h2, h3, -⟩ :=
    update_par_slots rs_checksum blank_state [65, 65, 65, 65] 0 4 (by decide) (by decide)
  exact ⟨by decide, by decide, st1, new, h1, h2, h3⟩

/-- C18 as stated fails at `start = capacity = 256` and `count = 0`: the single
pass of the `do ... while` loop of `ram_console_update` starts at block offset
`256 & ~127 = 256`, the end of the data zone, and writes the parity of the
empty range to slot `256 / 128 = 2`, the header's slot
`DIV_ROUND_UP(256, 128)`. -/
theorem update_par_slots_counterexample :
    full_state.buffer.start + 0 ≤ full_state.ram_console_buffer_size
      ∧ DIV_ROUND_UP full_state.ram_console_buffer_size ECC_BLOCK_SIZE = 2
      ∧ (ram_console_update rs_checksum full_state [] 0 0).map (fun st1 => st1.log)
        = some (full_state.log ++ [Access.chunk_read 0 0, Access.data_write 256 0,
            Access.encode_read 256 0, Access.par_write (ECC_SIZE * 2)]) := by
  refine ⟨by decide, by decide, ?_⟩
  rfl

/-! ## The layout step (C7, C19) -/

theorem layout_cases (buffer_size : Nat) (hbs : buffer_size < WORD) :
    (ram_console_layout buffer_size = none ↔
        (buffer_size < 12
          ∨ buffer_size - 12 < 16 * ((buffer_size - 12 + 127) / 128 + 1)))
      ∧ (¬ (buffer_size < 12
            ∨ buffer_size - 12 < 16 * ((buffer_size - 12 + 127) / 128 + 1)) →
          ram_console_layout buffer_size
            = some (buffer_size - 12 - 16 * ((buffer_size - 12 + 127) / 128 + 1))) := by
  unfold ram_console_layout wsub DIV_ROUND_UP
  simp only [WORD, HDR_SIZE, ECC_BLOCK_SIZE, ECC_SIZE] at *
  constructor
  · constructor
    · intro h
      split_ifs at h <;> omega
    · intro h
      split_ifs <;> first | rfl | (exfalso; omega)
  · intro h
    split_ifs <;> first | (exfalso; omega) | (congr 1; omega)

theorem init_invalid_size_iff (init_rs : Option rs_control) (kmalloc_ok : Bool)
    (buffer : ram_console_buffer) (buffer_size : Nat) (old_buf : Bool) :
    ram_console_init init_rs kmalloc_ok buffer buffer_size old_buf = .error .invalid_size
      ↔ ram_console_layout buffer_size = none := by
  unfold ram_console_init
  cases hl : ram_console_layout buffer_size with
  | none => simp
  | some cap =>
    cases init_rs with
    | none => simp
    | some rs =>
      cases hr : ram_console_init_recover rs kmalloc_ok
        (ram_console_init_header rs buffer cap) old_buf <;> simp [hr]

/-- C7. Layout computation: for every `buffer_size` held in a `size_t`, with
`r = buffer_size - 12`, `ram_console_init` reports an invalid size, before it
reads or writes the region, exactly when `buffer_size < 12` or
`r < 16 * (ceil(r / 128) + 1)` in exact arithmetic; otherwise the layout step
fixes the capacity `r - 16 * (ceil(r / 128) + 1)`, which every state that
`ram_console_init` returns carries, with the parity zone at data offset
`capacity`. -/
theorem layout_exact (init_rs : Option rs_control) (kmalloc_ok : Bool)
    (buffer : ram_console_buffer) (buffer_size : Nat) (old_buf : Bool)
    (hbs : buffer_size < WORD) :
    (ram_console_init init_rs kmalloc_ok buffer buffer_size old_buf = .error .invalid_size
        ↔ (buffer_size < 12
          ∨ buffer_size - 12 < 16 * ((buffer_size - 12 + 127) / 128 + 1)))
      ∧ (¬ (buffer_size < 12
            ∨ buffer_size - 12 < 16 * ((buffer_size - 12 + 127) / 128 + 1)) →
          ram_console_layout buffer_size
            = some (buffer_size - 12 - 16 * ((buffer_size - 12 + 127) / 128 + 1)))
      ∧ ∀ st, ram_console_init init_rs kmalloc_ok buffer buffer_size old_buf = .ok st →
          st.ram_console_buffer_size
              = buffer_size - 12 - 16 * ((buffer_size - 12 + 127) / 128 + 1)
            ∧ st.par_buffer = st.ram_console_buffer_size := by
  obtain ⟨h1, h2⟩ := layout_cases buffer_size hbs
  refine ⟨(init_invalid_size_iff _ _ _ _ _).trans h1, h2, ?_⟩
  intro st hst
  refine ⟨?_, rfl⟩
  cases init_rs with
  | none =>
    unfold ram_console_init at hst
    cases hl : ram_console_layout buffer_size <;> rw [hl] at hst <;> simp at hst
  | some rs =>
    obtain ⟨hl, -⟩ := init_ok_spec _ _ _ _ _ _ hbs hst
    by_cases hc : buffer_size < 12
        ∨ buffer_size - 12 < 16 * ((buffer_size - 12 + 127) / 128 + 1)
    · rw [h1.mpr hc] at hl
      cases hl
    · rw [h2 hc] at hl
      simp only [Option.some.injEq] at hl
      exact hl.symm

theorem layout_exact_witness :
    332 < WORD
      ∧ (ram_console_init (some rs_checksum) true blank_buffer 332 false
            = .error .invalid_size
          ↔ (332 < 12 ∨ 332 - 12 < 16 * ((332 - 12 + 127) / 128 + 1)))
      ∧ (¬ (332 < 12 ∨ 332 - 12 < 16 * ((332 - 12 + 127) / 128 + 1)) →
          ram_console_layout 332 = some (332 - 12 - 16 * ((332 - 12 + 127) / 128 + 1)))
      ∧ ∀ st, ram_console_init (some rs_checksum) true blank_buffer 332 false = .ok st →
          st.ram_console_buffer_size = 332 - 12 - 16 * ((332 - 12 + 127) / 128 + 1)
            ∧ st.par_buffer = st.ram_console_buffer_size :=
  ⟨by decide, layout_exact (some rs_checksum) true blank_buffer 332 false (by decide)⟩

/-- C19. The chosen layout fits the region: for every `buffer_size < 2^31` on
which the layout step succeeds with capacity `cap`,
`12 + cap + 16 * (DIV_ROUND_UP(cap, 128) + 1) ≤ buffer_size`: the header, the
data zone, one parity block for each data block of the capacity and the
header's parity block at parity offset `16 * DIV_ROUND_UP(cap, 128)` lie
inside the region. -/
theorem layout_fits (buffer_size cap : Nat) (hbs : buffer_size < 2147483648)
    (h : ram_console_layout buffer_size = some cap) :
    HDR_SIZE + cap + ECC_SIZE * (DIV_ROUND_UP cap ECC_BLOCK_SIZE + 1) ≤ buffer_size
      ∧ HDR_SIZE + cap + ECC_SIZE * DIV_ROUND_UP cap ECC_BLOCK_SIZE + ECC_SIZE
        ≤ buffer_size := by
  have hW : buffer_size < WORD := by simp only [WORD]; omega
  obtain ⟨h1, h2⟩ := layout_cases buffer_size hW
  by_cases hc : buffer_size < 12
      ∨ buffer_size - 12 < 16 * ((buffer_size - 12 + 127) / 128 + 1)
  · rw [h1.mpr hc] at h
    cases h
  · rw [h2 hc] at h
    simp only [Option.some.injEq] at h
    unfold DIV_ROUND_UP
    simp only [HDR_SIZE, ECC_SIZE, ECC_BLOCK_SIZE]
    omega

theorem layout_fits_witness :
    332 < 2147483648 ∧ ram_console_layout 332 = some 256
      ∧ HDR_SIZE + 256 + ECC_SIZE * (DIV_ROUND_UP 256 ECC_BLOCK_SIZE + 1) ≤ 332
      ∧ HDR_SIZE + 256 + ECC_SIZE * DIV_ROUND_UP 256 ECC_BLOCK_SIZE + ECC_SIZE ≤ 332 :=
  ⟨by decide, by decide, layout_fits 332 256 (by decide) (by decide)⟩

/-! ## Reading the old log (C14) -/

theorem read_old_at_end (st : State) (len : Nat) (offset : Int)
    (h : (st.ram_console_old_log_size : Int) ≤ offset) :
    ram_console_read_old st true len offset = { ret := 0, bytes := [], offset := offset } := by
  unfold ram_console_read_old
  simp only
  rw [if_pos h]

theorem read_old_inside (st : State) (snap : List u8) (len off : Nat)
    (hlog : st.ram_console_old_log = some snap)
    (hsize : st.ram_console_old_log_size = snap.length)
    (hL : snap.length < 2147483648) (hoff : off < snap.length) :
    ram_console_read_old st true len (off : Int)
      = { ret := (min len (snap.length - off) : Nat)
          bytes := (snap.drop off).take (min len (snap.length - off))
          offset := (off : Int) + (min len (snap.length - off) : Nat) } := by
  unfold ram_console_read_old
  simp only
  have hcnt : (((st.ram_console_old_log_size : Int) - (off : Int)) % 4294967296).toNat
      = snap.length - off := by
    rw [hsize]
    omega
  have hss : to_ssize (min len (snap.length - off)) = ((min len (snap.length - off) : Nat) : Int) := by
    unfold to_ssize
    rw [if_pos (by omega)]
  rw [if_neg (by rw [hsize]; omega), hcnt, hss, hlog]
  simp

theorem read_old_all_spec (st : State) (snap : List u8) (len : Nat)
    (hlog : st.ram_console_old_log = some snap)
    (hsize : st.ram_console_old_log_size = snap.length)
    (hL : snap.length < 2147483648) (hlen : 0 < len) :
    ∀ (fuel off : Nat), off ≤ snap.length → snap.length - off < fuel →
      read_old_all st len fuel (off : Int) (snap.take off) = some snap := by
  intro fuel
  induction fuel with
  | zero => intro off _ h; omega
  | succ f ih =>
    intro off hoff hfuel
    rw [read_old_all]
    by_cases hend : off = snap.length
    · rw [read_old_at_end st len off (by rw [hsize, hend])]
      simp only [if_true]
      rw [hend, List.take_length]
    · have hlt : off < snap.length := by omega
      rw [read_old_inside st snap len off hlog hsize hL hlt]
      simp only
      have hpos : 0 < min len (snap.length - off) := by omega
      rw [if_neg (by omega)]
      have hnext : (off : Int) + ((min len (snap.length - off) : Nat) : Int)
          = ((off + min len (snap.length - off) : Nat) : Int) := by push_cast; rfl
      rw [hnext]
      have htake : snap.take off ++ (snap.drop off).take (min len (snap.length - off))
          = snap.take (off + min len (snap.length - off)) := by
        rw [List.take_add]
      rw [htake]
      exact ih _ (by omega) (by omega)

/-- C14. Old-log read: for every snapshot of length `L` (below `2^31`, so that
every count fits `ssize_t`), every offset `≥ 0` and every `len`, a call of
`ram_console_read_old` whose `copy_to_user` succeeds returns 0, copies nothing
and leaves the offset unchanged when `offset ≥ L`, and otherwise returns
`n = min(len, L - offset)`, copies `snapshot[offset .. offset + n)` and
advances the offset by `n`; the call only reads the snapshot; and reading from
offset 0 with any positive `len` until 0 is returned yields the whole
snapshot in order. -/
theorem read_old_spec (st : State) (snap : List u8) (len off : Nat)
    (hlog : st.ram_console_old_log = some snap)
    (hsize : st.ram_console_old_log_size = snap.length)
    (hL : snap.length < 2147483648) :
    (snap.length ≤ off →
        ram_console_read_old st true len (off : Int)
          = { ret := 0, bytes := [], offset := (off : Int) })
      ∧ (off < snap.length →
        ram_console_read_old st true len (off : Int)
          = { ret := (min len (snap.length - off) : Nat)
              bytes := (snap.drop off).take (min len (snap.length - off))
              offset := (off : Int) + (min len (snap.length - off) : Nat) })
      ∧ (0 < len → read_old_all st len (snap.length + 1) 0 [] = some snap) := by
  refine ⟨?_, read_old_inside st snap len off hlog hsize hL, ?_⟩
  · intro h
    exact read_old_at_end st len off (by rw [hsize]; omega)
  · intro hlen
    have := read_old_all_spec st snap len hlog hsize hL hlen (snap.length + 1) 0
      (Nat.zero_le _) (by omega)
    simpa using this

theorem read_old_spec_witness :
    logged_state.ram_console_old_log = some (str_bytes "AAAA\nNo errors detected\n")
      ∧ logged_state.ram_console_old_log_size
        = (str_bytes "AAAA\nNo errors detected\n").length
      ∧ (str_bytes "AAAA\nNo errors detected\n").length < 2147483648
      ∧ ram_console_read_old logged_state true 10 ((20 : Nat) : Int)
        = { ret := (4 : Nat)
            bytes := str_bytes "ted\n"
            offset := ((20 : Nat) : Int) + (4 : Nat) }
      ∧ read_old_all logged_state 10 25 0 [] = some (str_bytes "AAAA\nNo errors detected\n") := by
  have h := read_old_spec logged_state (str_bytes "AAAA\nNo errors detected\n") 10 20
    rfl (by decide) (by decide)
  exact ⟨rfl, by decide, by decide, h.2.1 (by decide), h.2.2 (by decide)⟩

/-! ## The codec wrappers (C15) -/

theorem widen_narrow (rs : rs_control) (d : List u8) (hsym : lib_symbols rs d) :
    ((List.range ECC_SIZE).map fun i => ((ram_console_encode_rs8 rs d).getD i 0).val)
      = rs.encode_rs8 d := by
  obtain ⟨hlen, hlt⟩ := hsym
  apply List.ext_getElem
  · simp [hlen]
  · intro i h1 h2
    simp only [List.length_map, List.length_range] at h1
    have hi : i < (rs.encode_rs8 d).length := h2
    have hw := hlt _ (List.getElem_mem hi)
    simp only [List.getElem_map, List.getElem_range, ram_console_encode_rs8]
    rw [List.getD_eq_getElem _ _ (by simp; exact h1)]
    simp only [List.getElem_map, List.getElem_range]
    rw [List.getD_eq_getElem _ _ hi]
    show (rs.encode_rs8 d)[i] % 256 = (rs.encode_rs8 d)[i]
    exact Nat.mod_eq_of_lt hw

/-- C15. Codec round trip through the driver's wrappers: for every data block
`d` of length 1..128 and every copy `d1` of it in which at most 8 symbols were
changed, if the library's parity for `d` is 16 words that are 8-bit symbols and
the library's decoder restores `d` from `d1` and that parity and returns the
number of changed symbols (the codec contract of the spec), then
`ram_console_decode_rs8` applied to `d1` and the 16 parity bytes of
`ram_console_encode_rs8` restores `d` and returns that number: narrowing the
parity words to bytes and widening them again loses no information. -/
theorem codec_round_trip (rs : rs_control) (d d1 : List u8)
    (hlen : 1 ≤ d.length ∧ d.length ≤ ECC_BLOCK_SIZE) (hlen1 : d1.length = d.length)
    (hdiff : diff_count d d1 ≤ 8)
    (hsym : lib_symbols rs d) (hlib : lib_corrects rs d d1) :
    ram_console_decode_rs8 rs d1 (ram_console_encode_rs8 rs d) = ((diff_count d d1 : Int), d)
      ∧ ((List.range ECC_SIZE).map fun i => ((ram_console_encode_rs8 rs d).getD i 0).val)
        = rs.encode_rs8 d := by
  refine ⟨?_, widen_narrow rs d hsym⟩
  unfold ram_console_decode_rs8
  simp only
  rw [widen_narrow rs d hsym]
  exact hlib

theorem codec_round_trip_witness :
    (1 ≤ sample_block.length ∧ sample_block.length ≤ ECC_BLOCK_SIZE)
      ∧ sample_corrupted.length = sample_block.length
      ∧ diff_count sample_block sample_corrupted = 8
      ∧ lib_symbols rs_copy sample_block
      ∧ lib_corrects rs_copy sample_block sample_corrupted
      ∧ ram_console_decode_rs8 rs_copy sample_corrupted
          (ram_console_encode_rs8 rs_copy sample_block)
        = ((diff_count sample_block sample_corrupted : Int), sample_block)
      ∧ ram_console_decode_rs8 rs_copy sample_corrupted
          (ram_console_encode_rs8 rs_copy sample_block)
        = (8, sample_block) := by
  have hdiff : diff_count sample_block sample_corrupted = 8 := by decide
  have hsym : lib_symbols rs_copy sample_block := by
    unfold lib_symbols
    decide
  have hlib : lib_corrects rs_copy sample_block sample_corrupted := by
    unfold lib_corrects
    decide
  have h := (codec_round_trip rs_copy sample_block sample_corrupted (by decide) (by decide)
    (by rw [hdiff]) hsym hlib).1
  refine ⟨by decide, by decide, hdiff, hsym, hlib, h, ?_⟩
  rw [h, hdiff]
  rfl

/-! ## The decode loop of the recovery path -/

theorem save_old_block_counters (rs : rs_control) (st : State) (k : Nat)
    (hk : ECC_BLOCK_SIZE * k ≤ st.ram_console_buffer_size) :
    (ram_console_save_old_block rs st (ECC_BLOCK_SIZE * k)
        (ECC_SIZE * k)).ram_console_corrected_bytes
        = st.ram_console_corrected_bytes
          + corrected_of (block_decode rs st.ram_console_buffer_size st.buffer.data k).1
      ∧ (ram_console_save_old_block rs st (ECC_BLOCK_SIZE * k)
          (ECC_SIZE * k)).ram_console_bad_blocks
        = st.ram_console_bad_blocks
          + bad_of (block_decode rs st.ram_console_buffer_size st.buffer.data k).1 := by
  have hlen : (if ECC_BLOCK_SIZE * k + ECC_BLOCK_SIZE > st.ram_console_buffer_size
      then wsub st.ram_console_buffer_size (ECC_BLOCK_SIZE * k)
      else ECC_BLOCK_SIZE) = block_len st.ram_console_buffer_size k := by
    unfold block_len wsub
    simp only [ECC_BLOCK_SIZE, WORD] at *
    split_ifs <;> omega
  unfold ram_console_save_old_block
  simp only [hlen, State.par_buffer]
  unfold block_decode corrected_of bad_of data_block par_slot
  split_ifs <;> simp_all <;> omega

theorem block_decode_congr (rs : rs_control) (cap : Nat) (m m1 : Mem) (i : Nat)
    (hdata : ∀ a, ECC_BLOCK_SIZE * i ≤ a → a < ECC_BLOCK_SIZE * i + ECC_BLOCK_SIZE → a < cap →
      m1 a = m a)
    (hpar : ∀ a, cap ≤ a → m1 a = m a) :
    block_decode rs cap m1 i = block_decode rs cap m i := by
  unfold block_decode
  rw [data_block_congr_range cap m m1 i hdata,
    par_slot_congr cap m m1 i (fun a h1 _ => hpar a (by omega))]

theorem save_old_loop_full (rs : rs_control) :
    ∀ (fuel k : Nat) (st : State),
      st.buffer.size ≤ st.ram_console_buffer_size →
      0 < fuel → st.buffer.size ≤ ECC_BLOCK_SIZE * k + ECC_BLOCK_SIZE * (fuel - 1) →
      ∃ st1, ram_console_save_old_loop rs fuel (ECC_BLOCK_SIZE * k) (ECC_SIZE * k) st = some st1
        ∧ st1.ram_console_buffer_size = st.ram_console_buffer_size
        ∧ st1.ram_console_old_log = st.ram_console_old_log
        ∧ st1.ram_console_old_log_size = st.ram_console_old_log_size
        ∧ st1.buffer.sig = st.buffer.sig
        ∧ st1.buffer.start = st.buffer.start ∧ st1.buffer.size = st.buffer.size
        ∧ (∀ a, st1.buffer.data a
            = decoded_data rs st.ram_console_buffer_size st.buffer.data k
                (DIV_ROUND_UP st.buffer.size ECC_BLOCK_SIZE) a)
        ∧ st1.ram_console_corrected_bytes
          = st.ram_console_corrected_bytes
            + corrected_sum rs st.ram_console_buffer_size st.buffer.data k
                (DIV_ROUND_UP st.buffer.size ECC_BLOCK_SIZE)
        ∧ st1.ram_console_bad_blocks
          = st.ram_console_bad_blocks
            + bad_sum rs st.ram_console_buffer_size st.buffer.data k
                (DIV_ROUND_UP st.buffer.size ECC_BLOCK_SIZE)
        ∧ st1.log = st.log
            ++ decode_calls rs st.ram_console_buffer_size st.buffer.data k
                (DIV_ROUND_UP st.buffer.size ECC_BLOCK_SIZE) := by
  intro fuel
  induction fuel with
  | zero => intro k st _ h; omega
  | succ f ih =>
    intro k st hsz _ hfuel
    rw [ram_console_save_old_loop]
    by_cases hc : ECC_BLOCK_SIZE * k < st.buffer.size
    · rw [if_pos hc]
      have e1 : ECC_BLOCK_SIZE * k + ECC_BLOCK_SIZE = ECC_BLOCK_SIZE * (k + 1) := by ring
      have e2 : ECC_SIZE * k + ECC_SIZE = ECC_SIZE * (k + 1) := by ring
      rw [e1, e2]
      have hkcap : ECC_BLOCK_SIZE * k ≤ st.ram_console_buffer_size := by omega
      obtain ⟨h2cap, h2log, h2ls, h2sig, h2start, h2size, h2data, h2l⟩ :=
        save_old_block_spec rs st k hkcap
      obtain ⟨h2c, h2b⟩ := save_old_block_counters rs st k hkcap
      obtain ⟨st1, hrun, c1, c2, c3, c4, c5, c6, c7, c8, c9, c10⟩ :=
        ih (k + 1) (ram_console_save_old_block rs st (ECC_BLOCK_SIZE * k) (ECC_SIZE * k))
          (by rw [h2cap, h2size]; exact hsz)
          (by simp only [ECC_BLOCK_SIZE] at *; omega)
          (by rw [h2size]; simp only [ECC_BLOCK_SIZE] at *; omega)
      rw [h2cap, h2size] at c7 c8 c9 c10
      have hn : DIV_ROUND_UP st.buffer.size ECC_BLOCK_SIZE - k
          = (DIV_ROUND_UP st.buffer.size ECC_BLOCK_SIZE - (k + 1)) + 1 := by
        unfold DIV_ROUND_UP
        simp only [ECC_BLOCK_SIZE] at *
        omega
      have hbd : ∀ i, k + 1 ≤ i →
          block_decode rs st.ram_console_buffer_size
            (ram_console_save_old_block rs st (ECC_BLOCK_SIZE * k) (ECC_SIZE * k)).buffer.data i
          = block_decode rs st.ram_console_buffer_size st.buffer.data i := by
        intro i hi
        apply block_decode_congr
        · intro a h1 h2 h3
          rw [h2data]
          apply memcpy_outside
          right
          unfold block_len
          simp only [ECC_BLOCK_SIZE] at *
          omega
        · intro a h1
          rw [h2data]
          apply memcpy_outside
          right
          unfold block_len
          simp only [ECC_BLOCK_SIZE] at *
          omega
      have hmap : ∀ (β : Type) (g : Int × List u8 → β),
          (List.range' (k + 1) (DIV_ROUND_UP st.buffer.size ECC_BLOCK_SIZE - (k + 1))).map
            (fun i => g (block_decode rs st.ram_console_buffer_size
              (ram_console_save_old_block rs st (ECC_BLOCK_SIZE * k)
                (ECC_SIZE * k)).buffer.data i))
          = (List.range' (k + 1) (DIV_ROUND_UP st.buffer.size ECC_BLOCK_SIZE - (k + 1))).map
            (fun i => g (block_decode rs st.ram_console_buffer_size st.buffer.data i)) := by
        intro β g
        apply List.map_congr_left
        intro i hi
        rw [hbd i (by have := (List.mem_range'_1.mp hi).1; omega)]
      refine ⟨st1, hrun, c1.trans h2cap, c2.trans h2log, c3.trans h2ls, c4.trans h2sig,
        c5.trans h2start, c6.trans h2size, ?_, ?_, ?_, ?_⟩
      · intro a
        rw [c7 a]
        unfold decoded_data
        by_cases hin : ECC_BLOCK_SIZE * (k + 1) ≤ a
            ∧ a < ECC_BLOCK_SIZE * DIV_ROUND_UP st.buffer.size ECC_BLOCK_SIZE
            ∧ a < st.ram_console_buffer_size
        · rw [if_pos hin, if_pos (by simp only [ECC_BLOCK_SIZE] at *; omega),
            hbd (a / ECC_BLOCK_SIZE) (by simp only [ECC_BLOCK_SIZE] at *; omega)]
        · rw [if_neg hin, h2data]
          unfold memcpy block_len
          by_cases hk : ECC_BLOCK_SIZE * k ≤ a
              ∧ a < ECC_BLOCK_SIZE * k
                + min ECC_BLOCK_SIZE (st.ram_console_buffer_size - ECC_BLOCK_SIZE * k)
          · rw [if_pos hk, if_pos (by
              unfold DIV_ROUND_UP
              simp only [ECC_BLOCK_SIZE] at *
              omega)]
            have hq : a / ECC_BLOCK_SIZE = k := by
              simp only [ECC_BLOCK_SIZE] at *
              omega
            have hr : a % ECC_BLOCK_SIZE = 0 + (a - ECC_BLOCK_SIZE * k) := by
              simp only [ECC_BLOCK_SIZE] at *
              omega
            rw [hq, hr]
            rfl
          · rw [if_neg hk, if_neg (by
              unfold DIV_ROUND_UP at *
              simp only [ECC_BLOCK_SIZE] at *
              omega)]
      · rw [c8, h2c]
        unfold corrected_sum
        rw [hn, List.range'_succ, List.map_cons, List.sum_cons,
          hmap Int (fun r => corrected_of r.1)]
        ring
      · rw [c9, h2b]
        unfold bad_sum
        rw [hn, List.range'_succ, List.map_cons, List.sum_cons,
          hmap Int (fun r => bad_of r.1)]
        ring
      · rw [c10, h2l]
        unfold decode_calls
        rw [hn, List.range'_succ, List.map_cons, List.append_assoc, List.singleton_append]
        congr 2
        apply List.map_congr_left
        intro i hi
        rw [hbd i (by have := (List.mem_range'_1.mp hi).1; omega)]
    · rw [if_neg hc]
      have hn : DIV_ROUND_UP st.buffer.size ECC_BLOCK_SIZE - k = 0 := by
        unfold DIV_ROUND_UP
        simp only [ECC_BLOCK_SIZE] at *
        omega
      refine ⟨st, rfl, rfl, rfl, rfl, rfl, rfl, rfl, ?_, ?_, ?_, ?_⟩
      · intro a
        unfold decoded_data
        rw [if_neg]
        unfold DIV_ROUND_UP
        simp only [ECC_BLOCK_SIZE] at *
        omega
      · unfold corrected_sum
        rw [hn]
        simp
      · unfold bad_sum
        rw [hn]
        simp
      · unfold decode_calls
        rw [hn]
        simp

/-! ## What `ram_console_init` leaves -/

theorem init_header_counters (rs : rs_control) (buffer : ram_console_buffer) (cap : Nat) :
    (ram_console_init_header rs buffer cap).ram_console_corrected_bytes
        = corrected_of (header_result rs buffer cap)
      ∧ (ram_console_init_header rs buffer cap).ram_console_bad_blocks
        = bad_of (header_result rs buffer cap) := by
  unfold ram_console_init_header header_result par_slot corrected_of bad_of
  simp only [Nat.mul_comm ECC_SIZE]
  split_ifs <;> simp_all <;> omega

theorem init_eq (rs : rs_control) (kmalloc_ok : Bool) (buffer : ram_console_buffer)
    (buffer_size cap : Nat) (old_buf : Bool) (st2 : State)
    (hl : ram_console_layout buffer_size = some cap)
    (hr : ram_console_init_recover rs kmalloc_ok (ram_console_init_header rs buffer cap) old_buf
      = some st2) :
    ram_console_init (some rs) kmalloc_ok buffer buffer_size old_buf
      = .ok { st2 with
          buffer := { st2.buffer with sig := RAM_CONSOLE_SIG, start := 0, size := 0 } } := by
  unfold ram_console_init
  rw [hl]
  simp only
  rw [hr]

theorem init_invalid_spec (rs : rs_control) (kmalloc_ok : Bool) (buffer : ram_console_buffer)
    (buffer_size cap : Nat) (old_buf : Bool)
    (hl : ram_console_layout buffer_size = some cap)
    (hv : ¬ header_valid cap (decoded_header rs buffer cap)) :
    ∃ st, ram_console_init (some rs) kmalloc_ok buffer buffer_size old_buf = .ok st
      ∧ st.ram_console_buffer_size = cap
      ∧ st.buffer.sig = RAM_CONSOLE_SIG ∧ st.buffer.start = 0 ∧ st.buffer.size = 0
      ∧ st.buffer.data = buffer.data
      ∧ st.ram_console_old_log = none ∧ st.ram_console_old_log_size = 0
      ∧ st.ram_console_corrected_bytes = corrected_of (header_result rs buffer cap)
      ∧ st.ram_console_bad_blocks = bad_of (header_result rs buffer cap)
      ∧ st.log = [Access.header_decode (DIV_ROUND_UP cap ECC_BLOCK_SIZE * ECC_SIZE)
          (header_result rs buffer cap)] := by
  obtain ⟨h1, h2, -, h4, h5, h6⟩ := init_header_spec rs buffer cap
  obtain ⟨h7, h8⟩ := init_header_counters rs buffer cap
  have hr : ram_console_init_recover rs kmalloc_ok (ram_console_init_header rs buffer cap)
      old_buf = some (ram_console_init_header rs buffer cap) := by
    unfold ram_console_init_recover
    unfold header_valid decoded_header at hv
    rw [h1]
    split_ifs with c1 c2
    · rfl
    · exact absurd ⟨c1, by omega, by omega⟩ hv
    · rfl
  exact ⟨_, init_eq rs kmalloc_ok buffer buffer_size cap old_buf _ hl hr, h1, rfl, rfl, rfl,
    h2, h4, h5, h7, h8, h6⟩

theorem init_valid_spec (rs : rs_control) (kmalloc_ok : Bool) (buffer : ram_console_buffer)
    (buffer_size cap : Nat) (old_buf : Bool)
    (hl : ram_console_layout buffer_size = some cap)
    (hv : header_valid cap (decoded_header rs buffer cap)) :
    ∃ st, ram_console_init (some rs) kmalloc_ok buffer buffer_size old_buf = .ok st
      ∧ st.ram_console_buffer_size = cap
      ∧ st.buffer.sig = RAM_CONSOLE_SIG ∧ st.buffer.start = 0 ∧ st.buffer.size = 0
      ∧ (∀ a, st.buffer.data a
          = decoded_data rs cap buffer.data 0
              (DIV_ROUND_UP (decoded_header rs buffer cap).size ECC_BLOCK_SIZE) a)
      ∧ st.ram_console_corrected_bytes
        = corrected_of (header_result rs buffer cap)
          + corrected_sum rs cap buffer.data 0
              (DIV_ROUND_UP (decoded_header rs buffer cap).size ECC_BLOCK_SIZE)
      ∧ st.ram_console_bad_blocks
        = bad_of (header_result rs buffer cap)
          + bad_sum rs cap buffer.data 0
              (DIV_ROUND_UP (decoded_header rs buffer cap).size ECC_BLOCK_SIZE)
      ∧ st.log = Access.header_decode (DIV_ROUND_UP cap ECC_BLOCK_SIZE * ECC_SIZE)
            (header_result rs buffer cap)
          :: decode_calls rs cap buffer.data 0
              (DIV_ROUND_UP (decoded_header rs buffer cap).size ECC_BLOCK_SIZE)
      ∧ (old_buf = true ∨ kmalloc_ok = true →
          st.ram_console_old_log = some
              (rd st.buffer.data (decoded_header rs buffer cap).start
                  ((decoded_header rs buffer cap).size - (decoded_header rs buffer cap).start)
                ++ rd st.buffer.data 0 (decoded_header rs buffer cap).start
                ++ footer st.ram_console_corrected_bytes st.ram_console_bad_blocks)
            ∧ st.ram_console_old_log_size
              = ((decoded_header rs buffer cap).size
                + footer_len st.ram_console_corrected_bytes st.ram_console_bad_blocks) % WORD)
      ∧ (old_buf = false ∧ kmalloc_ok = false →
          st.ram_console_old_log = none ∧ st.ram_console_old_log_size = 0) := by
  obtain ⟨h1, h2, -, h4, h5, h6⟩ := init_header_spec rs buffer cap
  obtain ⟨h7, h8⟩ := init_header_counters rs buffer cap
  obtain ⟨v1, v2, v3⟩ := hv
  unfold decoded_header at v1 v2 v3 ⊢
  obtain ⟨st1, hrun, c1, c2, c3, c4, c5, c6, c7, c8, c9, c10⟩ :=
    save_old_loop_full rs ((ram_console_init_header rs buffer cap).buffer.size
        / ECC_BLOCK_SIZE + 2) 0 (ram_console_init_header rs buffer cap)
      (by rw [h1]; exact v2) (Nat.succ_pos _) (by simp only [ECC_BLOCK_SIZE]; omega)
  rw [Nat.mul_zero, Nat.mul_zero] at hrun
  rw [h1, h2] at c7 c8 c9 c10
  rw [h7] at c8
  rw [h8] at c9
  rw [h6] at c10
  rw [h4] at c2
  rw [h5] at c3
  have hws : wsub st1.buffer.size st1.buffer.start
      = (ram_console_init_header rs buffer cap).buffer.size
        - (ram_console_init_header rs buffer cap).buffer.start := by
    unfold wsub
    rw [c5, c6, if_pos v3]
  have hr : ∃ st2, ram_console_init_recover rs kmalloc_ok
      (ram_console_init_header rs buffer cap) old_buf = some st2
      ∧ st2.ram_console_buffer_size = cap ∧ st2.buffer.data = st1.buffer.data
      ∧ st2.ram_console_corrected_bytes = st1.ram_console_corrected_bytes
      ∧ st2.ram_console_bad_blocks = st1.ram_console_bad_blocks
      ∧ st2.log = st1.log
      ∧ (old_buf = true ∨ kmalloc_ok = true →
          st2.ram_console_old_log = some
              (rd st1.buffer.data st1.buffer.start (wsub st1.buffer.size st1.buffer.start)
                ++ rd st1.buffer.data 0 st1.buffer.start
                ++ footer st1.ram_console_corrected_bytes st1.ram_console_bad_blocks)
            ∧ st2.ram_console_old_log_size
              = ((ram_console_init_header rs buffer cap).buffer.size
                + footer_len st1.ram_console_corrected_bytes st1.ram_console_bad_blocks) % WORD)
      ∧ (old_buf = false ∧ kmalloc_ok = false →
          st2.ram_console_old_log = none ∧ st2.ram_console_old_log_size = 0) := by
    unfold ram_console_init_recover
    rw [if_pos v1, if_neg (by rw [h1]; omega)]
    unfold ram_console_save_old
    rw [hrun]
    simp only [Option.map_some']
    cases old_buf <;> cases kmalloc_ok <;>
      exact ⟨_, rfl, c1.trans h1, rfl, rfl, rfl, rfl, by simp [c2, c3], by simp [c2, c3]⟩
  obtain ⟨st2, hrec, r1, r2, r3, r4, r5, r6, r7⟩ := hr
  refine ⟨_, init_eq rs kmalloc_ok buffer buffer_size cap old_buf st2 hl hrec, r1, rfl, rfl, rfl,
    ?_, ?_, ?_, ?_, ?_, r7⟩
  · intro a
    show st2.buffer.data a = _
    rw [r2, c7 a]
  · show st2.ram_console_corrected_bytes = _
    rw [r3, c8]
  · show st2.ram_console_bad_blocks = _
    rw [r4, c9]
  · show st2.log = _
    rw [r5, c10]
    rfl
  · intro hs
    obtain ⟨s1, s2⟩ := r6 hs
    refine ⟨?_, ?_⟩
    · show st2.ram_console_old_log = some (rd st2.buffer.data _ _ ++ rd st2.buffer.data 0 _
        ++ footer st2.ram_console_corrected_bytes st2.ram_console_bad_blocks)
      rw [s1, r2, r3, r4, hws, c5]
    · show st2.ram_console_old_log_size = (_ + footer_len st2.ram_console_corrected_bytes
        st2.ram_console_bad_blocks) % WORD
      rw [s2, r3, r4]

/-! ## What `ram_console_save_old` leaves -/

theorem save_old_full (rs : rs_control) (kmalloc_ok : Bool) (st : State) (dest : Bool)
    (hsz : st.buffer.size ≤ st.ram_console_buffer_size)
    (hst : st.buffer.start ≤ st.buffer.size) :
    ∃ st2, ram_console_save_old rs kmalloc_ok st dest = some st2
      ∧ st2.ram_console_buffer_size = st.ram_console_buffer_size
      ∧ st2.buffer.sig = st.buffer.sig
      ∧ st2.buffer.start = st.buffer.start ∧ st2.buffer.size = st.buffer.size
      ∧ (∀ a, st2.buffer.data a
          = decoded_data rs st.ram_console_buffer_size st.buffer.data 0
              (DIV_ROUND_UP st.buffer.size ECC_BLOCK_SIZE) a)
      ∧ st2.ram_console_corrected_bytes
        = st.ram_console_corrected_bytes
          + corrected_sum rs st.ram_console_buffer_size st.buffer.data 0
              (DIV_ROUND_UP st.buffer.size ECC_BLOCK_SIZE)
      ∧ st2.ram_console_bad_blocks
        = st.ram_console_bad_blocks
          + bad_sum rs st.ram_console_buffer_size st.buffer.data 0
              (DIV_ROUND_UP st.buffer.size ECC_BLOCK_SIZE)
      ∧ st2.log = st.log ++ decode_calls rs st.ram_console_buffer_size st.buffer.data 0
              (DIV_ROUND_UP st.buffer.size ECC_BLOCK_SIZE)
      ∧ (dest = true ∨ kmalloc_ok = true →
          st2.ram_console_old_log = some
              (rd st2.buffer.data st.buffer.start (st.buffer.size - st.buffer.start)
                ++ rd st2.buffer.data 0 st.buffer.start
                ++ footer st2.ram_console_corrected_bytes st2.ram_console_bad_blocks)
            ∧ st2.ram_console_old_log_size
              = (st.buffer.size
                + footer_len st2.ram_console_corrected_bytes st2.ram_console_bad_blocks) % WORD)
      ∧ (dest = false ∧ kmalloc_ok = false →
          st2.ram_console_old_log = st.ram_console_old_log
            ∧ st2.ram_console_old_log_size = st.ram_console_old_log_size) := by
  obtain ⟨st1, hrun, c1, c2, c3, c4, c5, c6, c7, c8, c9, c10⟩ :=
    save_old_loop_full rs (st.buffer.size / ECC_BLOCK_SIZE + 2) 0 st hsz (Nat.succ_pos _)
      (by simp only [ECC_BLOCK_SIZE]; omega)
  rw [Nat.mul_zero, Nat.mul_zero] at hrun
  have hws : wsub st.buffer.size st.buffer.start = st.buffer.size - st.buffer.start := by
    unfold wsub
    rw [if_pos hst]
  unfold ram_console_save_old
  rw [hrun]
  simp only [Option.map_some']
  cases dest <;> cases kmalloc_ok <;>
    exact ⟨_, rfl, c1, c4, c5, c6, c7, c8, c9, c10, by simp [c2, c3, c5, c6, hws],
      by simp [c2, c3]⟩

/-! ## The diagnostic footer -/

theorem dec_digits_append : ∀ (fuel n : Nat) (acc : List u8),
    dec_digits fuel n acc = dec_digits fuel n [] ++ acc := by
  intro fuel
  induction fuel with
  | zero => intro n acc; rfl
  | succ fuel ih =>
    intro n acc
    unfold dec_digits
    split_ifs with h
    · rfl
    · rw [ih (n / 10) (Fin.ofNat (48 + n % 10) :: acc), ih (n / 10) [Fin.ofNat (48 + n % 10)],
        List.append_assoc]
      rfl

theorem dec_digits_succ (fuel n : Nat) :
    dec_digits (fuel + 1) n []
      = (if n / 10 = 0 then [] else dec_digits fuel (n / 10) [])
        ++ [(Fin.ofNat (48 + n % 10) : u8)] := by
  conv_lhs => unfold dec_digits
  split_ifs with h
  · rfl
  · rw [dec_digits_append]

theorem digit_val (n : Nat) : ((Fin.ofNat (48 + n % 10) : u8)).val = 48 + n % 10 := by
  show (48 + n % 10) % 256 = 48 + n % 10
  omega

theorem dec_digits_length : ∀ (fuel n : Nat), (dec_digits fuel n []).length ≤ fuel := by
  intro fuel
  induction fuel with
  | zero => intro n; exact Nat.le_refl _
  | succ fuel ih =>
    intro n
    rw [dec_digits_succ]
    split_ifs with h
    · simp
    · have := ih (n / 10)
      simp only [List.length_append, List.length_singleton]
      omega

theorem dec_digits_value : ∀ (fuel n : Nat), n < 10 ^ fuel →
    dec_value (dec_digits fuel n []) = n := by
  intro fuel
  induction fuel with
  | zero =>
    intro n h
    simp only [pow_zero, Nat.lt_one_iff] at h
    subst h
    rfl
  | succ fuel ih =>
    intro n h
    rw [dec_digits_succ]
    unfold dec_value
    rw [List.foldl_append]
    simp only [List.foldl_cons, List.foldl_nil, digit_val]
    split_ifs with h0
    · simp only [List.foldl_nil]
      omega
    · have h1 : n / 10 < 10 ^ fuel := by
        rw [pow_succ] at h
        omega
      have := ih (n / 10) h1
      unfold dec_value at this
      rw [this]
      omega

theorem dec_digits_digits : ∀ (fuel n : Nat) (d : u8), d ∈ dec_digits fuel n [] →
    is_digit d := by
  intro fuel
  induction fuel with
  | zero => intro n d h; cases h
  | succ fuel ih =>
    intro n d h
    rw [dec_digits_succ, List.mem_append, List.mem_singleton] at h
    rcases h with h | h
    · split_ifs at h with h0
      · cases h
      · exact ih _ _ h
    · subst h
      unfold is_digit
      rw [digit_val]
      omega

theorem dec_digits_head (fuel n : Nat) :
    ∃ d rest, dec_digits (fuel + 1) n [] = d :: rest ∧ is_digit d := by
  cases h : dec_digits (fuel + 1) n [] with
  | nil =>
    rw [dec_digits_succ] at h
    simp at h
  | cons d rest =>
    refine ⟨d, rest, rfl, dec_digits_digits (fuel + 1) n d ?_⟩
    rw [h]
    exact List.mem_cons_self _ _

theorem fmt_d_length (i : Int) : (fmt_d i).length ≤ 11 := by
  unfold fmt_d
  have := dec_digits_length 10 i.natAbs
  split_ifs
  · simp only [List.length_cons]
    omega
  · omega

theorem fmt_d_head (i : Int) :
    ∃ d rest, fmt_d i = d :: rest ∧ (d.val = 45 ∨ is_digit d) := by
  unfold fmt_d
  split_ifs
  · exact ⟨45, _, rfl, Or.inl rfl⟩
  · obtain ⟨d, rest, h, hd⟩ := dec_digits_head 9 i.natAbs
    exact ⟨d, rest, h, Or.inr hd⟩

theorem footer_text_length (c b : Int) : (footer_text c b).length < STRBUF_SIZE := by
  unfold footer_text
  have h1 := fmt_d_length c
  have h2 := fmt_d_length b
  have e1 : (str_bytes "\n").length = 1 := by decide
  have e2 : (str_bytes " Corrected bytes, ").length = 18 := by decide
  have e3 : (str_bytes " unrecoverable blocks\n").length = 22 := by decide
  have e4 : (str_bytes "\nNo errors detected\n").length = 20 := by decide
  split_ifs
  · simp only [List.length_append, e1, e2, e3, STRBUF_SIZE]
    omega
  · rw [e4]
    decide

theorem footer_len_eq (c b : Int) : footer_len c b = (footer_text c b).length := by
  have := footer_text_length c b
  unfold footer_len
  simp only
  rw [if_neg (by omega)]

theorem footer_eq (c b : Int) : footer c b = footer_text c b := by
  unfold footer
  rw [footer_len_eq, List.take_length]

theorem footer_clean : footer 0 0 = str_bytes "\nNo errors detected\n" := by
  rw [footer_eq]
  rfl

theorem footer_text_errors (c b : Int) (h : c ≠ 0 ∨ b ≠ 0) :
    footer_text c b
      = str_bytes "\n" ++ fmt_d c ++ str_bytes " Corrected bytes, "
        ++ fmt_d b ++ str_bytes " unrecoverable blocks\n" := by
  unfold footer_text
  rw [if_pos h]

theorem footer_text_clean_iff (c b : Int) :
    footer_text c b = str_bytes "\nNo errors detected\n" ↔ c = 0 ∧ b = 0 := by
  constructor
  · intro h
    by_contra hne
    have hne1 : c ≠ 0 ∨ b ≠ 0 := by
      by_cases hc : c = 0
      · right
        intro hb
        exact hne ⟨hc, hb⟩
      · left; exact hc
    rw [footer_text_errors c b hne1] at h
    obtain ⟨d, rest, hd, hdig⟩ := fmt_d_head c
    rw [hd] at h
    have h1 := congrArg (fun l => (l.getD 1 0).val) h
    have e : ((str_bytes "\nNo errors detected\n").getD 1 0).val = 78 := by decide
    simp only [e] at h1
    have e1 : str_bytes "\n" = [10] := by decide
    rw [e1] at h1
    simp only [List.singleton_append, List.cons_append, List.getD_cons_succ,
      List.nil_append, List.getD_cons_zero] at h1
    unfold is_digit at hdig
    omega
  · rintro ⟨rfl, rfl⟩
    rfl

/-! ## The snapshot (C4) -/

/-- C4. Snapshot ordering: for every capacity, every `k ≤ capacity` and every
content of the data zone, when `ram_console_save_old` runs on a header with
`start = k` and `size = capacity` (and storage for the snapshot is there), the
first `capacity - k` bytes of the snapshot are `data[k..capacity)`, the next
`k` bytes are `data[0..k)`, and the footer follows right after these
`capacity` bytes; `data` is the zone after the block decoding, each block
holding what the decoder left. -/
theorem snapshot_order (rs : rs_control) (kmalloc_ok : Bool) (st : State) (dest : Bool)
    (k : Nat) (hk : k ≤ st.ram_console_buffer_size) (hstart : st.buffer.start = k)
    (hsize : st.buffer.size = st.ram_console_buffer_size)
    (hdest : dest = true ∨ kmalloc_ok = true) :
    ∃ st2 snap, ram_console_save_old rs kmalloc_ok st dest = some st2
      ∧ st2.ram_console_old_log = some snap
      ∧ (∀ a, st2.buffer.data a
          = decoded_data rs st.ram_console_buffer_size st.buffer.data 0
              (DIV_ROUND_UP st.ram_console_buffer_size ECC_BLOCK_SIZE) a)
      ∧ snap.take (st.ram_console_buffer_size - k)
        = rd st2.buffer.data k (st.ram_console_buffer_size - k)
      ∧ (snap.drop (st.ram_console_buffer_size - k)).take k = rd st2.buffer.data 0 k
      ∧ snap.drop st.ram_console_buffer_size
        = footer st2.ram_console_corrected_bytes st2.ram_console_bad_blocks := by
  obtain ⟨st2, hrun, -, -, -, -, hd, -, -, -, hsnap, -⟩ :=
    save_old_full rs kmalloc_ok st dest (by omega) (by omega)
  obtain ⟨hs, -⟩ := hsnap hdest
  rw [hstart, hsize] at hs
  rw [hsize] at hd
  refine ⟨st2, _, hrun, hs, hd, ?_, ?_, ?_⟩
  · rw [List.append_assoc, List.take_left' (rd_length _ _ _)]
  · rw [List.append_assoc, List.drop_left' (rd_length _ _ _),
      List.take_left' (rd_length _ _ _)]
  · have hlen : (rd st2.buffer.data k (st.ram_console_buffer_size - k)
        ++ rd st2.buffer.data 0 k).length = st.ram_console_buffer_size := by
      rw [List.length_append, rd_length, rd_length]
      omega
    rw [List.drop_left' hlen]

theorem snapshot_order_witness :
    100 ≤ wrapped_state.ram_console_buffer_size
      ∧ wrapped_state.buffer.start = 100
      ∧ wrapped_state.buffer.size = wrapped_state.ram_console_buffer_size
      ∧ ∃ st2 snap, ram_console_save_old rs_checksum true wrapped_state false = some st2
        ∧ st2.ram_console_old_log = some snap
        ∧ (∀ a, st2.buffer.data a
            = decoded_data rs_checksum wrapped_state.ram_console_buffer_size
                wrapped_state.buffer.data 0
                (DIV_ROUND_UP wrapped_state.ram_console_buffer_size ECC_BLOCK_SIZE) a)
        ∧ snap.take (wrapped_state.ram_console_buffer_size - 100)
          = rd st2.buffer.data 100 (wrapped_state.ram_console_buffer_size - 100)
        ∧ (snap.drop (wrapped_state.ram_console_buffer_size - 100)).take 100
          = rd st2.buffer.data 0 100
        ∧ snap.drop wrapped_state.ram_console_buffer_size
          = footer st2.ram_console_corrected_bytes st2.ram_console_bad_blocks :=
  ⟨by decide, rfl, rfl,
    snapshot_order rs_checksum true wrapped_state false 100 (by decide) rfl rfl (Or.inr rfl)⟩

/-! ## The header after `ram_console_init` (C11) -/

/-- C11. Init always leaves a fresh header: on every region content for which
the layout step and `init_rs` succeed, `ram_console_init` completes with
`sig = RAM_CONSOLE_SIG`, `start = 0` and `size = 0`; and when the header, after
its decode, has a bad signature or invalid bounds, no snapshot is produced
(`ram_console_old_log` and `ram_console_old_log_size` stay unset) and the bytes
of the data zone are unchanged. -/
theorem init_fresh_header (rs : rs_control) (kmalloc_ok : Bool) (buffer : ram_console_buffer)
    (buffer_size cap : Nat) (old_buf : Bool)
    (hl : ram_console_layout buffer_size = some cap) :
    ∃ st, ram_console_init (some rs) kmalloc_ok buffer buffer_size old_buf = .ok st
      ∧ st.buffer.sig = RAM_CONSOLE_SIG ∧ st.buffer.start = 0 ∧ st.buffer.size = 0
      ∧ ((decoded_header rs buffer cap).sig ≠ RAM_CONSOLE_SIG
          ∨ (decoded_header rs buffer cap).size > cap
          ∨ (decoded_header rs buffer cap).start > cap
          ∨ (decoded_header rs buffer cap).start > (decoded_header rs buffer cap).size →
        st.ram_console_old_log = none ∧ st.ram_console_old_log_size = 0
          ∧ ∀ a, st.buffer.data a = buffer.data a) := by
  by_cases hv : header_valid cap (decoded_header rs buffer cap)
  · obtain ⟨st, hrun, -, h1, h2, h3, -⟩ :=
      init_valid_spec rs kmalloc_ok buffer buffer_size cap old_buf hl hv
    refine ⟨st, hrun, h1, h2, h3, ?_⟩
    intro hbad
    obtain ⟨v1, v2, v3⟩ := hv
    exfalso
    rcases hbad with h | h | h | h
    · exact h v1
    · omega
    · omega
    · omega
  · obtain ⟨st, hrun, -, h1, h2, h3, h4, h5, h6, -⟩ :=
      init_invalid_spec rs kmalloc_ok buffer buffer_size cap old_buf hl hv
    exact ⟨st, hrun, h1, h2, h3, fun _ => ⟨h5, h6, fun a => by rw [h4]⟩⟩

theorem init_fresh_header_witness :
    ram_console_layout 332 = some 256
      ∧ ∃ st, ram_console_init (some rs_checksum) true blank_buffer 332 false = .ok st
        ∧ st.buffer.sig = RAM_CONSOLE_SIG ∧ st.buffer.start = 0 ∧ st.buffer.size = 0
        ∧ ((decoded_header rs_checksum blank_buffer 256).sig ≠ RAM_CONSOLE_SIG
            ∨ (decoded_header rs_checksum blank_buffer 256).size > 256
            ∨ (decoded_header rs_checksum blank_buffer 256).start > 256
            ∨ (decoded_header rs_checksum blank_buffer 256).start
                > (decoded_header rs_checksum blank_buffer 256).size →
          st.ram_console_old_log = none ∧ st.ram_console_old_log_size = 0
            ∧ ∀ a, st.buffer.data a = blank_buffer.data a) :=
  ⟨by decide, init_fresh_header rs_checksum true blank_buffer 332 256 false (by decide)⟩

/-! ## The decoder calls of the recovery (C16, C17) -/

theorem decode_calls_zero (rs : rs_control) (cap : Nat) (m : Mem) (n : Nat) :
    decode_calls rs cap m 0 n
      = (List.range n).map fun i =>
          Access.decode (ECC_BLOCK_SIZE * i) (min ECC_BLOCK_SIZE (cap - ECC_BLOCK_SIZE * i))
            (ECC_SIZE * i)
            (ram_console_decode_rs8 rs (data_block cap m i) (par_slot cap m i)).1 := by
  unfold decode_calls block_decode block_len
  rw [Nat.sub_zero, List.range_eq_range']

theorem corrected_sum_zero (rs : rs_control) (cap : Nat) (m : Mem) (n : Nat) :
    corrected_sum rs cap m 0 n
      = ((List.range n).map fun i => corrected_of
          (ram_console_decode_rs8 rs (data_block cap m i) (par_slot cap m i)).1).sum := by
  unfold corrected_sum block_decode
  rw [Nat.sub_zero, List.range_eq_range']

theorem bad_sum_zero (rs : rs_control) (cap : Nat) (m : Mem) (n : Nat) :
    bad_sum rs cap m 0 n
      = ((List.range n).map fun i => bad_of
          (ram_console_decode_rs8 rs (data_block cap m i) (par_slot cap m i)).1).sum := by
  unfold bad_sum block_decode
  rw [Nat.sub_zero, List.range_eq_range']

/-- C16, amended. Recovery decodes the blocks that start below `header.size`:
for every header accepted as a valid prior session, the decoder calls of
`ram_console_init` are the header decode followed by one call for each block
`i < ceil(header.size / 128)`, in ascending order, on `data[128 i ..)` with
length `min(128, capacity - 128 i)` and parity slot `i`; so block `i` is
decoded exactly when `128 i < header.size`, and a block that lies wholly at or
beyond `header.size` is not decoded. -/
theorem recovery_decodes_below_size (rs : rs_control) (kmalloc_ok : Bool)
    (buffer : ram_console_buffer) (buffer_size cap : Nat) (old_buf : Bool)
    (hl : ram_console_layout buffer_size = some cap)
    (hv : header_valid cap (decoded_header rs buffer cap)) :
    ∃ st, ram_console_init (some rs) kmalloc_ok buffer buffer_size old_buf = .ok st
      ∧ st.log
        = Access.header_decode (DIV_ROUND_UP cap ECC_BLOCK_SIZE * ECC_SIZE)
            (header_result rs buffer cap)
          :: (List.range (DIV_ROUND_UP (decoded_header rs buffer cap).size ECC_BLOCK_SIZE)).map
              (fun i => Access.decode (ECC_BLOCK_SIZE * i)
                (min ECC_BLOCK_SIZE (cap - ECC_BLOCK_SIZE * i)) (ECC_SIZE * i)
                (ram_console_decode_rs8 rs (data_block cap buffer.data i)
                  (par_slot cap buffer.data i)).1)
      ∧ ∀ i, (∃ len par numerr, Access.decode (ECC_BLOCK_SIZE * i) len par numerr ∈ st.log)
          ↔ ECC_BLOCK_SIZE * i < (decoded_header rs buffer cap).size := by
  obtain ⟨st, hrun, -, -, -, -, -, -, -, hlog, -⟩ :=
    init_valid_spec rs kmalloc_ok buffer buffer_size cap old_buf hl hv
  rw [decode_calls_zero] at hlog
  refine ⟨st, hrun, hlog, ?_⟩
  intro i
  rw [hlog]
  constructor
  · rintro ⟨len, par, numerr, hmem⟩
    rw [List.mem_cons] at hmem
    rcases hmem with h | h
    · cases h
    · rw [List.mem_map] at h
      obtain ⟨j, hj, he⟩ := h
      rw [List.mem_range] at hj
      injection he with e1 e2 e3 e4
      unfold DIV_ROUND_UP at hj
      simp only [ECC_BLOCK_SIZE] at *
      omega
  · intro h
    refine ⟨_, _, _, List.mem_cons_of_mem _ (List.mem_map.mpr ⟨i, ?_, rfl⟩)⟩
    rw [List.mem_range]
    unfold DIV_ROUND_UP
    simp only [ECC_BLOCK_SIZE] at *
    omega

theorem short_buffer_valid : header_valid 256 (decoded_header rs_checksum short_buffer 256) :=
  ⟨by decide, by decide, by decide⟩

theorem recovery_decodes_below_size_witness :
    ram_console_layout 332 = some 256
      ∧ header_valid 256 (decoded_header rs_checksum short_buffer 256)
      ∧ ∃ st, ram_console_init (some rs_checksum) true short_buffer 332 false = .ok st
        ∧ st.log
          = Access.header_decode (DIV_ROUND_UP 256 ECC_BLOCK_SIZE * ECC_SIZE)
              (header_result rs_checksum short_buffer 256)
            :: (List.range
                (DIV_ROUND_UP (decoded_header rs_checksum short_buffer 256).size
                  ECC_BLOCK_SIZE)).map
                (fun i => Access.decode (ECC_BLOCK_SIZE * i)
                  (min ECC_BLOCK_SIZE (256 - ECC_BLOCK_SIZE * i)) (ECC_SIZE * i)
                  (ram_console_decode_rs8 rs_checksum (data_block 256 short_buffer.data i)
                    (par_slot 256 short_buffer.data i)).1)
        ∧ ∀ i, (∃ len par numerr, Access.decode (ECC_BLOCK_SIZE * i) len par numerr ∈ st.log)
            ↔ ECC_BLOCK_SIZE * i < (decoded_header rs_checksum short_buffer 256).size :=
  ⟨by decide, short_buffer_valid,
    recovery_decodes_below_size rs_checksum true short_buffer 332 256 false (by decide)
      short_buffer_valid⟩

set_option maxRecDepth 8000

/-- C16, counterexample. On the region of 332 bytes (capacity 256, two data
blocks) whose header says `start = 4`, `size = 4`, with matching parity, the
header is accepted and `ram_console_init` calls the decoder on the header and
on block 0 only: block 1, which lies beyond `header.size`, is not decoded. -/
theorem recovery_decodes_every_block_counterexample :
    ram_console_layout 332 = some 256
      ∧ DIV_ROUND_UP 256 ECC_BLOCK_SIZE = 2
      ∧ header_valid 256 (decoded_header rs_checksum short_buffer 256)
      ∧ ∃ st, ram_console_init (some rs_checksum) true short_buffer 332 false = .ok st
        ∧ st.ram_console_old_log = some (str_bytes "AAAA\nNo errors detected\n")
        ∧ st.log = [Access.header_decode 32 0, Access.decode 0 128 0 0]
        ∧ ¬ ∃ len par numerr, Access.decode (ECC_BLOCK_SIZE * 1) len par numerr ∈ st.log := by
  refine ⟨by decide, by decide, short_buffer_valid, _, rfl, rfl, rfl, ?_⟩
  show ¬ ∃ len par numerr, Access.decode (ECC_BLOCK_SIZE * 1) len par numerr
    ∈ [Access.header_decode 32 0, Access.decode 0 128 0 0]
  rintro ⟨len, par, numerr, h⟩
  simp [ECC_BLOCK_SIZE] at h

/-! ## Counters and snapshot of a recovery (C17) -/

theorem corrected_of_nonneg (x : Int) : 0 ≤ corrected_of x := by
  unfold corrected_of
  split_ifs <;> omega

theorem bad_of_nonneg (x : Int) : 0 ≤ bad_of x := by
  unfold bad_of
  split_ifs <;> omega

theorem corrected_sum_nonneg (rs : rs_control) (cap : Nat) (m : Mem) (k n : Nat) :
    0 ≤ corrected_sum rs cap m k n := by
  unfold corrected_sum
  apply List.sum_nonneg
  intro x hx
  rw [List.mem_map] at hx
  obtain ⟨i, -, rfl⟩ := hx
  exact corrected_of_nonneg _

theorem bad_sum_nonneg (rs : rs_control) (cap : Nat) (m : Mem) (k n : Nat) :
    0 ≤ bad_sum rs cap m k n := by
  unfold bad_sum
  apply List.sum_nonneg
  intro x hx
  rw [List.mem_map] at hx
  obtain ⟨i, -, rfl⟩ := hx
  exact bad_of_nonneg _

theorem layout_room (buffer_size cap : Nat) (hbs : buffer_size < WORD)
    (h : ram_console_layout buffer_size = some cap) : cap + STRBUF_SIZE ≤ WORD := by
  obtain ⟨h1, h2⟩ := layout_cases buffer_size hbs
  by_cases hc : buffer_size < 12
      ∨ buffer_size - 12 < 16 * ((buffer_size - 12 + 127) / 128 + 1)
  · rw [h1.mpr hc] at h
    cases h
  · rw [h2 hc] at h
    simp only [Option.some.injEq] at h
    simp only [WORD, STRBUF_SIZE] at *
    omega

theorem footer_length (c b : Int) : (footer c b).length = footer_len c b := by
  rw [footer_eq, footer_len_eq]

theorem init_snapshot (rs : rs_control) (kmalloc_ok : Bool) (buffer : ram_console_buffer)
    (buffer_size cap : Nat) (old_buf : Bool)
    (hl : ram_console_layout buffer_size = some cap)
    (hv : header_valid cap (decoded_header rs buffer cap))
    (hdest : old_buf = true ∨ kmalloc_ok = true) :
    ∃ st snap, ram_console_init (some rs) kmalloc_ok buffer buffer_size old_buf = .ok st
      ∧ st.ram_console_old_log = some snap
      ∧ snap = rd st.buffer.data (decoded_header rs buffer cap).start
            ((decoded_header rs buffer cap).size - (decoded_header rs buffer cap).start)
          ++ rd st.buffer.data 0 (decoded_header rs buffer cap).start
          ++ footer st.ram_console_corrected_bytes st.ram_console_bad_blocks
      ∧ snap.length = (decoded_header rs buffer cap).size
          + (footer st.ram_console_corrected_bytes st.ram_console_bad_blocks).length
      ∧ snap.take (decoded_header rs buffer cap).size
        = rd st.buffer.data (decoded_header rs buffer cap).start
            ((decoded_header rs buffer cap).size - (decoded_header rs buffer cap).start)
          ++ rd st.buffer.data 0 (decoded_header rs buffer cap).start
      ∧ snap.drop (decoded_header rs buffer cap).size
        = footer st.ram_console_corrected_bytes st.ram_console_bad_blocks
      ∧ (buffer_size < WORD → st.ram_console_old_log_size = snap.length)
      ∧ 0 ≤ st.ram_console_corrected_bytes ∧ 0 ≤ st.ram_console_bad_blocks := by
  obtain ⟨st, hrun, -, -, -, -, -, hc, hb, -, hsnap, -⟩ :=
    init_valid_spec rs kmalloc_ok buffer buffer_size cap old_buf hl hv
  obtain ⟨hs, hz⟩ := hsnap hdest
  obtain ⟨-, v2, v3⟩ := hv
  have hlen : (rd st.buffer.data (decoded_header rs buffer cap).start
        ((decoded_header rs buffer cap).size - (decoded_header rs buffer cap).start)
      ++ rd st.buffer.data 0 (decoded_header rs buffer cap).start).length
      = (decoded_header rs buffer cap).size := by
    rw [List.length_append, rd_length, rd_length]
    omega
  refine ⟨st, _, hrun, hs, rfl, ?_, ?_, ?_, ?_, ?_, ?_⟩
  · rw [List.length_append, hlen]
  · rw [List.take_left' hlen]
  · rw [List.drop_left' hlen]
  · intro hbs
    have hroom := layout_room buffer_size cap hbs hl
    have hf := footer_text_length st.ram_console_corrected_bytes st.ram_console_bad_blocks
    rw [hz, List.length_append, hlen, footer_length, footer_len_eq]
    apply Nat.mod_eq_of_lt
    simp only [WORD, STRBUF_SIZE] at *
    omega
  · rw [hc]
    have := corrected_of_nonneg (header_result rs buffer cap)
    have := corrected_sum_nonneg rs cap buffer.data 0
      (DIV_ROUND_UP (decoded_header rs buffer cap).size ECC_BLOCK_SIZE)
    omega
  · rw [hb]
    have := bad_of_nonneg (header_result rs buffer cap)
    have := bad_sum_nonneg rs cap buffer.data 0
      (DIV_ROUND_UP (decoded_header rs buffer cap).size ECC_BLOCK_SIZE)
    omega

/-- C17. Best-effort salvage and statistics: the counters start from zero, so
at the end of a recovery `ram_console_corrected_bytes` is the sum of the
positive decode results and `ram_console_bad_blocks` the number of negative
ones, over the header decode and the data blocks decoded; whatever the decode
results are, a snapshot of `header.size` bytes plus the footer is produced,
and each byte of the data zone below `header.size`, of which the snapshot body
is made, is the byte the decoder left in its block. -/
theorem salvage_statistics (rs : rs_control) (kmalloc_ok : Bool) (buffer : ram_console_buffer)
    (buffer_size cap : Nat) (old_buf : Bool)
    (hbs : buffer_size < WORD)
    (hl : ram_console_layout buffer_size = some cap)
    (hv : header_valid cap (decoded_header rs buffer cap))
    (hdest : old_buf = true ∨ kmalloc_ok = true) :
    ∃ st snap, ram_console_init (some rs) kmalloc_ok buffer buffer_size old_buf = .ok st
      ∧ st.ram_console_corrected_bytes
        = corrected_of (header_result rs buffer cap)
          + ((List.range (DIV_ROUND_UP (decoded_header rs buffer cap).size ECC_BLOCK_SIZE)).map
              (fun i => corrected_of (ram_console_decode_rs8 rs (data_block cap buffer.data i)
                (par_slot cap buffer.data i)).1)).sum
      ∧ st.ram_console_bad_blocks
        = bad_of (header_result rs buffer cap)
          + ((List.range (DIV_ROUND_UP (decoded_header rs buffer cap).size ECC_BLOCK_SIZE)).map
              (fun i => bad_of (ram_console_decode_rs8 rs (data_block cap buffer.data i)
                (par_slot cap buffer.data i)).1)).sum
      ∧ st.ram_console_old_log = some snap
      ∧ snap = rd st.buffer.data (decoded_header rs buffer cap).start
            ((decoded_header rs buffer cap).size - (decoded_header rs buffer cap).start)
          ++ rd st.buffer.data 0 (decoded_header rs buffer cap).start
          ++ footer st.ram_console_corrected_bytes st.ram_console_bad_blocks
      ∧ snap.length = (decoded_header rs buffer cap).size
          + (footer st.ram_console_corrected_bytes st.ram_console_bad_blocks).length
      ∧ st.ram_console_old_log_size = snap.length
      ∧ ∀ a, a < (decoded_header rs buffer cap).size →
          st.buffer.data a
            = (ram_console_decode_rs8 rs (data_block cap buffer.data (a / ECC_BLOCK_SIZE))
                (par_slot cap buffer.data (a / ECC_BLOCK_SIZE))).2.getD (a % ECC_BLOCK_SIZE) 0 := by
  obtain ⟨st, hrun, -, -, -, -, hd, hc, hb, -⟩ :=
    init_valid_spec rs kmalloc_ok buffer buffer_size cap old_buf hl hv
  obtain ⟨st1, snap, hrun1, hs, hsnap, hlen, -, -, hz, -⟩ :=
    init_snapshot rs kmalloc_ok buffer buffer_size cap old_buf hl hv hdest
  rw [hrun] at hrun1
  cases hrun1
  rw [corrected_sum_zero] at hc
  rw [bad_sum_zero] at hb
  refine ⟨st, snap, hrun, hc, hb, hs, hsnap, hlen, hz hbs, ?_⟩
  intro a ha
  obtain ⟨-, v2, -⟩ := hv
  rw [hd a]
  unfold decoded_data block_decode
  rw [if_pos]
  unfold DIV_ROUND_UP
  simp only [ECC_BLOCK_SIZE]
  omega

theorem damaged_buffer_valid :
    header_valid 256 (decoded_header rs_checksum damaged_buffer 256) :=
  ⟨by decide, by decide, by decide⟩

theorem salvage_statistics_witness :
    332 < WORD ∧ ram_console_layout 332 = some 256
      ∧ header_valid 256 (decoded_header rs_checksum damaged_buffer 256)
      ∧ (∃ st, ram_console_init (some rs_checksum) true damaged_buffer 332 false = .ok st
          ∧ st.ram_console_bad_blocks = 1
          ∧ st.ram_console_old_log
            = some (str_bytes "BAAA\n0 Corrected bytes, 1 unrecoverable blocks\n"))
      ∧ ∃ st snap, ram_console_init (some rs_checksum) true damaged_buffer 332 false = .ok st
        ∧ st.ram_console_corrected_bytes
          = corrected_of (header_result rs_checksum damaged_buffer 256)
            + ((List.range (DIV_ROUND_UP (decoded_header rs_checksum damaged_buffer 256).size
                  ECC_BLOCK_SIZE)).map
                (fun i => corrected_of (ram_console_decode_rs8 rs_checksum
                  (data_block 256 damaged_buffer.data i)
                  (par_slot 256 damaged_buffer.data i)).1)).sum
        ∧ st.ram_console_bad_blocks
          = bad_of (header_result rs_checksum damaged_buffer 256)
            + ((List.range (DIV_ROUND_UP (decoded_header rs_checksum damaged_buffer 256).size
                  ECC_BLOCK_SIZE)).map
                (fun i => bad_of (ram_console_decode_rs8 rs_checksum
                  (data_block 256 damaged_buffer.data i)
                  (par_slot 256 damaged_buffer.data i)).1)).sum
        ∧ st.ram_console_old_log = some snap
        ∧ snap = rd st.buffer.data (decoded_header rs_checksum damaged_buffer 256).start
              ((decoded_header rs_checksum damaged_buffer 256).size
                - (decoded_header rs_checksum damaged_buffer 256).start)
            ++ rd st.buffer.data 0 (decoded_header rs_checksum damaged_buffer 256).start
            ++ footer st.ram_console_corrected_bytes st.ram_console_bad_blocks
        ∧ snap.length = (decoded_header rs_checksum damaged_buffer 256).size
            + (footer st.ram_console_corrected_bytes st.ram_console_bad_blocks).length
        ∧ st.ram_console_old_log_size = snap.length
        ∧ ∀ a, a < (decoded_header rs_checksum damaged_buffer 256).size →
            st.buffer.data a
              = (ram_console_decode_rs8 rs_checksum
                  (data_block 256 damaged_buffer.data (a / ECC_BLOCK_SIZE))
                  (par_slot 256 damaged_buffer.data (a / ECC_BLOCK_SIZE))).2.getD
                  (a % ECC_BLOCK_SIZE) 0 :=
  ⟨by decide, by decide, damaged_buffer_valid, ⟨_, rfl, rfl, rfl⟩,
    salvage_statistics rs_checksum true damaged_buffer 332 256 false (by decide) (by decide)
      damaged_buffer_valid (Or.inr rfl)⟩

/-! ## The body of the snapshot (C13) -/

/-- C13, amended. Snapshot body: for every header that `ram_console_init`
accepts as a valid prior session, the `header.size` bytes of the snapshot
before the footer are `data[start..size) ++ data[0..start)`; they are
`data[0..size)` in ascending order when `start = size`, the cursor of every
session that has not wrapped, or `start = 0`. -/
theorem snapshot_body (rs : rs_control) (kmalloc_ok : Bool) (buffer : ram_console_buffer)
    (buffer_size cap : Nat) (old_buf : Bool)
    (hl : ram_console_layout buffer_size = some cap)
    (hv : header_valid cap (decoded_header rs buffer cap))
    (hdest : old_buf = true ∨ kmalloc_ok = true) :
    ∃ st snap, ram_console_init (some rs) kmalloc_ok buffer buffer_size old_buf = .ok st
      ∧ st.ram_console_old_log = some snap
      ∧ snap.drop (decoded_header rs buffer cap).size
        = footer st.ram_console_corrected_bytes st.ram_console_bad_blocks
      ∧ snap.take (decoded_header rs buffer cap).size
        = rd st.buffer.data (decoded_header rs buffer cap).start
            ((decoded_header rs buffer cap).size - (decoded_header rs buffer cap).start)
          ++ rd st.buffer.data 0 (decoded_header rs buffer cap).start
      ∧ ((decoded_header rs buffer cap).start = (decoded_header rs buffer cap).size
          ∨ (decoded_header rs buffer cap).start = 0 →
        snap.take (decoded_header rs buffer cap).size
          = rd st.buffer.data 0 (decoded_header rs buffer cap).size) := by
  obtain ⟨st, snap, hrun, hs, -, -, htake, hdrop, -⟩ :=
    init_snapshot rs kmalloc_ok buffer buffer_size cap old_buf hl hv hdest
  refine ⟨st, snap, hrun, hs, hdrop, htake, ?_⟩
  intro h
  rw [htake]
  rcases h with h | h
  · rw [h, Nat.sub_self]
    rfl
  · rw [h, Nat.sub_zero]
    exact List.append_nil _

theorem snapshot_body_witness :
    ram_console_layout 332 = some 256
      ∧ header_valid 256 (decoded_header rs_checksum short_buffer 256)
      ∧ ∃ st snap, ram_console_init (some rs_checksum) true short_buffer 332 false = .ok st
        ∧ st.ram_console_old_log = some snap
        ∧ snap.drop (decoded_header rs_checksum short_buffer 256).size
          = footer st.ram_console_corrected_bytes st.ram_console_bad_blocks
        ∧ snap.take (decoded_header rs_checksum short_buffer 256).size
          = rd st.buffer.data (decoded_header rs_checksum short_buffer 256).start
              ((decoded_header rs_checksum short_buffer 256).size
                - (decoded_header rs_checksum short_buffer 256).start)
            ++ rd st.buffer.data 0 (decoded_header rs_checksum short_buffer 256).start
        ∧ ((decoded_header rs_checksum short_buffer 256).start
              = (decoded_header rs_checksum short_buffer 256).size
            ∨ (decoded_header rs_checksum short_buffer 256).start = 0 →
          snap.take (decoded_header rs_checksum short_buffer 256).size
            = rd st.buffer.data 0 (decoded_header rs_checksum short_buffer 256).size) :=
  ⟨by decide, short_buffer_valid,
    snapshot_body rs_checksum true short_buffer 332 256 false (by decide) short_buffer_valid
      (Or.inr rfl)⟩

/-- C13, counterexample. On the region of 332 bytes (capacity 256) whose
header says `start = 1`, `size = 2`, with "AB" at the head of the data zone and
matching parity, the header is accepted with `size < capacity`, nothing is
corrected, and the snapshot body is "BA" while `data[0..size)` is "AB". -/
theorem snapshot_body_counterexample :
    ram_console_layout 332 = some 256
      ∧ header_valid 256 (decoded_header rs_checksum rotated_buffer 256)
      ∧ (decoded_header rs_checksum rotated_buffer 256).size < 256
      ∧ ∃ st, ram_console_init (some rs_checksum) true rotated_buffer 332 false = .ok st
        ∧ st.ram_console_old_log = some (str_bytes "BA\nNo errors detected\n")
        ∧ rd st.buffer.data 0 (decoded_header rs_checksum rotated_buffer 256).size
          = str_bytes "AB" :=
  ⟨by decide, ⟨by decide, by decide, by decide⟩, by decide, _, rfl, rfl, rfl⟩

/-! ## The header check (C5, C6) -/

theorem init_snapshot_iff (rs : rs_control) (kmalloc_ok : Bool) (buffer : ram_console_buffer)
    (buffer_size cap : Nat) (old_buf : Bool)
    (hl : ram_console_layout buffer_size = some cap)
    (hdest : old_buf = true ∨ kmalloc_ok = true) :
    ∃ st, ram_console_init (some rs) kmalloc_ok buffer buffer_size old_buf = .ok st
      ∧ st.buffer.sig = RAM_CONSOLE_SIG ∧ st.buffer.start = 0 ∧ st.buffer.size = 0
      ∧ (st.ram_console_old_log ≠ none ↔ header_valid cap (decoded_header rs buffer cap))
      ∧ (¬ header_valid cap (decoded_header rs buffer cap) →
          st.ram_console_old_log_size = 0 ∧ (∀ a, st.buffer.data a = buffer.data a)
            ∧ st.log = [Access.header_decode (DIV_ROUND_UP cap ECC_BLOCK_SIZE * ECC_SIZE)
                (header_result rs buffer cap)])
      ∧ bad_of (header_result rs buffer cap) ≤ st.ram_console_bad_blocks := by
  by_cases hv : header_valid cap (decoded_header rs buffer cap)
  · obtain ⟨st, hrun, -, h1, h2, h3, -, -, hb, -, hsnap, -⟩ :=
      init_valid_spec rs kmalloc_ok buffer buffer_size cap old_buf hl hv
    obtain ⟨hs, -⟩ := hsnap hdest
    refine ⟨st, hrun, h1, h2, h3, ?_, fun h => absurd hv h, ?_⟩
    · rw [hs]
      simp [hv]
    · rw [hb]
      have := bad_sum_nonneg rs cap buffer.data 0
        (DIV_ROUND_UP (decoded_header rs buffer cap).size ECC_BLOCK_SIZE)
      omega
  · obtain ⟨st, hrun, -, h1, h2, h3, h4, h5, h6, -, h8, h9⟩ :=
      init_invalid_spec rs kmalloc_ok buffer buffer_size cap old_buf hl hv
    refine ⟨st, hrun, h1, h2, h3, ?_, fun _ => ⟨h6, fun a => by rw [h4], h9⟩, ?_⟩
    · rw [h5]
      simp [hv]
    · rw [h8]

/-- C5, amended. Header validity criterion: `ram_console_init` runs the
recovery, and so produces a snapshot, exactly when the header, after its
decode, has the signature `RAM_CONSOLE_SIG`, `size ≤ capacity` and
`start ≤ size`; such a header has `start ≤ capacity` and `size ≤ capacity`, and
every other header is treated as never initialised: no snapshot, the data zone
untouched, no block decoded. -/
theorem recovery_iff_valid (rs : rs_control) (kmalloc_ok : Bool) (buffer : ram_console_buffer)
    (buffer_size cap : Nat) (old_buf : Bool)
    (hl : ram_console_layout buffer_size = some cap)
    (hdest : old_buf = true ∨ kmalloc_ok = true) :
    ∃ st, ram_console_init (some rs) kmalloc_ok buffer buffer_size old_buf = .ok st
      ∧ (st.ram_console_old_log ≠ none
          ↔ (decoded_header rs buffer cap).sig = RAM_CONSOLE_SIG
            ∧ (decoded_header rs buffer cap).size ≤ cap
            ∧ (decoded_header rs buffer cap).start ≤ (decoded_header rs buffer cap).size)
      ∧ (st.ram_console_old_log ≠ none →
          (decoded_header rs buffer cap).start ≤ cap ∧ (decoded_header rs buffer cap).size ≤ cap)
      ∧ (st.ram_console_old_log = none →
          st.ram_console_old_log_size = 0 ∧ (∀ a, st.buffer.data a = buffer.data a)
            ∧ st.log = [Access.header_decode (DIV_ROUND_UP cap ECC_BLOCK_SIZE * ECC_SIZE)
                (header_result rs buffer cap)]) := by
  obtain ⟨st, hrun, -, -, -, hiff, hinv, -⟩ :=
    init_snapshot_iff rs kmalloc_ok buffer buffer_size cap old_buf hl hdest
  refine ⟨st, hrun, hiff, ?_, ?_⟩
  · intro h
    obtain ⟨-, v2, v3⟩ := hiff.mp h
    exact ⟨by omega, v2⟩
  · intro h
    apply hinv
    intro hv
    exact hiff.mpr hv h

theorem recovery_iff_valid_witness :
    ram_console_layout 332 = some 256
      ∧ ∃ st, ram_console_init (some rs_checksum) true short_buffer 332 false = .ok st
        ∧ (st.ram_console_old_log ≠ none
            ↔ (decoded_header rs_checksum short_buffer 256).sig = RAM_CONSOLE_SIG
              ∧ (decoded_header rs_checksum short_buffer 256).size ≤ 256
              ∧ (decoded_header rs_checksum short_buffer 256).start
                ≤ (decoded_header rs_checksum short_buffer 256).size)
        ∧ (st.ram_console_old_log ≠ none →
            (decoded_header rs_checksum short_buffer 256).start ≤ 256
              ∧ (decoded_header rs_checksum short_buffer 256).size ≤ 256)
        ∧ (st.ram_console_old_log = none →
            st.ram_console_old_log_size = 0 ∧ (∀ a, st.buffer.data a = short_buffer.data a)
              ∧ st.log = [Access.header_decode (DIV_ROUND_UP 256 ECC_BLOCK_SIZE * ECC_SIZE)
                  (header_result rs_checksum short_buffer 256)]) :=
  ⟨by decide,
    recovery_iff_valid rs_checksum true short_buffer 332 256 false (by decide) (Or.inr rfl)⟩

/-- C5, counterexample. On the region of 332 bytes (capacity 256) whose
signed header says `start = 5` and `size = 3`, with matching header parity, the
header decodes clean and passes `start ≤ capacity` and `size ≤ capacity`, yet
`ram_console_init` does not run the recovery: no snapshot is produced. -/
theorem recovery_criterion_counterexample :
    ram_console_layout 332 = some 256
      ∧ header_result rs_checksum crossed_buffer 256 = 0
      ∧ (decoded_header rs_checksum crossed_buffer 256).sig = RAM_CONSOLE_SIG
      ∧ (decoded_header rs_checksum crossed_buffer 256).start ≤ 256
      ∧ (decoded_header rs_checksum crossed_buffer 256).size ≤ 256
      ∧ ∃ st, ram_console_init (some rs_checksum) true crossed_buffer 332 false = .ok st
        ∧ st.ram_console_old_log = none ∧ st.ram_console_old_log_size = 0 :=
  ⟨by decide, by decide, by decide, by decide, by decide, _, rfl, rfl, rfl⟩

/-- C6, amended. Uncorrectable header: when the header's decode returns a
negative result, `ram_console_init` counts one bad block and goes on to the
header check with the header bytes as the decoder left them; a snapshot is
produced exactly when these pass the check; in both cases `ram_console_init`
completes with a fresh header (signature set, `start = 0`, `size = 0`). -/
theorem uncorrectable_header_checked (rs : rs_control) (kmalloc_ok : Bool)
    (buffer : ram_console_buffer) (buffer_size cap : Nat) (old_buf : Bool)
    (hl : ram_console_layout buffer_size = some cap)
    (hneg : header_result rs buffer cap < 0)
    (hdest : old_buf = true ∨ kmalloc_ok = true) :
    ∃ st, ram_console_init (some rs) kmalloc_ok buffer buffer_size old_buf = .ok st
      ∧ st.buffer.sig = RAM_CONSOLE_SIG ∧ st.buffer.start = 0 ∧ st.buffer.size = 0
      ∧ 1 ≤ st.ram_console_bad_blocks
      ∧ (st.ram_console_old_log ≠ none
          ↔ (decoded_header rs buffer cap).sig = RAM_CONSOLE_SIG
            ∧ (decoded_header rs buffer cap).size ≤ cap
            ∧ (decoded_header rs buffer cap).start ≤ (decoded_header rs buffer cap).size) := by
  obtain ⟨st, hrun, h1, h2, h3, hiff, -, hb⟩ :=
    init_snapshot_iff rs kmalloc_ok buffer buffer_size cap old_buf hl hdest
  refine ⟨st, hrun, h1, h2, h3, ?_, hiff⟩
  unfold bad_of at hb
  rw [if_pos hneg] at hb
  exact hb

theorem uncorrectable_header_checked_witness :
    ram_console_layout 332 = some 256
      ∧ header_result rs_checksum blank_state.buffer 256 < 0
      ∧ ∃ st, ram_console_init (some rs_checksum) false blank_state.buffer 332 true = .ok st
        ∧ st.buffer.sig = RAM_CONSOLE_SIG ∧ st.buffer.start = 0 ∧ st.buffer.size = 0
        ∧ 1 ≤ st.ram_console_bad_blocks
        ∧ (st.ram_console_old_log ≠ none
            ↔ (decoded_header rs_checksum blank_state.buffer 256).sig = RAM_CONSOLE_SIG
              ∧ (decoded_header rs_checksum blank_state.buffer 256).size ≤ 256
              ∧ (decoded_header rs_checksum blank_state.buffer 256).start
                ≤ (decoded_header rs_checksum blank_state.buffer 256).size) :=
  ⟨by decide, by decide,
    uncorrectable_header_checked rs_checksum false blank_state.buffer 332 256 true (by decide)
      (by decide) (Or.inl rfl)⟩

/-- C6, counterexample. On the region of 332 bytes that `ram_console_init`
leaves after it ran on a never-written region (signed, empty header, no
parity), the header's decode returns a negative result, and `ram_console_init`
still runs the recovery: a snapshot is produced, made of the footer that
reports the bad block. -/
theorem uncorrectable_header_counterexample :
    ram_console_layout 332 = some 256
      ∧ header_result rs_checksum unprotected_buffer 256 < 0
      ∧ ∃ st, ram_console_init (some rs_checksum) true unprotected_buffer 332 false = .ok st
        ∧ st.ram_console_bad_blocks = 1
        ∧ st.ram_console_old_log
          = some (str_bytes "\n0 Corrected bytes, 1 unrecoverable blocks\n")
        ∧ st.ram_console_old_log_size = 43 :=
  ⟨by decide, by decide, _, rfl, rfl, rfl, rfl⟩

/-! ## Footer and length of the snapshot (C12) -/

theorem fmt_d_nonneg (i : Int) (h0 : 0 ≤ i) (h1 : i < 2147483648) :
    (∀ d ∈ fmt_d i, is_digit d) ∧ dec_value (fmt_d i) = i.toNat := by
  unfold fmt_d
  rw [if_neg (by omega)]
  refine ⟨dec_digits_digits 10 i.natAbs, ?_⟩
  rw [dec_digits_value 10 i.natAbs (by omega)]
  omega

theorem fmt_d_neg (i : Int) (h0 : -2147483648 ≤ i) (h1 : i < 0) :
    ∃ ds, fmt_d i = 45 :: ds ∧ (∀ d ∈ ds, is_digit d) ∧ dec_value ds = (-i).toNat := by
  unfold fmt_d
  rw [if_pos h1]
  refine ⟨_, rfl, dec_digits_digits 10 i.natAbs, ?_⟩
  rw [dec_digits_value 10 i.natAbs (by omega)]
  omega

/-- C12. Diagnostic footer and length accounting: for every recovery run the
snapshot is `header.size` bytes followed by the footer, and its length, also
the value of `ram_console_old_log_size`, is `header.size` plus the footer
length; the footer is "\nNo errors detected\n" exactly when
`corrected_bytes + bad_blocks = 0` and otherwise is
"\n<corrected_bytes> Corrected bytes, <bad_blocks> unrecoverable blocks\n",
where `%d` writes an `int` in decimal, with a minus sign when negative; for all
values of the two counters the text is shorter than the 80 bytes of `strbuf`,
so the footer is the whole text. -/
theorem footer_accounting (rs : rs_control) (kmalloc_ok : Bool) (buffer : ram_console_buffer)
    (buffer_size cap : Nat) (old_buf : Bool)
    (hbs : buffer_size < WORD)
    (hl : ram_console_layout buffer_size = some cap)
    (hv : header_valid cap (decoded_header rs buffer cap))
    (hdest : old_buf = true ∨ kmalloc_ok = true) :
    (∃ st snap, ram_console_init (some rs) kmalloc_ok buffer buffer_size old_buf = .ok st
      ∧ st.ram_console_old_log = some snap
      ∧ snap.drop (decoded_header rs buffer cap).size
        = footer st.ram_console_corrected_bytes st.ram_console_bad_blocks
      ∧ snap.length = (decoded_header rs buffer cap).size
          + (footer st.ram_console_corrected_bytes st.ram_console_bad_blocks).length
      ∧ st.ram_console_old_log_size = snap.length
      ∧ (footer st.ram_console_corrected_bytes st.ram_console_bad_blocks
            = str_bytes "\nNo errors detected\n"
          ↔ st.ram_console_corrected_bytes + st.ram_console_bad_blocks = 0)
      ∧ (st.ram_console_corrected_bytes + st.ram_console_bad_blocks ≠ 0 →
          footer st.ram_console_corrected_bytes st.ram_console_bad_blocks
            = str_bytes "\n" ++ fmt_d st.ram_console_corrected_bytes
              ++ str_bytes " Corrected bytes, " ++ fmt_d st.ram_console_bad_blocks
              ++ str_bytes " unrecoverable blocks\n"))
      ∧ (∀ i : Int, 0 ≤ i → i < 2147483648 →
          (∀ d ∈ fmt_d i, is_digit d) ∧ dec_value (fmt_d i) = i.toNat)
      ∧ (∀ i : Int, -2147483648 ≤ i → i < 0 →
          ∃ ds, fmt_d i = 45 :: ds ∧ (∀ d ∈ ds, is_digit d) ∧ dec_value ds = (-i).toNat)
      ∧ ∀ c b : Int, (footer_text c b).length < STRBUF_SIZE ∧ footer c b = footer_text c b := by
  refine ⟨?_, fmt_d_nonneg, fmt_d_neg, fun c b => ⟨footer_text_length c b, footer_eq c b⟩⟩
  obtain ⟨st, snap, hrun, hs, -, hlen, -, hdrop, hz, hc, hb⟩ :=
    init_snapshot rs kmalloc_ok buffer buffer_size cap old_buf hl hv hdest
  refine ⟨st, snap, hrun, hs, hdrop, hlen, hz hbs, ?_, ?_⟩
  · rw [footer_eq, footer_text_clean_iff]
    constructor
    · rintro ⟨h1, h2⟩
      omega
    · intro h
      constructor <;> omega
  · intro h
    rw [footer_eq]
    apply footer_text_errors
    by_contra hne
    apply h
    have h1 : st.ram_console_corrected_bytes = 0 := by
      by_contra h1
      exact hne (Or.inl h1)
    have h2 : st.ram_console_bad_blocks = 0 := by
      by_contra h2
      exact hne (Or.inr h2)
    omega

theorem footer_accounting_witness :
    332 < WORD ∧ ram_console_layout 332 = some 256
      ∧ header_valid 256 (decoded_header rs_checksum damaged_buffer 256)
      ∧ (∃ st snap, ram_console_init (some rs_checksum) true damaged_buffer 332 false = .ok st
        ∧ st.ram_console_old_log = some snap
        ∧ snap.drop (decoded_header rs_checksum damaged_buffer 256).size
          = footer st.ram_console_corrected_bytes st.ram_console_bad_blocks
        ∧ snap.length = (decoded_header rs_checksum damaged_buffer 256).size
            + (footer st.ram_console_corrected_bytes st.ram_console_bad_blocks).length
        ∧ st.ram_console_old_log_size = snap.length
        ∧ (footer st.ram_console_corrected_bytes st.ram_console_bad_blocks
              = str_bytes "\nNo errors detected\n"
            ↔ st.ram_console_corrected_bytes + st.ram_console_bad_blocks = 0)
        ∧ (st.ram_console_corrected_bytes + st.ram_console_bad_blocks ≠ 0 →
            footer st.ram_console_corrected_bytes st.ram_console_bad_blocks
              = str_bytes "\n" ++ fmt_d st.ram_console_corrected_bytes
                ++ str_bytes " Corrected bytes, " ++ fmt_d st.ram_console_bad_blocks
                ++ str_bytes " unrecoverable blocks\n"))
      ∧ (∀ i : Int, 0 ≤ i → i < 2147483648 →
          (∀ d ∈ fmt_d i, is_digit d) ∧ dec_value (fmt_d i) = i.toNat)
      ∧ (∀ i : Int, -2147483648 ≤ i → i < 0 →
          ∃ ds, fmt_d i = 45 :: ds ∧ (∀ d ∈ ds, is_digit d) ∧ dec_value ds = (-i).toNat)
      ∧ ∀ c b : Int, (footer_text c b).length < STRBUF_SIZE ∧ footer c b = footer_text c b :=
  ⟨by decide, by decide, damaged_buffer_valid,
    footer_accounting rs_checksum true damaged_buffer 332 256 false (by decide) (by decide)
      damaged_buffer_valid (Or.inr rfl)⟩

/-! ## Reboot round trip (C2) -/

theorem le32_val (x : Nat) (hx : x < WORD) : of_le32 (le32 x) 0 = x := by
  unfold of_le32 le32
  simp only [List.getD_cons_zero, List.getD_cons_succ]
  show x % 256 + 256 * (x / 256 % 256) + 65536 * (x / 65536 % 256)
    + 16777216 * (x / 16777216 % 256) = x
  simp only [WORD] at hx
  omega

theorem set_header_bytes_self (b : ram_console_buffer) (h1 : b.sig < WORD)
    (h2 : b.start < WORD) (h3 : b.size < WORD) :
    set_header_bytes b (header_bytes b) = b := by
  have e1 : of_le32 (header_bytes b) 0 = of_le32 (le32 b.sig) 0 := rfl
  have e2 : of_le32 (header_bytes b) 4 = of_le32 (le32 b.start) 0 := rfl
  have e3 : of_le32 (header_bytes b) 8 = of_le32 (le32 b.size) 0 := rfl
  unfold set_header_bytes
  rw [e1, e2, e3, le32_val _ h1, le32_val _ h2, le32_val _ h3]

theorem header_bytes_length (b : ram_console_buffer) : (header_bytes b).length = 12 := rfl

theorem clean_header (rs : rs_control) (buffer : ram_console_buffer) (cap : Nat)
    (hclean : rs_clean rs)
    (h1 : buffer.sig < WORD) (h2 : buffer.start < WORD) (h3 : buffer.size < WORD)
    (hp : par_slot cap buffer.data (DIV_ROUND_UP cap ECC_BLOCK_SIZE)
      = ram_console_encode_rs8 rs (header_bytes buffer)) :
    decoded_header rs buffer cap = buffer ∧ header_result rs buffer cap = 0 := by
  have hdec := hclean (header_bytes buffer)
    (by rw [header_bytes_length]; simp only [ECC_BLOCK_SIZE]; omega)
  obtain ⟨-, -, hb, -⟩ := init_header_spec rs buffer cap
  unfold decoded_header header_result
  rw [hb, hp, hdec]
  exact ⟨set_header_bytes_self buffer h1 h2 h3, rfl⟩

theorem clean_block (rs : rs_control) (cap : Nat) (m : Mem) (i : Nat) (hclean : rs_clean rs)
    (hp : block_parity_ok rs cap m i) :
    block_decode rs cap m i = (0, data_block cap m i) := by
  unfold block_decode
  unfold block_parity_ok at hp
  rw [hp]
  apply hclean
  unfold data_block
  rw [rd_length]
  unfold block_len
  exact Nat.min_le_left _ _

theorem clean_decoded_data (rs : rs_control) (cap : Nat) (m : Mem) (n : Nat)
    (hclean : rs_clean rs)
    (hp : ∀ i, i < n → block_parity_ok rs cap m i) (a : Nat) :
    decoded_data rs cap m 0 n a = m a := by
  unfold decoded_data
  split_ifs with h
  · obtain ⟨-, h2, h3⟩ := h
    have hi : a / ECC_BLOCK_SIZE < n := by
      simp only [ECC_BLOCK_SIZE] at *
      omega
    rw [clean_block rs cap m _ hclean (hp _ hi)]
    unfold data_block
    rw [rd_getD]
    · congr 1
      simp only [ECC_BLOCK_SIZE]
      omega
    · unfold block_len
      simp only [ECC_BLOCK_SIZE] at *
      omega
  · rfl

theorem clean_sums (rs : rs_control) (cap : Nat) (m : Mem) (n : Nat)
    (hclean : rs_clean rs)
    (hp : ∀ i, i < n → block_parity_ok rs cap m i) :
    corrected_sum rs cap m 0 n = 0 ∧ bad_sum rs cap m 0 n = 0 := by
  unfold corrected_sum bad_sum
  rw [Nat.sub_zero]
  constructor
  · apply List.sum_eq_zero
    intro x hx
    rw [List.mem_map] at hx
    obtain ⟨i, hi, rfl⟩ := hx
    rw [List.mem_range'_1] at hi
    rw [clean_block rs cap m i hclean (hp i (by omega))]
    rfl
  · apply List.sum_eq_zero
    intro x hx
    rw [List.mem_map] at hx
    obtain ⟨i, hi, rfl⟩ := hx
    rw [List.mem_range'_1] at hi
    rw [clean_block rs cap m i hclean (hp i (by omega))]
    rfl

theorem clean_init (rs : rs_control) (kmalloc_ok : Bool) (buffer : ram_console_buffer)
    (buffer_size cap : Nat) (old_buf : Bool)
    (hclean : rs_clean rs)
    (hbs : buffer_size < WORD)
    (hl : ram_console_layout buffer_size = some cap)
    (hsig : buffer.sig = RAM_CONSOLE_SIG)
    (hsz : buffer.size ≤ cap) (hst : buffer.start ≤ buffer.size)
    (hph : par_slot cap buffer.data (DIV_ROUND_UP cap ECC_BLOCK_SIZE)
      = ram_console_encode_rs8 rs (header_bytes buffer))
    (hpb : ∀ i, ECC_BLOCK_SIZE * i < buffer.size → block_parity_ok rs cap buffer.data i)
    (hdest : old_buf = true ∨ kmalloc_ok = true) :
    ∃ st, ram_console_init (some rs) kmalloc_ok buffer buffer_size old_buf = .ok st
      ∧ st.ram_console_corrected_bytes = 0 ∧ st.ram_console_bad_blocks = 0
      ∧ st.ram_console_old_log = some
          (rd buffer.data buffer.start (buffer.size - buffer.start)
            ++ rd buffer.data 0 buffer.start ++ str_bytes "\nNo errors detected\n")
      ∧ st.buffer.start = 0 ∧ st.buffer.size = 0
      ∧ ∀ a, st.buffer.data a = buffer.data a := by
  have hcap := layout_lt buffer_size cap hbs hl
  obtain ⟨hh, hr⟩ := clean_header rs buffer cap hclean
    (by rw [hsig]; decide) (by omega) (by omega) hph
  have hv : header_valid cap (decoded_header rs buffer cap) := by
    rw [hh]
    exact ⟨hsig, hsz, hst⟩
  obtain ⟨st, hrun, -, -, h2, h3, hd, hc, hb, -, hsnap, -⟩ :=
    init_valid_spec rs kmalloc_ok buffer buffer_size cap old_buf hl hv
  rw [hh] at hd hc hb hsnap
  have hpn : ∀ i, i < DIV_ROUND_UP buffer.size ECC_BLOCK_SIZE →
      block_parity_ok rs cap buffer.data i := by
    intro i hi
    apply hpb
    unfold DIV_ROUND_UP at hi
    simp only [ECC_BLOCK_SIZE] at *
    omega
  obtain ⟨s1, s2⟩ := clean_sums rs cap buffer.data _ hclean hpn
  have hdata : ∀ a, st.buffer.data a = buffer.data a := by
    intro a
    rw [hd a, clean_decoded_data rs cap buffer.data _ hclean hpn a]
  rw [hr, s1] at hc
  rw [hr, s2] at hb
  have hc0 : st.ram_console_corrected_bytes = 0 := by rw [hc]; rfl
  have hb0 : st.ram_console_bad_blocks = 0 := by rw [hb]; rfl
  obtain ⟨hs, -⟩ := hsnap hdest
  refine ⟨st, hrun, hc0, hb0, ?_, h2, h3, hdata⟩
  rw [hs, hc0, hb0, footer_clean,
    rd_congr st.buffer.data buffer.data _ _ (fun a _ _ => hdata a),
    rd_congr st.buffer.data buffer.data _ _ (fun a _ _ => hdata a)]

theorem write_parity_inv (rs : rs_control) (st st1 : State) (s : List u8)
    (hW : st.ram_console_buffer_size < WORD) (hinv : cursor_inv st)
    (hpar : parity_inv rs st)
    (h : ram_console_write rs st s = some st1) : parity_inv rs st1 := by
  obtain ⟨st2, hrun, hfr, -, hz, -⟩ := write_spec rs st s hW hinv.1
  rw [h] at hrun
  cases hrun
  obtain ⟨⟨i1, i2⟩, hcap, -⟩ := write_cursor_inv rs st st1 s hW hinv h
  intro i hi
  rw [hcap]
  have hsz1 : st1.buffer.size ≤ st.ram_console_buffer_size := by
    rw [hcap] at i1 i2
    rcases i2 with h2 | h2 <;> omega
  have hiH : i < DIV_ROUND_UP st.ram_console_buffer_size ECC_BLOCK_SIZE := by
    unfold DIV_ROUND_UP
    simp only [ECC_BLOCK_SIZE] at *
    omega
  obtain ⟨w1, w2⟩ := write_blocks rs st st1 s hW hinv.1 h i hiH
  by_cases hbw : block_written st.ram_console_buffer_size st.buffer.start s.length i
  · exact w1 hbw
  · obtain ⟨hd, hp⟩ := w2 hbw
    rcases hp with hp | hp
    · have hold : ECC_BLOCK_SIZE * i < st.buffer.size := by
        by_contra hnot
        apply hbw
        refine ⟨ECC_BLOCK_SIZE * i, ?_, Nat.le_refl _, by simp only [ECC_BLOCK_SIZE]; omega⟩
        obtain ⟨c1, c2⟩ := hinv
        rw [hz] at hi
        unfold next_size at hi
        unfold written
        simp only [ECC_BLOCK_SIZE, WORD] at *
        split_ifs at hi <;> omega
      have := hpar i hold
      unfold block_parity_ok at this ⊢
      rw [hp, hd]
      exact this
    · exact hp

theorem writes_parity_inv (rs : rs_control) (chunks : List (List u8)) :
    ∀ st : State, st.ram_console_buffer_size < WORD → cursor_inv st → parity_inv rs st →
      ∃ st1, ram_console_writes rs st chunks = some st1
        ∧ parity_inv rs st1 ∧ (chunks ≠ [] → header_parity_ok rs st1) := by
  induction chunks with
  | nil => intro st _ _ hpar; exact ⟨st, rfl, hpar, fun h => absurd rfl h⟩
  | cons s rest ih =>
    intro st hW hinv hpar
    obtain ⟨st1, hrun, -⟩ := write_spec rs st s hW hinv.1
    obtain ⟨hinv1, hcap1, -⟩ := write_cursor_inv rs st st1 s hW hinv hrun
    have hpar1 := write_parity_inv rs st st1 s hW hinv hpar hrun
    have hhdr1 := write_header_parity rs st st1 s hW hinv.1 hrun
    obtain ⟨st2, hrun2, hpar2, hhdr2⟩ := ih st1 (by rw [hcap1]; exact hW) hinv1 hpar1
    refine ⟨st2, ?_, hpar2, fun _ => ?_⟩
    · rw [ram_console_writes, hrun]
      exact hrun2
    · cases rest with
      | nil =>
        rw [ram_console_writes] at hrun2
        cases hrun2
        exact hhdr1
      | cons s1 rest1 => exact hhdr2 (List.cons_ne_nil _ _)

theorem rs_checksum_clean : rs_clean rs_checksum := by
  intro d _
  unfold ram_console_decode_rs8 ram_console_encode_rs8 rs_checksum
  simp only
  rw [if_pos]
  have h16 : List.range ECC_SIZE = 0 :: (List.range 15).map (· + 1) := by decide
  rw [h16]
  simp only [List.map_cons, List.getD_cons_zero]
  show (((d.map Fin.val).sum % 256) % 256) = _
  omega

/-- C2. Reboot round trip: for every region on which `ram_console_init`
succeeded and every sequence of at least one `ram_console_write` call made
afterwards, when the codec reports 0 errors and changes nothing on a block
decoded against the parity encoded from exactly its bytes, `ram_console_init`
run again on the region as the appends left it (with storage for the snapshot)
completes with `ram_console_corrected_bytes = 0` and
`ram_console_bad_blocks = 0`, a snapshot equal to the live logical content,
the last `min(capacity, total)` bytes written, followed by
"\nNo errors detected\n", and a header with `start = 0` and `size = 0`. -/
theorem reboot_round_trip (rs : rs_control) (kmalloc_ok old_buf kmalloc_ok2 old_buf2 : Bool)
    (buffer : ram_console_buffer) (buffer_size : Nat) (st0 : State)
    (chunks : List (List u8))
    (hclean : rs_clean rs)
    (hbs : buffer_size < WORD)
    (hinit : ram_console_init (some rs) kmalloc_ok buffer buffer_size old_buf = .ok st0)
    (hne : chunks ≠ [])
    (hdest : old_buf2 = true ∨ kmalloc_ok2 = true) :
    ∃ st st2, ram_console_writes rs st0 chunks = some st
      ∧ ram_console_init (some rs) kmalloc_ok2 st.buffer buffer_size old_buf2 = .ok st2
      ∧ st2.ram_console_corrected_bytes = 0 ∧ st2.ram_console_bad_blocks = 0
      ∧ st2.ram_console_old_log
        = some (live_content st ++ str_bytes "\nNo errors detected\n")
      ∧ live_content st
        = last_n (min st0.ram_console_buffer_size chunks.flatten.length) chunks.flatten
      ∧ st2.buffer.sig = RAM_CONSOLE_SIG ∧ st2.buffer.start = 0 ∧ st2.buffer.size = 0 := by
  obtain ⟨hl, -, hsig0, h0, h1⟩ := init_ok_spec _ _ _ _ _ _ hbs hinit
  obtain ⟨hW, hinv0⟩ := init_cursor_inv rs kmalloc_ok buffer buffer_size old_buf st0 hbs hinit
  have hpar0 : parity_inv rs st0 := by
    intro i hi
    rw [h1] at hi
    omega
  obtain ⟨st, hrun, ⟨i1, i2⟩, hcap, hsig⟩ := writes_cursor_inv rs chunks st0 hW hinv0
  obtain ⟨st1, hrun1, hpar, hhdr⟩ := writes_parity_inv rs chunks st0 hW hinv0 hpar0
  rw [hrun] at hrun1
  cases hrun1
  obtain ⟨st3, hrun3, -, hcont⟩ := writes_content rs chunks st0 hW hinv0
  rw [hrun] at hrun3
  cases hrun3
  have hempty : live_content st0 = [] := by
    unfold live_content
    rw [h0, h1]
    split_ifs with h
    · rw [← h]; rfl
    · rfl
  rw [← hcap] at hl
  obtain ⟨st2, hrun2, hc, hb, hs, s1, s2, -⟩ :=
    clean_init rs kmalloc_ok2 st.buffer buffer_size st.ram_console_buffer_size old_buf2 hclean
      hbs hl (hsig.trans hsig0) (by rcases i2 with h | h <;> omega)
      (by rcases i2 with h | h <;> omega) (hhdr hne) hpar hdest
  obtain ⟨-, -, hsig2, -⟩ := init_ok_spec _ _ _ _ _ _ hbs hrun2
  refine ⟨st, st2, hrun, hrun2, hc, hb, ?_, ?_, hsig2, s1, s2⟩
  · rw [hs]
    congr 2
    unfold live_content
    split_ifs with hfull
    · rw [hfull]
    · rcases i2 with h | h
      · rw [h, Nat.sub_self]
        rfl
      · exact absurd h hfull
  · rw [hcont, hempty, List.nil_append]
    unfold last_n
    congr 1
    omega

theorem reboot_round_trip_witness :
    rs_clean rs_checksum ∧ 332 < WORD
      ∧ ram_console_init (some rs_checksum) true blank_buffer 332 false = .ok blank_state
      ∧ ∃ st st2, ram_console_writes rs_checksum blank_state [str_bytes "AAAA"] = some st
        ∧ ram_console_init (some rs_checksum) true st.buffer 332 false = .ok st2
        ∧ st2.ram_console_corrected_bytes = 0 ∧ st2.ram_console_bad_blocks = 0
        ∧ st2.ram_console_old_log = some (str_bytes "AAAA\nNo errors detected\n")
        ∧ live_content st = str_bytes "AAAA"
        ∧ st2.buffer.sig = RAM_CONSOLE_SIG ∧ st2.buffer.start = 0 ∧ st2.buffer.size = 0 := by
  obtain ⟨st, st2, h1, h2, h3, h4, h5, h6, h7⟩ :=
    reboot_round_trip rs_checksum true false true false blank_buffer 332 blank_state
      [str_bytes "AAAA"] rs_checksum_clean (by decide) blank_init (by decide) (Or.inr rfl)
  have e : last_n (min blank_state.ram_console_buffer_size
      (List.flatten [str_bytes "AAAA"]).length) (List.flatten [str_bytes "AAAA"])
      = str_bytes "AAAA" := by decide
  rw [e] at h6
  rw [h6] at h5
  exact ⟨rs_checksum_clean, by decide, blank_init, st, st2, h1, h2, h3, h4, h5, h6, h7⟩

end RamConsole
